import Mathlib

/-!
Fast multipole method in two dimensions (`FMM.c`).

A shallow embedding of the numerical core of `FMM.c` and theorems about it.

Conventions of the embedding.

* A C `double` is an element of an ordered field `R` (exact arithmetic); the
  functions of `libm` that the code calls (`log`, `sqrt`, `atan`) are
  parameters of the definitions that use them.  The theorems instantiate
  `R` with the real numbers and `log`, `sqrt` with `Real.log`, `Real.sqrt`.
* The division `a[1]/a[0]` of `clgn`, whose divisor is zero for the
  interactive cells in the column of a cell, has the value `DoubleQuot`: a
  finite quotient, `+inf`, `-inf` or NaN; `atan` takes this value.  Every other
  division of the code has a non-zero divisor and is the division of `R`.
* A complex number is the pair `(re, im)`, as the `double[2]` of the code.
* A C `int` used as an index is an integer (`Int`) or, for particle and term
  counters that never go negative, a natural number; `fact` and `comb` keep
  the 32-bit wrap-around explicitly.
* A global array is a function from its index; `store a i v` is `a[i] = v`.
* The compile-time constants `BOX`, `Npar`, `L`, `P` are parameters; the
  literal `0.5` is written `1 / 2`.
* A `while` loop over a linked list takes a fuel bound and returns `none` when
  the bound is reached; the theorems show that it returns.
-/

namespace FMM

/-! ## Arrays -/

/-- The array `arr` after the assignment `arr[i] = v`. -/
def store {ι α : Type} [DecidableEq ι] (arr : ι → α) (i : ι) (v : α) : ι → α :=
  fun x => if x = i then v else arr x

/-- The list `lo, lo+1, ..., hi` of the values taken by the counter of
`for (i = lo; i <= hi; i++)`. -/
def intRange (lo hi : Int) : List Int :=
  (List.range (hi + 1 - lo).toNat).map (fun (i : Nat) => lo + (i : Int))

/-! ## Complex-arithmetic functions -/

/-- Function `cadd(s,a,t,b,c)`: `C = sA+tB`. -/
def cadd {R : Type} [Field R] (s : R) (a : R × R) (t : R) (b : R × R) : R × R :=
  (s * a.1 + t * b.1, s * a.2 + t * b.2)

/-- Function `smul(a,s,c)`: `C = sA`. -/
def smul {R : Type} [Field R] (a : R × R) (s : R) : R × R :=
  (s * a.1, s * a.2)

/-- Function `cmul(a,b,c)`: `C = AB`. -/
def cmul {R : Type} [Field R] (a b : R × R) : R × R :=
  (a.1 * b.1 - a.2 * b.2, a.1 * b.2 + a.2 * b.1)

/-- Function `cinv(a,ai)`: `AI = 1/A`, with `a2i = 1.0/(a[0]*a[0]+a[1]*a[1])`. -/
def cinv {R : Type} [Field R] (a : R × R) : R × R :=
  let a2i := 1 / (a.1 * a.1 + a.2 * a.2)
  (a.1 * a2i, -a.2 * a2i)

/-- The value of a division of two `double`s whose divisor may be zero: a
finite quotient, `+inf`, `-inf`, or NaN. -/
inductive DoubleQuot (R : Type) where
  /-- The quotient by a non-zero divisor. -/
  | finite (x : R) : DoubleQuot R
  /-- The value `+inf` of `x / 0.0` for `x > 0`. -/
  | posInf : DoubleQuot R
  /-- The value `-inf` of `x / 0.0` for `x < 0`. -/
  | negInf : DoubleQuot R
  /-- The value NaN of `0.0 / 0.0`. -/
  | nan : DoubleQuot R

/-- The division `x / y` of two `double`s as IEEE 754 evaluates it: the
quotient for `y ≠ 0`, and for the divisor `+0.0` the values `+inf` for `x > 0`,
`-inf` for `x < 0` and NaN for `x = 0`. (A zero divisor of `clgn` in `downward`
is the product of the `int` 0 and `rc > 0`, hence `+0.0`.) -/
def ddiv {R : Type} [LinearOrderedField R] (x y : R) : DoubleQuot R :=
  if y = 0 then
    (if 0 < x then DoubleQuot.posInf else if x < 0 then DoubleQuot.negInf else DoubleQuot.nan)
  else DoubleQuot.finite (x / y)

/-- Function `clgn(a,l)`: `L = log(A)`, that is `l[0] = log(sqrt(a[0]*a[0]+a[1]*a[1]))`
and `l[1] = atan(a[1]/a[0])`, with `log`, `sqrt` and `atan` of `libm`; `atan`
takes the value of the division, which is infinite when `a[0] = 0`. -/
def clgn {R : Type} [LinearOrderedField R] (log sqrt : R → R) (atan : DoubleQuot R → R)
    (a : R × R) : R × R :=
  (log (sqrt (a.1 * a.1 + a.2 * a.2)), atan (ddiv a.2 a.1))

/-- Function `cini(s,t,a)`: `A = s+it`. -/
def cini {R : Type} (s t : R) : R × R := (s, t)

/-- Conversion `double` to `int`: truncation toward zero. -/
def trunc {R : Type} [LinearOrderedField R] [FloorRing R] (x : R) : Int :=
  if 0 ≤ x then ⌊x⌋ else ⌈x⌉

/-! ## Combinatorics functions -/

/-- A 32-bit two's-complement `int` holding the integer `x`. -/
def wrap32 (x : Int) : Int := (x + 2 ^ 31) % 2 ^ 32 - 2 ^ 31

/-- Function `fact(n)`: `val = 1; for (i = 1; i <= n; i++) val *= i;` in 32-bit ints. -/
def fact (n : Int) : Int :=
  if n = 0 then 1
  else (intRange 1 n).foldl (fun val i => wrap32 (val * i)) 1

/-- Function `comb(n,k)`: `fact(n)/fact(k)/fact(n-k)` with truncating division. -/
def comb (n k : Int) : Int :=
  Int.tdiv (Int.tdiv (fact n) (fact k)) (fact (n - k))

/-! ## Cell indexing -/

/-- The cell-index offset at level `l`: `c0[l] = (pow(4,l)-1)/3`. -/
def c0 (l : Nat) : Int := (4 ^ l - 1) / 3

/-! ## All-pairs direct evaluation -/

/-- Body of the pair loop of `all_direct` for the pair `(j,k)`. -/
def all_direct_pair {R : Type} [Field R] (log sqrt : R → R) (z : Nat → R × R)
    (q : Nat → R) (j k : Nat) (pot_direct : Nat → R) : Nat → R :=
  let zjk0 := (z j).1 - (z k).1
  let rjk := 0 + zjk0 * zjk0
  let zjk1 := (z j).2 - (z k).2
  let rjk := rjk + zjk1 * zjk1
  let rjk := sqrt rjk
  let pot_direct := store pot_direct j (pot_direct j + q k * log rjk)
  store pot_direct k (pot_direct k + q j * log rjk)

/-- The potentials `pot_direct` after `all_direct`: the clearing loop
`for (j=0; j<Npar; j++)` and the pair loops
`for (j=0; j<Npar-1; j++) for (k=j+1; k<Npar; k++)`. -/
def all_direct_pot {R : Type} [Field R] (log sqrt : R → R) (Npar : Nat)
    (z : Nat → R × R) (q : Nat → R) (pot_direct : Nat → R) : Nat → R :=
  let pot_direct := (List.range Npar).foldl (fun p j => store p j 0) pot_direct
  (List.range (Npar - 1)).foldl
    (fun p j => (List.range' (j + 1) (Npar - (j + 1))).foldl
      (fun p k => all_direct_pair log sqrt z q j k p) p) pot_direct

/-- The energy loop shared by `nn_direct` and `all_direct`:
`eng = 0.0; for (j=0; j<Npar-1; j++) eng += q[j]*pot[j]; eng *= 0.5;`. -/
def energy {R : Type} [Field R] (Npar : Nat) (q : Nat → R) (pot : Nat → R) : R :=
  let eng := (List.range (Npar - 1)).foldl (fun e j => e + q j * pot j) 0
  eng * (1 / 2)

/-- Function `all_direct()`: the final `pot_direct` and `eng_direct`. -/
def all_direct {R : Type} [Field R] (log sqrt : R → R) (Npar : Nat)
    (z : Nat → R × R) (q : Nat → R) (pot_direct : Nat → R) : (Nat → R) × R :=
  let pot := all_direct_pot log sqrt Npar z q pot_direct
  (pot, energy Npar q pot)

/-! ## Leaf multipoles -/

/-- The constant `EMPTY` (`-1`), the null pointer of the linked lists. -/
def EMPTY : Int := -1

/-- Particle-to-cell mapping of `mp_leaf`: `cj[b] = z[j][b]/rc`, converted to
`int`. -/
def mp_leaf_cj {R : Type} [LinearOrderedField R] [FloorRing R] (rc : R) (zj : R × R) :
    Int × Int :=
  (trunc (zj.1 / rc), trunc (zj.2 / rc))

/-- Vector cell index of `nn_direct`: `vc[b] = z[j][b]/rc`, converted to `int`. -/
def nn_direct_vc {R : Type} [LinearOrderedField R] [FloorRing R] (rc : R) (zj : R × R) :
    Int × Int :=
  (trunc (zj.1 / rc), trunc (zj.2 / rc))

/-- Serial cell index `c0[l]+v[0]*lc+v[1]` of the vector index `v` at level `l`. -/
def serial (l : Nat) (lc : Int) (v : Int × Int) : Int :=
  c0 l + v.1 * lc + v.2

/-- Vector index of the cell with serial index `c` at level `l`:
`vc[0] = (c-c0[l])/lc; vc[1] = (c-c0[l])%lc` with `lc = pow(2,l)`. -/
def cellVec (l : Nat) (c : Int) : Int × Int :=
  let lc : Int := 2 ^ l
  (Int.tdiv (c - c0 l) lc, Int.tmod (c - c0 l) lc)

/-- Position relative to the centre of the cell with vector index `v`:
`z[j][b]-(v[b]+0.5)*rc`. -/
def relPos {R : Type} [Field R] (rc : R) (zj : R × R) (v : Int × Int) : R × R :=
  (zj.1 - ((v.1 : R) + 1 / 2) * rc, zj.2 - ((v.2 : R) + 1 / 2) * rc)

/-- Body of the particle loop of `mp_leaf` for particle `j`. -/
def mp_leaf_particle {R : Type} [LinearOrderedField R] [FloorRing R] (P L : Nat) (BOX : R)
    (z : Nat → R × R) (q : Nat → R) (phi : Int × Nat → R × R) (j : Nat) :
    Int × Nat → R × R :=
  let lc : Int := 2 ^ L
  let rc : R := BOX / (lc : R)
  let cj := mp_leaf_cj rc (z j)
  let c := serial L lc cj
  let zjc := relPos rc (z j) cj
  let qz := cini (q j) 0
  let phi := store phi (c, 0) (cadd 1 (phi (c, 0)) 1 qz)
  ((List.range' 1 P).foldl
    (fun (st : (R × R) × (Int × Nat → R × R)) a =>
      let qz := cmul st.1 zjc
      (qz, store st.2 (c, a) (cadd 1 (st.2 (c, a)) (-1 / (a : R)) qz)))
    (qz, phi)).2

/-- The loop `for (a=0; a<=P; a++) cini(0.0,0.0,arr[c][a]);`. -/
def clearCell {R : Type} [Field R] (P : Nat) (arr : Int × Nat → R × R) (c : Int) :
    Int × Nat → R × R :=
  (List.range (P + 1)).foldl (fun arr a => store arr (c, a) (cini 0 0)) arr

/-- Function `mp_leaf()`: the multipoles `phi` after clearing the leaf cells and
scanning the particles. -/
def mp_leaf {R : Type} [LinearOrderedField R] [FloorRing R] (P L Npar : Nat) (BOX : R)
    (z : Nat → R × R) (q : Nat → R) (phi : Int × Nat → R × R) : Int × Nat → R × R :=
  let nc : Int := 4 ^ L
  let phi := (intRange (c0 L) (c0 L + nc - 1)).foldl (clearCell P) phi
  (List.range Npar).foldl (mp_leaf_particle P L BOX z q) phi

/-! ## Upward pass -/

/-- Body of the daughter loop of `upward` for the mother `c` (vector index
`vc`, level `l`) and the daughter with vector index `vcd`. -/
def upward_daughter {R : Type} [Field R] (P l : Nat) (rc : R) (lc : Int) (c : Int)
    (vc : Int × Int) (phi : Int × Nat → R × R) (vcd : Int × Int) : Int × Nat → R × R :=
  let cd := c0 (l + 1) + vcd.1 * (2 * lc) + vcd.2
  let zdm : R × R := (((vcd.1 : R) + 1 / 2) * (rc / 2) - ((vc.1 : R) + 1 / 2) * rc,
    ((vcd.2 : R) + 1 / 2) * (rc / 2) - ((vc.2 : R) + 1 / 2) * rc)
  let phi := store phi (c, 0) (cadd 1 (phi (c, 0)) 1 (phi (cd, 0)))
  let pz := smul (phi (cd, 0)) 1
  ((List.range' 1 P).foldl
    (fun (st : (R × R) × (Int × Nat → R × R)) a =>
      let pz := cmul st.1 zdm
      let phi := store st.2 (c, a) (cadd 1 (st.2 (c, a)) (-1 / (a : R)) pz)
      let phi := ((List.range a).foldl
        (fun (sg : (R × R) × (Int × Nat → R × R)) g =>
          let zg := if g = 0 then cini 1 0 else cmul sg.1 zdm
          let w := cmul (sg.2 (cd, a - g)) zg
          (zg, store sg.2 (c, a)
            (cadd 1 (sg.2 (c, a))
              ((comb ((a : Int) - 1) ((a : Int) - (g : Int) - 1) : Int) : R) w)))
        (cini 0 0, phi)).2
      (pz, phi))
    (pz, phi)).2

/-- Body of the mother loop of `upward` for the cell `c` at level `l`. -/
def upward_cell {R : Type} [Field R] (P l : Nat) (BOX : R) (phi : Int × Nat → R × R)
    (c : Int) : Int × Nat → R × R :=
  let lc : Int := 2 ^ l
  let rc : R := BOX / (lc : R)
  let phi := clearCell P phi c
  let vc := cellVec l c
  (intRange (2 * vc.1) (2 * vc.1 + 1)).foldl
    (fun phi vcd0 => (intRange (2 * vc.2) (2 * vc.2 + 1)).foldl
      (fun phi vcd1 => upward_daughter P l rc lc c vc phi (vcd0, vcd1)) phi) phi

/-- Function `upward()`: the levels `l = L-1, ..., 0` in turn. -/
def upward {R : Type} [Field R] (P L : Nat) (BOX : R) (phi : Int × Nat → R × R) :
    Int × Nat → R × R :=
  (List.range L).reverse.foldl
    (fun phi l => (intRange (c0 l) (c0 l + 4 ^ l - 1)).foldl (upward_cell P l BOX) phi) phi

/-! ## Downward pass -/

/-- Body of the loop `for (g=0; g<=P-a; g++)` of the local-to-local
transformation, for the daughter `c`, the mother `cm` and the term `a`; the
state is `(zg, psi)`. -/
def l2l_g_body {R : Type} [Field R] (c cm : Int) (zdm : R × R) (a : Nat)
    (sg : (R × R) × (Int × Nat → R × R)) (g : Nat) : (R × R) × (Int × Nat → R × R) :=
  let zg := if g = 0 then cini 1 0 else cmul sg.1 zdm
  let w := cmul (sg.2 (cm, a + g)) zg
  (zg, store sg.2 (c, a)
    (cadd 1 (sg.2 (c, a)) ((comb ((a : Int) + (g : Int)) (a : Int) : Int) : R) w))

/-- Body of the loop `for (a=0; a<=P; a++)` of the local-to-local
transformation. -/
def l2l_a_body {R : Type} [Field R] (P : Nat) (c cm : Int) (zdm : R × R)
    (psi : Int × Nat → R × R) (a : Nat) : Int × Nat → R × R :=
  let psi := store psi (c, a) (cini 0 0)
  ((List.range (P - a + 1)).foldl (l2l_g_body c cm zdm a) (cini 0 0, psi)).2

/-- Serial index `cm` of the mother of the cell `c` of level `l`, as the
local-to-local loop computes it: `vcm[b] = vc[b]/2;
cm = c0[l-1]+vcm[0]*(lc/2)+vcm[1]`. -/
def l2l_cm (l : Nat) (c : Int) : Int :=
  let lc : Int := 2 ^ l
  let vc := cellVec l c
  let vcm : Int × Int := (Int.tdiv vc.1 2, Int.tdiv vc.2 2)
  c0 (l - 1) + vcm.1 * (Int.tdiv lc 2) + vcm.2

/-- Displacement daughter minus mother of the local-to-local loop:
`zdm[b] = (vc[b]+0.5)*rc-(vcm[b]+0.5)*(2*rc)`. -/
def l2l_zdm {R : Type} [Field R] (l : Nat) (BOX : R) (c : Int) : R × R :=
  let lc : Int := 2 ^ l
  let rc : R := BOX / (lc : R)
  let vc := cellVec l c
  let vcm : Int × Int := (Int.tdiv vc.1 2, Int.tdiv vc.2 2)
  (((vc.1 : R) + 1 / 2) * rc - ((vcm.1 : R) + 1 / 2) * (2 * rc),
    ((vc.2 : R) + 1 / 2) * rc - ((vcm.2 : R) + 1 / 2) * (2 * rc))

/-- Local-to-local transformation of `downward` for the daughter cell `c` at
level `l` (`l ≥ 1`): the loop over the terms `a`. -/
def l2l_cell {R : Type} [Field R] (P l : Nat) (BOX : R) (psi : Int × Nat → R × R)
    (c : Int) : Int × Nat → R × R :=
  (List.range (P + 1)).foldl (l2l_a_body P c (l2l_cm l c) (l2l_zdm l BOX c)) psi

/-- Bounds `vcb[b]`, `vce[b]` of the interactive-cell loop of `downward`. -/
def m2l_bounds (lc : Int) (v : Int) : Int × Int :=
  let vcb := 2 * (Int.tdiv v 2 - 1)
  let vcb := if vcb ≥ 0 then vcb else 0
  let vce := 2 * (Int.tdiv v 2 + 1) + 1
  let vce := if vce < lc then vce else lc - 1
  (vcb, vce)

/-- The test `(vci[0]-vc[0]<-1)||(vci[0]-vc[0]>1)||(vci[1]-vc[1]<-1)||(vci[1]-vc[1]>1)`
that excludes the daughter's nearest neighbours. -/
def m2l_test (vc vci : Int × Int) : Bool :=
  decide (vci.1 - vc.1 < -1) || decide (vci.1 - vc.1 > 1)
    || decide (vci.2 - vc.2 < -1) || decide (vci.2 - vc.2 > 1)

/-- Displacement `zdi[b] = (vc[b]-vci[b])*rc`, daughter minus interactive cell. -/
def m2l_zdi {R : Type} [Field R] (rc : R) (vc vci : Int × Int) : R × R :=
  (((vc.1 - vci.1 : Int) : R) * rc, ((vc.2 - vci.2 : Int) : R) * rc)

/-- Body of the first loop `for (b=1; b<=P; b++)` of the multipole-to-local
transformation, which accumulates into `psi[c][0]`; the state is `(zib, psi)`. -/
def m2l_b_body {R : Type} [Field R] (phi : Int × Nat → R × R) (c ci : Int) (zi : R × R)
    (sb : (R × R) × (Int × Nat → R × R)) (b : Nat) : (R × R) × (Int × Nat → R × R) :=
  let zib := cmul sb.1 zi
  let w := cmul (phi (ci, b)) zib
  (zib, store sb.2 (c, 0) (cadd 1 (sb.2 (c, 0)) 1 w))

/-- Body of the inner loop `for (b=1; b<=P; b++)` of the multipole-to-local
transformation, which accumulates into `w0`; the state is `(zib, w0)`. -/
def m2l_w0_body {R : Type} [Field R] (phi : Int × Nat → R × R) (ci : Int) (zi : R × R)
    (a : Nat) (sb : (R × R) × (R × R)) (b : Nat) : (R × R) × (R × R) :=
  let zib := cmul sb.1 zi
  let w := cmul (phi (ci, b)) zib
  (zib, cadd 1 sb.2 ((comb ((a : Int) + (b : Int) - 1) ((b : Int) - 1) : Int) : R) w)

/-- Body of the loop `for (a=1; a<=P; a++)` of the multipole-to-local
transformation; the state is `(zia, psi)`. -/
def m2l_a_body {R : Type} [Field R] (P : Nat) (phi : Int × Nat → R × R) (c ci : Int)
    (zi zim : R × R) (sa : (R × R) × (Int × Nat → R × R)) (a : Nat) :
    (R × R) × (Int × Nat → R × R) :=
  let zia := cmul sa.1 zim
  let w := cmul (phi (ci, 0)) zia
  let psi := store sa.2 (c, a) (cadd 1 (sa.2 (c, a)) (-1 / (a : R)) w)
  let w0 := cini 0 0
  let zib := cini 1 0
  let w0 := ((List.range' 1 P).foldl (m2l_w0_body phi ci zi a) (zib, w0)).2
  let w0 := cmul zia w0
  (zia, store psi (c, a) (cadd 1 (psi (c, a)) 1 w0))

/-- Body of the multipole-to-local transformation of `downward` for the cell
`c` (vector index `vc`) and the interactive cell with vector index `vci`. -/
def m2l_body {R : Type} [LinearOrderedField R] (log sqrt : R → R)
    (atan : DoubleQuot R → R) (P l : Nat) (rc : R) (lc : Int)
    (phi : Int × Nat → R × R) (c : Int) (vc : Int × Int) (psi : Int × Nat → R × R)
    (vci : Int × Int) : Int × Nat → R × R :=
  let ci := c0 l + vci.1 * lc + vci.2
  let zdi := m2l_zdi rc vc vci
  let lz := clgn log sqrt atan zdi
  let w := cmul (phi (ci, 0)) lz
  let psi := store psi (c, 0) (cadd 1 (psi (c, 0)) 1 w)
  let zi := cinv zdi
  let zib := cini 1 0
  let psi := ((List.range' 1 P).foldl (m2l_b_body phi c ci zi) (zib, psi)).2
  let zim := smul zi (-1)
  let zia := cini 1 0
  ((List.range' 1 P).foldl (m2l_a_body P phi c ci zi zim) (zia, psi)).2

/-- Multipole-to-local transformation of `downward` for the cell `c` at
level `l`: the loops over `vci[0]`, `vci[1]` and the exclusion test. -/
def m2l_cell {R : Type} [LinearOrderedField R] (log sqrt : R → R)
    (atan : DoubleQuot R → R) (P l : Nat) (BOX : R)
    (phi : Int × Nat → R × R) (psi : Int × Nat → R × R) (c : Int) : Int × Nat → R × R :=
  let lc : Int := 2 ^ l
  let rc : R := BOX / (lc : R)
  let vc := cellVec l c
  let b0 := m2l_bounds lc vc.1
  let b1 := m2l_bounds lc vc.2
  (intRange b0.1 b0.2).foldl
    (fun psi vci0 => (intRange b1.1 b1.2).foldl
      (fun psi vci1 =>
        if m2l_test vc (vci0, vci1) then
          m2l_body log sqrt atan P l rc lc phi c vc psi (vci0, vci1)
        else psi) psi) psi

/-- One iteration of the level loop of `downward`: the local-to-local loop
over the cells of level `l`, then the multipole-to-local loop. -/
def downward_level {R : Type} [LinearOrderedField R] (log sqrt : R → R)
    (atan : DoubleQuot R → R) (P : Nat) (BOX : R)
    (phi : Int × Nat → R × R) (psi : Int × Nat → R × R) (l : Nat) : Int × Nat → R × R :=
  let nc : Int := 4 ^ l
  let psi := (intRange (c0 l) (c0 l + nc - 1)).foldl (l2l_cell P l BOX) psi
  (intRange (c0 l) (c0 l + nc - 1)).foldl (m2l_cell log sqrt atan P l BOX phi) psi

/-- Function `downward()`: clears `psi` at levels 0 and 1 (`c = 0 .. c0[1]+4-1`), then
descends the levels `l = 2, ..., L`. -/
def downward {R : Type} [LinearOrderedField R] (log sqrt : R → R)
    (atan : DoubleQuot R → R) (P L : Nat) (BOX : R)
    (phi : Int × Nat → R × R) (psi : Int × Nat → R × R) : Int × Nat → R × R :=
  let nc : Int := 4 ^ 1
  let psi := (intRange 0 (c0 1 + nc - 1)).foldl (clearCell P) psi
  (List.range' 2 (L - 1)).foldl (downward_level log sqrt atan P BOX phi) psi

/-! ## Leaf evaluation and nearest-neighbour direct interactions -/

/-- The arrays `head`, `lscl` and `pot` of `nn_direct`. -/
structure NNState (R : Type) where
  /-- Header `head[c]`: the last particle linked to the cell `c`, or `EMPTY`. -/
  head : Int → Int
  /-- Link `lscl[j]`: the particle linked before `j` in the cell of `j`, or `EMPTY`. -/
  lscl : Nat → Int
  /-- Potential `pot[j]` at the position of particle `j`. -/
  pot : Nat → R

/-- Body of the loop `for (a=0; a<=P; a++)` that evaluates the local
expansion of the cell `c` at the relative position `zjc`; the state is
`(za, cpot)`. -/
def nn_eval_body {R : Type} [Field R] (psi : Int × Nat → R × R) (c : Int) (zjc : R × R)
    (st : (R × R) × (R × R)) (a : Nat) : (R × R) × (R × R) :=
  let za := if a = 0 then cini 1 0 else cmul st.1 zjc
  let w := cmul (psi (c, a)) za
  (za, cadd 1 st.2 1 w)

/-- Body of the particle loop of `nn_direct`: links particle `j` into the
list of its cell and evaluates the local expansion at its position. -/
def nn_scan {R : Type} [LinearOrderedField R] [FloorRing R] (P L : Nat) (BOX : R)
    (z : Nat → R × R) (psi : Int × Nat → R × R) (st : NNState R) (j : Nat) : NNState R :=
  let lc : Int := 2 ^ L
  let rc : R := BOX / (lc : R)
  let vc := nn_direct_vc rc (z j)
  let c := serial L lc vc
  let lscl := store st.lscl j (st.head c)
  let head := store st.head c (j : Int)
  let zjc := relPos rc (z j) vc
  let cpot := cini 0 0
  let cpot := ((List.range (P + 1)).foldl (nn_eval_body psi c zjc) (cini 0 0, cpot)).2
  { head := head, lscl := lscl, pot := store st.pot j cpot.1 }

/-- Body of the pair loop of `nn_direct` for the pair `(j,k)` with `j < k`. -/
def nn_direct_pair {R : Type} [Field R] (log sqrt : R → R) (z : Nat → R × R)
    (q : Nat → R) (j k : Nat) (pot : Nat → R) : Nat → R :=
  let zjk0 := (z j).1 - (z k).1
  let rjk := 0 + zjk0 * zjk0
  let zjk1 := (z j).2 - (z k).2
  let rjk := rjk + zjk1 * zjk1
  let rjk := sqrt rjk
  let pot := store pot j (pot j + q k * log rjk)
  store pot k (pot k + q j * log rjk)

/-- The loop `while (k != EMPTY) { if (j < k) {...}; k = lscl[k]; }` of
`nn_direct`, run for at most `fuel` tests of the loop condition; `none` when
the fuel runs out before the list ends. -/
def nn_scan_k {R : Type} [Field R] (log sqrt : R → R) (z : Nat → R × R) (q : Nat → R)
    (lscl : Nat → Int) (j : Int) : Nat → Int → (Nat → R) → Option (Nat → R)
  | 0, _, _ => none
  | fuel + 1, k, pot =>
    if k = EMPTY then some pot
    else
      let pot := if j < k then nn_direct_pair log sqrt z q j.toNat k.toNat pot else pot
      nn_scan_k log sqrt z q lscl j fuel (lscl k.toNat) pot

/-- The loop `while (j != EMPTY) { k = head[c1]; while (k != EMPTY) ...;
j = lscl[j]; }` of `nn_direct`, with fuel as `nn_scan_k`. -/
def nn_scan_j {R : Type} [Field R] (log sqrt : R → R) (z : Nat → R × R) (q : Nat → R)
    (lscl : Nat → Int) (head_c1 : Int) (fuel_k : Nat) :
    Nat → Int → (Nat → R) → Option (Nat → R)
  | 0, _, _ => none
  | fuel + 1, j, pot =>
    if j = EMPTY then some pot
    else
      match nn_scan_k log sqrt z q lscl j fuel_k head_c1 pot with
      | none => none
      | some pot => nn_scan_j log sqrt z q lscl head_c1 fuel_k fuel (lscl j.toNat) pot

/-- Body of the neighbour-cell loop of `nn_direct` for the central cell `c`
and the neighbour cell with vector index `vc1`. -/
def nn_neighbor {R : Type} [Field R] (log sqrt : R → R) (L Npar : Nat) (z : Nat → R × R)
    (q : Nat → R) (head : Int → Int) (lscl : Nat → Int) (c : Int) (pot : Nat → R)
    (vc1 : Int × Int) : Option (Nat → R) :=
  let lc : Int := 2 ^ L
  let c1 := serial L lc vc1
  if head c1 = EMPTY then some pot
  else nn_scan_j log sqrt z q lscl (head c1) (Npar + 1) (Npar + 1) (head c) pot

/-- Body of the central-cell loop of `nn_direct` for the cell with vector
index `vc`. -/
def nn_cell {R : Type} [Field R] (log sqrt : R → R) (L Npar : Nat) (z : Nat → R × R)
    (q : Nat → R) (head : Int → Int) (lscl : Nat → Int) (pot : Nat → R)
    (vc : Int × Int) : Option (Nat → R) :=
  let lc : Int := 2 ^ L
  let c := serial L lc vc
  if head c = EMPTY then some pot
  else
    let vcb0 := if vc.1 - 1 ≥ 0 then vc.1 - 1 else 0
    let vce0 := if vc.1 + 1 < lc then vc.1 + 1 else lc - 1
    let vcb1 := if vc.2 - 1 ≥ 0 then vc.2 - 1 else 0
    let vce1 := if vc.2 + 1 < lc then vc.2 + 1 else lc - 1
    (intRange vcb0 vce0).foldlM
      (fun pot v0 => (intRange vcb1 vce1).foldlM
        (fun pot v1 => nn_neighbor log sqrt L Npar z q head lscl c pot (v0, v1)) pot) pot

/-- Function `nn_direct()`: the final `pot` and `eng`; `none` if a list walk runs out
of fuel (`Npar + 1` tests of the loop condition per walk). -/
def nn_direct {R : Type} [LinearOrderedField R] [FloorRing R] (log sqrt : R → R)
    (P L Npar : Nat) (BOX : R) (z : Nat → R × R) (q : Nat → R) (psi : Int × Nat → R × R)
    (st : NNState R) : Option ((Nat → R) × R) :=
  let nc : Int := 4 ^ L
  let lc : Int := 2 ^ L
  let head := (intRange (c0 L) (c0 L + nc - 1)).foldl (fun h c => store h c EMPTY) st.head
  let st := (List.range Npar).foldl (nn_scan P L BOX z psi)
    { head := head, lscl := st.lscl, pot := st.pot }
  match (intRange 0 (lc - 1)).foldlM
      (fun pot v0 => (intRange 0 (lc - 1)).foldlM
        (fun pot v1 => nn_cell log sqrt L Npar z q st.head st.lscl pot (v0, v1)) pot)
      st.pot with
  | none => none
  | some pot => some (pot, energy Npar q pot)

/-- The vector indices `vci` for which the multipole-to-local body of
`downward` executes for the cell with vector index `vc`, in loop order. -/
def m2l_visits (lc : Int) (vc : Int × Int) : List (Int × Int) :=
  ((intRange (m2l_bounds lc vc.1).1 (m2l_bounds lc vc.1).2).flatMap
    (fun vci0 => (intRange (m2l_bounds lc vc.2).1 (m2l_bounds lc vc.2).2).map
      (fun vci1 => (vci0, vci1)))).filter (m2l_test vc)

/-! ## Auxiliary definitions used by the statements and proofs -/

/-- The function `atan` of `libm` on the value of a division, given the
function `atan` on the finite values and the number `hpi` for `π/2`:
`atan(+inf) = π/2` and `atan(-inf) = -π/2`. For NaN, which no real number
models, it takes the given value `v`; `clgn` meets NaN only at the argument
`(0,0)`, which `downward` never passes to it. -/
def atan_ieee {R : Type} [Neg R] (atan : R → R) (hpi v : R) : DoubleQuot R → R
  | DoubleQuot.finite x => atan x
  | DoubleQuot.posInf => hpi
  | DoubleQuot.negInf => -hpi
  | DoubleQuot.nan => v

/-- A pair `(re, im)` of reals as a complex number. -/
def toC (a : ℝ × ℝ) : ℂ := ⟨a.1, a.2⟩

/-- The two updates `pot[j] += q[k]*w; pot[k] += q[j]*w` of the pair loops of
`all_direct` and `nn_direct`, for the pair `p = (j,k)` and the pair weight
`w j k` (the logarithm of the distance). -/
def pairUpd {R : Type} [Field R] (q : Nat → R) (w : Nat → Nat → R) (pot : Nat → R)
    (p : Nat × Nat) : Nat → R :=
  let pot1 := store pot p.1 (pot p.1 + q p.2 * w p.1 p.2)
  store pot1 p.2 (pot1 p.2 + q p.1 * w p.1 p.2)

/-- The pair weight of the code: `log(sqrt(dx*dx + dy*dy))` for `z[j]-z[k]`. -/
def pairLog {R : Type} [Field R] (log sqrt : R → R) (z : Nat → R × R) (j k : Nat) : R :=
  log (sqrt (0 + ((z j).1 - (z k).1) * ((z j).1 - (z k).1)
    + ((z j).2 - (z k).2) * ((z j).2 - (z k).2)))

/-- The pairs `(j,k)` in the order the loops
`for (j=0; j<Npar-1; j++) for (k=j+1; k<Npar; k++)` of `all_direct` take them. -/
def allPairs (Npar : Nat) : List (Nat × Nat) :=
  (List.range (Npar - 1)).flatMap
    (fun j => (List.range' (j + 1) (Npar - (j + 1))).map (fun k => (j, k)))

/-- Centre `((v[0]+0.5)*rc, (v[1]+0.5)*rc)` of the cell with vector index `v`. -/
def cellCentre {R : Type} [Field R] (rc : R) (v : Int × Int) : R × R :=
  (((v.1 : R) + 1 / 2) * rc, ((v.2 : R) + 1 / 2) * rc)

/-- The local-to-local translation of the coefficients `psi_m` of the mother
by the shift `t`: `Σ_{g=0..P-a} C(a+g,a) * psi_m[a+g] * t^g`. -/
def l2lSum {K : Type} [Field K] (P : Nat) (psi_m : Nat → K) (t : K) (a : Nat) : K :=
  ∑ g in Finset.range (P - a + 1), ((Nat.choose (a + g) a : Nat) : K) * psi_m (a + g) * t ^ g

/-- The linked list that starts at `h` and follows `lscl` holds exactly the
particles of the list `l`, in order, and ends with `EMPTY`. -/
def IsChain (lscl : Nat → Int) : Int → List Nat → Prop
  | h, [] => h = EMPTY
  | h, j :: l => h = (j : Int) ∧ IsChain lscl (lscl j) l

/-- The particles among `0 .. n-1` whose cell is `c`, last first: the order
in which the linked list of `c` holds them. -/
def members (cell : Nat → Int) (n : Nat) (c : Int) : List Nat :=
  ((List.range n).filter (fun j => decide (cell j = c))).reverse

/-- The pairs `(j,k)` with `j < k`, `j` from `js` and `k` from `ks`, in the
order the two list walks of `nn_direct` take them. -/
def pairsOf (js ks : List Nat) : List (Nat × Nat) :=
  js.flatMap (fun j => (ks.filter (fun k => decide (j < k))).map (fun k => (j, k)))

/-- Serial index of the leaf cell that `nn_direct` computes for particle `j`. -/
def nnCell {R : Type} [LinearOrderedField R] [FloorRing R] (L : Nat) (BOX : R)
    (z : Nat → R × R) (j : Nat) : Int :=
  serial L (2 ^ L) (nn_direct_vc (BOX / (((2 : Int) ^ L : Int) : R)) (z j))

/-- The pairs `(j,k)` on which the pair body of `nn_direct` runs while the
central cell has the vector index `vc`, in loop order: the neighbour cells
`vc1` of the clamped 3 x 3 block around `vc`, then the particles `j` of the
central cell and `k` of the neighbour cell with `j < k`. -/
def nbrPairs (cell : Nat → Int) (L Npar : Nat) (vc : Int × Int) : List (Nat × Nat) :=
  (intRange (if vc.1 - 1 ≥ 0 then vc.1 - 1 else 0)
      (if vc.1 + 1 < 2 ^ L then vc.1 + 1 else 2 ^ L - 1)).flatMap
    (fun v0 => (intRange (if vc.2 - 1 ≥ 0 then vc.2 - 1 else 0)
        (if vc.2 + 1 < 2 ^ L then vc.2 + 1 else 2 ^ L - 1)).flatMap
      (fun v1 => pairsOf (members cell Npar (serial L (2 ^ L) vc))
        (members cell Npar (serial L (2 ^ L) (v0, v1)))))

/-- All the pairs `(j,k)` on which the pair body of `nn_direct` runs, in loop
order. -/
def nnPairs (cell : Nat → Int) (L Npar : Nat) : List (Nat × Nat) :=
  (intRange 0 (2 ^ L - 1)).flatMap
    (fun v0 => (intRange 0 (2 ^ L - 1)).flatMap (fun v1 => nbrPairs cell L Npar (v0, v1)))

/-- The global arrays and scalars of the program. -/
structure Globals (R : Type) where
  /-- Positions `z[j]`. -/
  z : Nat → R × R
  /-- Charges `q[j]`. -/
  q : Nat → R
  /-- Multipoles `phi[c][a]`. -/
  phi : Int × Nat → R × R
  /-- Local-expansion terms `psi[c][a]`. -/
  psi : Int × Nat → R × R
  /-- Potentials `pot[j]` of the fast multipole method. -/
  pot : Nat → R
  /-- Potentials `pot_direct[j]` of the all-pairs calculation. -/
  pot_direct : Nat → R
  /-- Energy `eng`. -/
  eng : R
  /-- Energy `eng_direct`. -/
  eng_direct : R
  /-- Headers `head[c]` of the linked lists. -/
  head : Int → Int
  /-- Links `lscl[j]` of the linked lists. -/
  lscl : Nat → Int

/-- The call `all_direct()` on the global state: it assigns `pot_direct` and
`eng_direct` and nothing else. -/
def all_direct_run {R : Type} [Field R] (log sqrt : R → R) (Npar : Nat) (g : Globals R) :
    Globals R :=
  { g with
    pot_direct := (all_direct log sqrt Npar g.z g.q g.pot_direct).1
    eng_direct := (all_direct log sqrt Npar g.z g.q g.pot_direct).2 }

/-- Vector index of the level-`l` ancestor of the leaf (level `L`) with vector
index `u`: the index halved `L - l` times, as `vcm[b] = vc[b]/2` does once. -/
def ancestor (L l : Nat) (u : Int × Int) : Int × Int :=
  (u.1 / 2 ^ (L - l), u.2 / 2 ^ (L - l))

/-! ## The downward pass with another complex logarithm -/

/-- The body `m2l_body` of the multipole-to-local transformation with the call
`clgn(zdi,lz)` replaced by `lz = clg(zdi)`. -/
def m2l_body_with {R : Type} [Field R] (clg : R × R → R × R) (P l : Nat) (rc : R) (lc : Int)
    (phi : Int × Nat → R × R) (c : Int) (vc : Int × Int) (psi : Int × Nat → R × R)
    (vci : Int × Int) : Int × Nat → R × R :=
  let ci := c0 l + vci.1 * lc + vci.2
  let zdi := m2l_zdi rc vc vci
  let lz := clg zdi
  let w := cmul (phi (ci, 0)) lz
  let psi := store psi (c, 0) (cadd 1 (psi (c, 0)) 1 w)
  let zi := cinv zdi
  let zib := cini 1 0
  let psi := ((List.range' 1 P).foldl (m2l_b_body phi c ci zi) (zib, psi)).2
  let zim := smul zi (-1)
  let zia := cini 1 0
  ((List.range' 1 P).foldl (m2l_a_body P phi c ci zi zim) (zia, psi)).2

/-- The loop `m2l_cell` over the interactive cells with `clgn` replaced by `clg`. -/
def m2l_cell_with {R : Type} [Field R] (clg : R × R → R × R) (P l : Nat) (BOX : R)
    (phi : Int × Nat → R × R) (psi : Int × Nat → R × R) (c : Int) : Int × Nat → R × R :=
  let lc : Int := 2 ^ l
  let rc : R := BOX / (lc : R)
  let vc := cellVec l c
  let b0 := m2l_bounds lc vc.1
  let b1 := m2l_bounds lc vc.2
  (intRange b0.1 b0.2).foldl
    (fun psi vci0 => (intRange b1.1 b1.2).foldl
      (fun psi vci1 =>
        if m2l_test vc (vci0, vci1) then
          m2l_body_with clg P l rc lc phi c vc psi (vci0, vci1)
        else psi) psi) psi

/-- One iteration `downward_level` of the level loop with `clgn` replaced by `clg`. -/
def downward_level_with {R : Type} [Field R] (clg : R × R → R × R) (P : Nat) (BOX : R)
    (phi : Int × Nat → R × R) (psi : Int × Nat → R × R) (l : Nat) : Int × Nat → R × R :=
  let nc : Int := 4 ^ l
  let psi := (intRange (c0 l) (c0 l + nc - 1)).foldl (l2l_cell P l BOX) psi
  (intRange (c0 l) (c0 l + nc - 1)).foldl (m2l_cell_with clg P l BOX phi) psi

/-- Function `downward()` with `clgn` replaced by `clg`. -/
def downward_with {R : Type} [Field R] (clg : R × R → R × R) (P L : Nat) (BOX : R)
    (phi : Int × Nat → R × R) (psi : Int × Nat → R × R) : Int × Nat → R × R :=
  let nc : Int := 4 ^ 1
  let psi := (intRange 0 (c0 1 + nc - 1)).foldl (clearCell P) psi
  (List.range' 2 (L - 1)).foldl (downward_level_with clg P BOX phi) psi

/-- The local-to-local translation with the weights `comb(a+g,a)` that the
code computes: `Σ_{g=0..P-a} comb(a+g,a) * psi_m[a+g] * t^g`. -/
def l2lSumC {K : Type} [Field K] (P : Nat) (psi_m : Nat → K) (t : K) (a : Nat) : K :=
  ∑ g in Finset.range (P - a + 1),
    ((comb ((a : Int) + (g : Int)) (a : Int) : Int) : K) * psi_m (a + g) * t ^ g

/-- The multipole-to-local term of one interactive cell with the weights
`comb(a+b-1,b-1)` that the code computes. -/
def m2lSumC {K : Type} [Field K] (P : Nat) (phi_i : Nat → K) (L0 I1 : K) (a : Nat) : K :=
  if a = 0 then phi_i 0 * L0 + ∑ b in Finset.Icc 1 P, phi_i b * I1 ^ b
  else -(phi_i 0) * (-I1) ^ a / (a : K)
    + (-I1) ^ a * ∑ b in Finset.Icc 1 P,
        ((comb ((a : Int) + (b : Int) - 1) ((b : Int) - 1) : Int) : K) * phi_i b * I1 ^ b

/-- Sum of the terms `m2lSumC` of the interactive cells visited for the cell
with serial index `c` at level `l`, with the logarithm `clg`. -/
def m2lTotalC {R K : Type} [Field R] [Field K] (ι : R × R → K) (clg : R × R → R × R)
    (P l : Nat) (BOX : R) (phi : Int × Nat → R × R) (c : Int) (a : Nat) : K :=
  ∑ u in (m2l_visits (2 ^ l) (cellVec l c)).toFinset,
    m2lSumC P (fun b => ι (phi (serial l (2 ^ l) u, b)))
      (ι (clg (m2l_zdi (BOX / (((2 : Int) ^ l : Int) : R)) (cellVec l c) u)))
      (ι (cinv (m2l_zdi (BOX / (((2 : Int) ^ l : Int) : R)) (cellVec l c) u))) a

/-! ## Auxiliary definitions for the upward pass -/

/-- Body of the loop `for (g=0; g<=a-1; g++)` of `upward` for the mother `c`,
the daughter `cd` and the term `a`, as written in `upward_daughter`; the state
is `(zg, phi)`. -/
def upward_g_body {R : Type} [Field R] (c cd : Int) (zdm : R × R) (a : Nat)
    (sg : (R × R) × (Int × Nat → R × R)) (g : Nat) : (R × R) × (Int × Nat → R × R) :=
  let zg := if g = 0 then cini 1 0 else cmul sg.1 zdm
  let w := cmul (sg.2 (cd, a - g)) zg
  (zg, store sg.2 (c, a)
    (cadd 1 (sg.2 (c, a))
      ((comb ((a : Int) - 1) ((a : Int) - (g : Int) - 1) : Int) : R) w))

/-- Body of the loop `for (a=1; a<=P; a++)` of `upward`, as written in
`upward_daughter`; the state is `(pz, phi)`. -/
def upward_a_body {R : Type} [Field R] (c cd : Int) (zdm : R × R)
    (st : (R × R) × (Int × Nat → R × R)) (a : Nat) : (R × R) × (Int × Nat → R × R) :=
  let pz := cmul st.1 zdm
  let phi := store st.2 (c, a) (cadd 1 (st.2 (c, a)) (-1 / (a : R)) pz)
  let phi := ((List.range a).foldl (upward_g_body c cd zdm a) (cini 0 0, phi)).2
  (pz, phi)

/-- Displacement `zdm[b] = (vcd[b]+0.5)*(rc/2)-(vc[b]+0.5)*rc` of `upward`,
daughter minus mother. -/
def upward_zdm {R : Type} [Field R] (rc : R) (vc vcd : Int × Int) : R × R :=
  (((vcd.1 : R) + 1 / 2) * (rc / 2) - ((vc.1 : R) + 1 / 2) * rc,
    ((vcd.2 : R) + 1 / 2) * (rc / 2) - ((vc.2 : R) + 1 / 2) * rc)

/-- The multipole-to-multipole translation, by the shift `t`, of the
multipoles `phi_d` of one daughter, with the weights `comb(a-1,a-g-1)` that the
code computes: `phi_d[0]` for `a = 0`, and
`-phi_d[0]*t^a/a + Σ_{g=0..a-1} comb(a-1,a-g-1) * phi_d[a-g] * t^g` for `a ≥ 1`. -/
def m2mSumC {K : Type} [Field K] (phi_d : Nat → K) (t : K) (a : Nat) : K :=
  if a = 0 then phi_d 0
  else -(1 / (a : K)) * (phi_d 0 * t ^ a)
    + ∑ g in Finset.range a,
        ((comb ((a : Int) - 1) ((a : Int) - (g : Int) - 1) : Int) : K) * phi_d (a - g) * t ^ g

/-- Vector indices of the four daughters of the cell with vector index `v`, in
the order of the loops `vcd[0] = 2*vc[0] .. 2*vc[0]+1`,
`vcd[1] = 2*vc[1] .. 2*vc[1]+1`. -/
def daughters (v : Int × Int) : List (Int × Int) :=
  [(2 * v.1, 2 * v.2), (2 * v.1, 2 * v.2 + 1), (2 * v.1 + 1, 2 * v.2), (2 * v.1 + 1, 2 * v.2 + 1)]

/-- Sum over the four daughters of the cell `c` of level `l` of their
translated multipoles `m2mSumC`, for the term `a`; `ι` embeds the pairs of the
code into the field `K` of the complex numbers. -/
def m2mTotalC {R K : Type} [Field R] [Field K] (ι : R × R → K) (l : Nat) (BOX : R)
    (phi : Int × Nat → R × R) (c : Int) (a : Nat) : K :=
  ((daughters (cellVec l c)).map (fun d =>
    m2mSumC (fun b => ι (phi (serial (l + 1) (2 ^ (l + 1)) d, b)))
      (ι (upward_zdm (BOX / (((2 : Int) ^ l : Int) : R)) (cellVec l c) d)) a)).sum

/-- Term `a` of the multipole expansion of one charge `q` at the position `s`
relative to the centre of the expansion: `q` for `a = 0`, `-(q/a) * s^a` for
`a ≥ 1`. -/
def p2mTerm {K : Type} [Field K] (q s : K) (a : Nat) : K :=
  if a = 0 then q else -(1 / (a : K)) * (q * s ^ a)

/-! ## The kernel of the fast multipole method -/

theorem store_same {ι α : Type} [DecidableEq ι] (arr : ι → α) (i : ι) (v : α) :
    store arr i v i = v := by
  simp [store]

theorem store_other {ι α : Type} [DecidableEq ι] (arr : ι → α) (i x : ι) (v : α)
    (h : x ≠ i) : store arr i v x = arr x := by
  simp [store, h]

theorem mem_intRange (lo hi x : Int) : x ∈ intRange lo hi ↔ lo ≤ x ∧ x ≤ hi := by
  unfold intRange
  simp only [List.mem_map, List.mem_range]
  constructor
  · rintro ⟨i, hi1, rfl⟩
    omega
  · rintro ⟨h1, h2⟩
    exact ⟨(x - lo).toNat, by omega, by omega⟩

theorem nodup_intRange (lo hi : Int) : (intRange lo hi).Nodup := by
  unfold intRange
  apply List.Nodup.map
  · intro a b h
    simpa using h
  · exact List.nodup_range _

theorem sum_map_range {M : Type} [AddCommMonoid M] (f : Nat → M) (n : Nat) :
    ((List.range n).map f).sum = ∑ i in Finset.range n, f i := by
  induction n with
  | zero => simp
  | succ n ih => simp [List.range_succ, Finset.sum_range_succ, ih]

theorem pairUpd_apply {R : Type} [Field R] (q : Nat → R) (w : Nat → Nat → R)
    (pot : Nat → R) (p : Nat × Nat) (h : p.1 ≠ p.2) (i : Nat) :
    pairUpd q w pot p i = pot i + ((if i = p.1 then q p.2 * w p.1 p.2 else 0)
      + (if i = p.2 then q p.1 * w p.1 p.2 else 0)) := by
  unfold pairUpd store
  by_cases h1 : i = p.1
  · have h2 : i ≠ p.2 := fun h3 => h (h1.symm.trans h3)
    have h3 : p.2 ≠ p.1 := fun h3 => h h3.symm
    simp [h1, h3, h]
  · by_cases h2 : i = p.2
    · have h3 : p.2 ≠ p.1 := fun h3 => h h3.symm
      simp [h2, h3]
    · simp [h1, h2]

/-- Folding the pair updates over a duplicate-free list of ordered pairs
`j < k < N` adds to `pot[i]` the term `q[k] * w i k` of every `k` paired
with `i` in the list, in either position. -/
theorem foldl_pairUpd {R : Type} [Field R] (N : Nat) (q : Nat → R) (w : Nat → Nat → R)
    (hw : ∀ a b, w a b = w b a) (ps : List (Nat × Nat))
    (hlt : ∀ p ∈ ps, p.1 < p.2 ∧ p.2 < N) (hnd : ps.Nodup) (pot : Nat → R) (i : Nat) :
    (ps.foldl (pairUpd q w) pot) i
      = pot i + ∑ k in Finset.range N,
          if ((i, k) ∈ ps ∨ (k, i) ∈ ps) then q k * w i k else 0 := by
  induction ps generalizing pot with
  | nil => simp
  | cons p ps ih =>
    have hp := hlt p (List.mem_cons_self _ _)
    have hlt2 : ∀ p2 ∈ ps, p2.1 < p2.2 ∧ p2.2 < N := fun p2 h2 =>
      hlt p2 (List.mem_cons_of_mem _ h2)
    have hnd2 := (List.nodup_cons.mp hnd).2
    have hnot := (List.nodup_cons.mp hnd).1
    rw [List.foldl_cons, ih hlt2 hnd2, pairUpd_apply q w pot p (Nat.ne_of_lt hp.1)]
    have key : ∀ k ∈ Finset.range N,
        (if ((i, k) ∈ p :: ps ∨ (k, i) ∈ p :: ps) then q k * w i k else 0)
          = ((if (i, k) = p then q k * w i k else 0)
              + (if (k, i) = p then q k * w i k else 0))
            + (if ((i, k) ∈ ps ∨ (k, i) ∈ ps) then q k * w i k else 0) := by
      intro k _
      by_cases h1 : (i, k) = p
      · subst h1
        have hik : i < k := hp.1
        have h2 : (k, i) ≠ (i, k) := by
          intro h3
          have := (Prod.mk.inj h3).1
          omega
        have h4 : (k, i) ∉ ps := by
          intro h5
          have := (hlt2 _ h5).1
          simp only at this
          omega
        simp [List.mem_cons, h2, hnot, h4]
      · by_cases h2 : (k, i) = p
        · subst h2
          have hik : k < i := hp.1
          have h4 : (i, k) ∉ ps := by
            intro h5
            have := (hlt2 _ h5).1
            simp only at this
            omega
          simp [List.mem_cons, h1, hnot, h4]
        · simp [List.mem_cons, h1, h2]
    rw [Finset.sum_congr rfl key, Finset.sum_add_distrib, Finset.sum_add_distrib]
    have e1 : (∑ k in Finset.range N, if (i, k) = p then q k * w i k else 0)
        = if i = p.1 then q p.2 * w p.1 p.2 else 0 := by
      by_cases h : i = p.1
      · rw [if_pos h, Finset.sum_eq_single p.2]
        · simp [h]
        · intro b _ hb
          rw [if_neg]
          intro h2
          exact hb (by rw [← h2])
        · intro h2
          exact absurd (Finset.mem_range.mpr hp.2) h2
      · rw [if_neg h]
        apply Finset.sum_eq_zero
        intro k _
        rw [if_neg]
        intro h2
        exact h (by rw [← h2])
    have e2 : (∑ k in Finset.range N, if (k, i) = p then q k * w i k else 0)
        = if i = p.2 then q p.1 * w p.1 p.2 else 0 := by
      by_cases h : i = p.2
      · rw [if_pos h, Finset.sum_eq_single p.1]
        · simp [h, hw p.2 p.1]
        · intro b _ hb
          rw [if_neg]
          intro h2
          exact hb (by rw [← h2])
        · intro h2
          exact absurd (Finset.mem_range.mpr (lt_trans hp.1 hp.2)) h2
      · rw [if_neg h]
        apply Finset.sum_eq_zero
        intro k _
        rw [if_neg]
        intro h2
        exact h (by rw [← h2])
    rw [e1, e2]
    ring

/-! ## `all_direct` -/

theorem all_direct_pair_eq {R : Type} [Field R] (log sqrt : R → R) (z : Nat → R × R)
    (q : Nat → R) (j k : Nat) (pot : Nat → R) :
    all_direct_pair log sqrt z q j k pot = pairUpd q (pairLog log sqrt z) pot (j, k) := rfl

theorem pairLog_symm {R : Type} [Field R] (log sqrt : R → R) (z : Nat → R × R)
    (a b : Nat) : pairLog log sqrt z a b = pairLog log sqrt z b a := by
  unfold pairLog
  congr 2
  ring

theorem mem_allPairs (N : Nat) (p : Nat × Nat) :
    p ∈ allPairs N ↔ p.1 < p.2 ∧ p.2 < N := by
  unfold allPairs
  simp only [List.mem_flatMap, List.mem_range, List.mem_map, List.mem_range'_1]
  constructor
  · rintro ⟨j, hj, k, hk, rfl⟩
    simp only
    omega
  · rintro ⟨h1, h2⟩
    exact ⟨p.1, by omega, p.2, by omega, rfl⟩

theorem nodup_allPairs (N : Nat) : (allPairs N).Nodup := by
  unfold allPairs
  rw [List.nodup_flatMap]
  constructor
  · intro j _
    apply List.Nodup.map
    · intro a b h
      exact (Prod.mk.inj h).2
    · exact List.nodup_range' _ _
  · apply List.Pairwise.imp _ (List.nodup_range (N - 1))
    intro a b hab
    simp only [Function.onFun]
    intro x hx1 hx2
    simp only [List.mem_map] at hx1 hx2
    obtain ⟨k1, _, rfl⟩ := hx1
    obtain ⟨k2, _, h2⟩ := hx2
    exact hab (Prod.mk.inj h2).1.symm

theorem foldl_clear {R : Type} [Field R] (n : Nat) (pot : Nat → R) (j : Nat) :
    (List.range n).foldl (fun p j => store p j 0) pot j = if j < n then 0 else pot j := by
  induction n with
  | zero => simp
  | succ n ih =>
    rw [List.range_succ, List.foldl_append, List.foldl_cons, List.foldl_nil]
    by_cases h : j = n
    · subst h
      simp [store]
    · rw [store_other _ _ _ _ h, ih]
      by_cases h2 : j < n
      · simp [h2, Nat.lt_succ_of_lt h2]
      · have : ¬ j < n + 1 := by omega
        simp [h2, this]

theorem all_direct_pot_eq_foldl {R : Type} [Field R] (log sqrt : R → R) (N : Nat)
    (z : Nat → R × R) (q : Nat → R) (pot0 : Nat → R) :
    all_direct_pot log sqrt N z q pot0
      = (allPairs N).foldl (pairUpd q (pairLog log sqrt z))
          ((List.range N).foldl (fun p j => store p j 0) pot0) := by
  unfold all_direct_pot allPairs
  rw [List.flatMap, List.foldl_flatten, List.foldl_map]
  have h : (fun (p : Nat → R) (j : Nat) => (List.range' (j + 1) (N - (j + 1))).foldl
        (fun p k => all_direct_pair log sqrt z q j k p) p)
      = (fun x y => List.foldl (pairUpd q (pairLog log sqrt z)) x
          (List.map (fun k => (y, k)) (List.range' (y + 1) (N - (y + 1))))) := by
    funext p j
    rw [List.foldl_map]
    rfl
  simp only [h]

/-- The potentials of `all_direct` over any field and any `log`, `sqrt`:
`pot_direct[j]` is the sum over `k ≠ j` of `q[k]` times the pair weight. -/
theorem all_direct_pot_apply {R : Type} [Field R] (log sqrt : R → R) (N : Nat)
    (z : Nat → R × R) (q : Nat → R) (pot0 : Nat → R) (j : Nat) (hj : j < N) :
    all_direct_pot log sqrt N z q pot0 j
      = ∑ k in (Finset.range N).erase j, q k * pairLog log sqrt z j k := by
  rw [all_direct_pot_eq_foldl,
    foldl_pairUpd N q (pairLog log sqrt z) (pairLog_symm log sqrt z) (allPairs N)
      (fun p hp => (mem_allPairs N p).mp hp) (nodup_allPairs N), foldl_clear, if_pos hj,
    zero_add, ← Finset.add_sum_erase (Finset.range N) _ (Finset.mem_range.mpr hj)]
  have h0 : ¬ ((j, j) ∈ allPairs N ∨ (j, j) ∈ allPairs N) := by
    simp [mem_allPairs]
  rw [if_neg h0, zero_add]
  apply Finset.sum_congr rfl
  intro k hk
  have hk1 := Finset.ne_of_mem_erase hk
  have hk2 := Finset.mem_range.mp (Finset.mem_of_mem_erase hk)
  have h1 : (j, k) ∈ allPairs N ∨ (k, j) ∈ allPairs N := by
    simp only [mem_allPairs]
    omega
  rw [if_pos h1]

theorem pairLog_real (z : Nat → ℝ × ℝ) (j k : Nat) :
    pairLog Real.log Real.sqrt z j k = Real.log (Complex.abs (toC (z j) - toC (z k))) := by
  unfold pairLog toC
  rw [Complex.abs_apply, Complex.normSq_apply]
  simp

/-- C1: `all_direct` computes the logarithmic pair potential. Over exact real
arithmetic, for every `N ≥ 1`, every charge vector and pairwise distinct
positions, `pot_direct[j] = Σ_{k ≠ j} q[k] * log|z[j] - z[k]|` for every
`j < N`; in particular for `N = 2`, `pot_direct[0] = q[1] * log|z[0] - z[1]|`. -/
theorem all_direct_log_potential (N : Nat) (hN : 1 ≤ N) (z : Nat → ℝ × ℝ)
    (q pot0 : Nat → ℝ) (hz : ∀ j < N, ∀ k < N, j ≠ k → z j ≠ z k) :
    (∀ j < N, (all_direct Real.log Real.sqrt N z q pot0).1 j
        = ∑ k in (Finset.range N).erase j,
            q k * Real.log (Complex.abs (toC (z j) - toC (z k))))
    ∧ (N = 2 → (all_direct Real.log Real.sqrt N z q pot0).1 0
        = q 1 * Real.log (Complex.abs (toC (z 0) - toC (z 1)))) := by
  have main : ∀ j < N, (all_direct Real.log Real.sqrt N z q pot0).1 j
        = ∑ k in (Finset.range N).erase j,
            q k * Real.log (Complex.abs (toC (z j) - toC (z k))) := by
    intro j hj
    show all_direct_pot Real.log Real.sqrt N z q pot0 j = _
    rw [all_direct_pot_apply Real.log Real.sqrt N z q pot0 j hj]
    apply Finset.sum_congr rfl
    intro k _
    rw [pairLog_real]
  refine ⟨main, ?_⟩
  intro h2
  subst h2
  rw [main 0 (by norm_num)]
  have : (Finset.range 2).erase 0 = {1} := by decide
  rw [this, Finset.sum_singleton]

/-- Witness of C1: two unit charges at `(0,0)` and `(1,0)`. -/
theorem all_direct_log_potential_witness :
    (1 ≤ 2) ∧ (∀ j < 2, ∀ k < 2, j ≠ k →
        (fun n : Nat => ((n : ℝ), (0 : ℝ))) j ≠ (fun n : Nat => ((n : ℝ), (0 : ℝ))) k)
    ∧ ((all_direct Real.log Real.sqrt 2 (fun n : Nat => ((n : ℝ), (0 : ℝ)))
          (fun _ => 1) (fun _ => 0)).1 0
        = (1 : ℝ) * Real.log (Complex.abs
            (toC (((0 : Nat) : ℝ), (0 : ℝ)) - toC (((1 : Nat) : ℝ), (0 : ℝ))))) :=
  have hz : ∀ j < 2, ∀ k < 2, j ≠ k →
      (fun n : Nat => ((n : ℝ), (0 : ℝ))) j ≠ (fun n : Nat => ((n : ℝ), (0 : ℝ))) k := by
    intro j _ k _ hjk h
    exact hjk (by simpa using h)
  ⟨by norm_num, hz,
    (all_direct_log_potential 2 (by norm_num) (fun n : Nat => ((n : ℝ), (0 : ℝ)))
      (fun _ => 1) (fun _ => 0) hz).2 rfl⟩

/-! ## The energy loop -/

theorem foldl_add_eq_sum {R : Type} [Field R] (f : Nat → R) (n : Nat) (e : R) :
    (List.range n).foldl (fun e j => e + f j) e = e + ∑ j in Finset.range n, f j := by
  induction n with
  | zero => simp
  | succ n ih =>
    rw [List.range_succ, List.foldl_append, List.foldl_cons, List.foldl_nil, ih,
      Finset.sum_range_succ, add_assoc]

/-- The energy loop sums the particles `0 .. Npar-2` only. -/
theorem energy_eq_sum {R : Type} [Field R] (N : Nat) (q pot : Nat → R) :
    energy N q pot = (∑ j in Finset.range (N - 1), q j * pot j) * (1 / 2) := by
  unfold energy
  rw [foldl_add_eq_sum (fun j => q j * pot j), zero_add]

/-- C3 (the code at the failing input): for two unit charges at `(0,0)` and
`(1/2,0)`, `all_direct` leaves `eng_direct = 0.5 * q[0]*pot_direct[0]
= 0.5 * log(1/2)`, which differs from the sum over every particle
`0.5 * (q[0]*pot_direct[0] + q[1]*pot_direct[1]) = log(1/2)`: the energy loop
`for (j=0; j<Npar-1; j++)` leaves out the last particle. -/
theorem energy_omits_last_particle :
    (all_direct Real.log Real.sqrt 2 (fun n : Nat => ((n : ℝ) / 2, (0 : ℝ)))
        (fun _ => 1) (fun _ => 0)).2 = Real.log (1 / 2) * (1 / 2)
    ∧ (∑ j in Finset.range 2, (1 : ℝ) *
        (all_direct Real.log Real.sqrt 2 (fun n : Nat => ((n : ℝ) / 2, (0 : ℝ)))
          (fun _ => 1) (fun _ => 0)).1 j) * (1 / 2) = Real.log (1 / 2)
    ∧ (all_direct Real.log Real.sqrt 2 (fun n : Nat => ((n : ℝ) / 2, (0 : ℝ)))
        (fun _ => 1) (fun _ => 0)).2
      ≠ (∑ j in Finset.range 2, (1 : ℝ) *
        (all_direct Real.log Real.sqrt 2 (fun n : Nat => ((n : ℝ) / 2, (0 : ℝ)))
          (fun _ => 1) (fun _ => 0)).1 j) * (1 / 2) := by
  have e01 : (Finset.range 2).erase 0 = {1} := by decide
  have e10 : (Finset.range 2).erase 1 = {0} := by decide
  have hs : ∀ x : ℝ, x = (1 / 2) * (1 / 2) → Real.log (Real.sqrt x) = Real.log (1 / 2) := by
    intro x hx
    rw [hx, Real.sqrt_mul_self (by norm_num)]
  have h0 : (all_direct Real.log Real.sqrt 2 (fun n : Nat => ((n : ℝ) / 2, (0 : ℝ)))
        (fun _ => 1) (fun _ => 0)).1 0 = Real.log (1 / 2) := by
    show all_direct_pot _ _ _ _ _ _ _ = _
    rw [all_direct_pot_apply _ _ _ _ _ _ _ (by norm_num), e01, Finset.sum_singleton]
    unfold pairLog
    rw [one_mul]
    apply hs
    norm_num
  have h1 : (all_direct Real.log Real.sqrt 2 (fun n : Nat => ((n : ℝ) / 2, (0 : ℝ)))
        (fun _ => 1) (fun _ => 0)).1 1 = Real.log (1 / 2) := by
    show all_direct_pot _ _ _ _ _ _ _ = _
    rw [all_direct_pot_apply _ _ _ _ _ _ _ (by norm_num), e10, Finset.sum_singleton]
    unfold pairLog
    rw [one_mul]
    apply hs
    norm_num
  have h2 : (all_direct Real.log Real.sqrt 2 (fun n : Nat => ((n : ℝ) / 2, (0 : ℝ)))
        (fun _ => 1) (fun _ => 0)).2 = Real.log (1 / 2) * (1 / 2) := by
    show energy _ _ _ = _
    rw [energy_eq_sum]
    simp only [Nat.add_one_sub_one, Finset.sum_range_one, one_mul]
    rw [show all_direct_pot Real.log Real.sqrt 2 (fun n : Nat => ((n : ℝ) / 2, (0 : ℝ)))
        (fun _ => 1) (fun _ => 0) 0 = Real.log (1 / 2) from h0]
  have h3 : (∑ j in Finset.range 2, (1 : ℝ) *
        (all_direct Real.log Real.sqrt 2 (fun n : Nat => ((n : ℝ) / 2, (0 : ℝ)))
          (fun _ => 1) (fun _ => 0)).1 j) * (1 / 2) = Real.log (1 / 2) := by
    rw [Finset.sum_range_succ, Finset.sum_range_one, h0, h1]
    ring
  refine ⟨h2, h3, ?_⟩
  rw [h2, h3]
  have hlog : Real.log (1 / 2) < 0 := Real.log_neg (by norm_num) (by norm_num)
  intro h
  linarith

/-! ## `fact` and `comb` -/

theorem comb_table : ∀ n ∈ List.range 13, ∀ k ∈ List.range (n + 1),
    comb (n : Int) (k : Int) = ((Nat.choose n k : Nat) : Int) := by
  decide

/-- C5: `comb(n,k)`, computed as `fact(n)/fact(k)/fact(n-k)` with 32-bit signed
arithmetic and truncating division, is the exact binomial coefficient for
every `0 ≤ k ≤ n ≤ 2P = 12` (the configured `P = 6`); this covers the calls
`comb(a-1,a-g-1)` of `upward` (`1 ≤ a ≤ P`, `0 ≤ g ≤ a-1`), `comb(a+g,a)` of
the local-to-local loop (`0 ≤ a ≤ P`, `0 ≤ g ≤ P-a`) and `comb(a+b-1,b-1)` of
the multipole-to-local loop (`1 ≤ a, b ≤ P`). -/
theorem comb_exact (n k : Nat) (hk : k ≤ n) (hn : n ≤ 2 * 6) :
    comb (n : Int) (k : Int) = ((Nat.choose n k : Nat) : Int)
    ∧ (∀ a g : Nat, 1 ≤ a → a ≤ 6 → g ≤ a - 1 →
        comb ((a : Int) - 1) ((a : Int) - (g : Int) - 1)
          = ((Nat.choose (a - 1) (a - g - 1) : Nat) : Int))
    ∧ (∀ a g : Nat, a ≤ 6 → g ≤ 6 - a →
        comb ((a : Int) + (g : Int)) (a : Int) = ((Nat.choose (a + g) a : Nat) : Int))
    ∧ (∀ a b : Nat, 1 ≤ a → a ≤ 6 → 1 ≤ b → b ≤ 6 →
        comb ((a : Int) + (b : Int) - 1) ((b : Int) - 1)
          = ((Nat.choose (a + b - 1) (b - 1) : Nat) : Int)) := by
  have main : ∀ n k : Nat, k ≤ n → n ≤ 12 →
      comb (n : Int) (k : Int) = ((Nat.choose n k : Nat) : Int) := fun n k h1 h2 =>
    comb_table n (List.mem_range.mpr (by omega)) k (List.mem_range.mpr (by omega))
  refine ⟨main n k hk (by omega), ?_, ?_, ?_⟩
  · intro a g h1 h2 h3
    have e1 : (a : Int) - 1 = ((a - 1 : Nat) : Int) := by omega
    have e2 : (a : Int) - (g : Int) - 1 = ((a - g - 1 : Nat) : Int) := by omega
    rw [e1, e2]
    exact main _ _ (by omega) (by omega)
  · intro a g h1 h2
    have e1 : (a : Int) + (g : Int) = ((a + g : Nat) : Int) := by omega
    rw [e1]
    exact main _ _ (by omega) (by omega)
  · intro a b h1 h2 h3 h4
    have e1 : (a : Int) + (b : Int) - 1 = ((a + b - 1 : Nat) : Int) := by omega
    have e2 : (b : Int) - 1 = ((b - 1 : Nat) : Int) := by omega
    rw [e1, e2]
    exact main _ _ (by omega) (by omega)

/-- Witness of C5: `comb(12,4) = C(12,4)`. -/
theorem comb_exact_witness :
    (4 ≤ 12 ∧ 12 ≤ 2 * 6) ∧ comb ((12 : Nat) : Int) ((4 : Nat) : Int)
      = ((Nat.choose 12 4 : Nat) : Int) :=
  ⟨by decide, (comb_exact 12 4 (by decide) (by decide)).1⟩

/-! ## The interactive cells of `downward` -/

theorem m2l_bounds_eq (lc v : Int) (hv : 0 ≤ v) :
    m2l_bounds lc v = (max 0 (2 * (v / 2 - 1)), min (lc - 1) (2 * (v / 2 + 1) + 1)) := by
  unfold m2l_bounds
  rw [Int.tdiv_eq_ediv hv (by norm_num)]
  simp only [ge_iff_le]
  split_ifs <;> simp only [Prod.mk.injEq] <;> omega

theorem m2l_test_iff (vc vci : Int × Int) :
    m2l_test vc vci = true ↔
      (vci.1 - vc.1 < -1 ∨ vci.1 - vc.1 > 1 ∨ vci.2 - vc.2 < -1 ∨ vci.2 - vc.2 > 1) := by
  unfold m2l_test
  simp only [Bool.or_eq_true, decide_eq_true_eq]
  tauto

/-- Membership in the list of cells visited by the multipole-to-local loop. -/
theorem mem_m2l_visits (lc : Int) (v u : Int × Int) (hv : 0 ≤ v.1 ∧ 0 ≤ v.2) :
    u ∈ m2l_visits lc v ↔
      (0 ≤ u.1 ∧ u.1 < lc ∧ 0 ≤ u.2 ∧ u.2 < lc)
      ∧ (v.1 / 2 - 1 ≤ u.1 / 2 ∧ u.1 / 2 ≤ v.1 / 2 + 1
          ∧ v.2 / 2 - 1 ≤ u.2 / 2 ∧ u.2 / 2 ≤ v.2 / 2 + 1)
      ∧ (u.1 - v.1 < -1 ∨ u.1 - v.1 > 1 ∨ u.2 - v.2 < -1 ∨ u.2 - v.2 > 1) := by
  unfold m2l_visits
  rw [List.mem_filter, m2l_test_iff, m2l_bounds_eq lc v.1 hv.1, m2l_bounds_eq lc v.2 hv.2]
  simp only [List.mem_flatMap, List.mem_map, mem_intRange]
  constructor
  · rintro ⟨⟨a, ha, b, hb, rfl⟩, ht⟩
    simp only at ht ⊢
    refine ⟨?_, ?_, ht⟩ <;> omega
  · rintro ⟨h1, h2, h3⟩
    refine ⟨⟨u.1, ?_, u.2, ?_, rfl⟩, h3⟩ <;> omega

theorem nodup_m2l_visits (lc : Int) (v : Int × Int) : (m2l_visits lc v).Nodup := by
  unfold m2l_visits
  apply List.Nodup.filter
  rw [List.nodup_flatMap]
  constructor
  · intro a _
    apply List.Nodup.map
    · intro x y h
      exact (Prod.mk.inj h).2
    · exact nodup_intRange _ _
  · apply List.Pairwise.imp _ (nodup_intRange _ _)
    intro a b hab
    simp only [Function.onFun]
    intro x hx1 hx2
    simp only [List.mem_map] at hx1 hx2
    obtain ⟨k1, _, rfl⟩ := hx1
    obtain ⟨k2, _, h2⟩ := hx2
    exact hab (Prod.mk.inj h2).1.symm

/-- C4: the multipole-to-local loop of `downward` visits exactly the
interaction list. For every level `l ≥ 2` and every cell with vector index `v`
in `[0,2^l)^2`, the body executes for the vector index `u` if and only if `u`
is a cell of `[0,2^l)^2` whose parent `u/2` is within infinity-norm distance 1
of the parent `v/2` and `max(|u_x - v_x|, |u_y - v_y|) > 1`; and each such `u`
is visited exactly once. -/
theorem m2l_visits_interaction_list (l : Nat) (hl : 2 ≤ l) (v : Int × Int)
    (hv : 0 ≤ v.1 ∧ v.1 < 2 ^ l ∧ 0 ≤ v.2 ∧ v.2 < 2 ^ l) :
    (∀ u : Int × Int, u ∈ m2l_visits (2 ^ l) v ↔
      ((0 ≤ u.1 ∧ u.1 < 2 ^ l ∧ 0 ≤ u.2 ∧ u.2 < 2 ^ l)
        ∧ max |u.1 / 2 - v.1 / 2| |u.2 / 2 - v.2 / 2| ≤ 1
        ∧ max |u.1 - v.1| |u.2 - v.2| > 1))
    ∧ (m2l_visits (2 ^ l) v).Nodup := by
  constructor
  · intro u
    rw [mem_m2l_visits (2 ^ l) v u ⟨hv.1, hv.2.2.1⟩]
    simp only [max_le_iff, abs_le, gt_iff_lt, lt_max_iff, lt_abs]
    constructor
    · rintro ⟨h1, h2, h3⟩
      refine ⟨h1, ?_, ?_⟩ <;> omega
    · rintro ⟨h1, h2, h3⟩
      refine ⟨h1, ?_, ?_⟩ <;> omega
  · exact nodup_m2l_visits _ _

/-- Witness of C4: the cell `(0,0)` at level 2. -/
theorem m2l_visits_interaction_list_witness :
    (2 ≤ 2) ∧ ((0 : Int) ≤ 0 ∧ (0 : Int) < 2 ^ 2 ∧ (0 : Int) ≤ 0 ∧ (0 : Int) < 2 ^ 2)
    ∧ (m2l_visits (2 ^ 2) ((0, 0) : Int × Int)).Nodup :=
  ⟨le_refl 2, by decide,
    (m2l_visits_interaction_list 2 (le_refl 2) (0, 0) (by decide)).2⟩

theorem mem_m2l_visits_example :
    ((2, 0) : Int × Int) ∈ m2l_visits (2 ^ 2) ((0, 0) : Int × Int) := by
  rw [mem_m2l_visits _ _ _ (by decide)]
  decide

/-- C6 (counterexample): at level 2 the cell `v = (0,0)` has the interactive
cell `u = (2,0)`, which passes the exclusion test, and there the real part of
the argument of `clgn`, `zdi[0] = (v_x - u_x)*rc = -2*rc`, is negative
(`BOX = 1`, `rc = 1/4`). -/
theorem clgn_real_part_not_positive :
    ((2, 0) : Int × Int) ∈ m2l_visits (2 ^ 2) ((0, 0) : Int × Int)
    ∧ ¬ (0 < (m2l_zdi ((1 : ℚ) / (((2 : Int) ^ 2 : Int) : ℚ)) (0, 0) (2, 0)).1) := by
  constructor
  · exact mem_m2l_visits_example
  · unfold m2l_zdi
    norm_num

/-- C6 (amended): at every call of `clgn` in `downward`, for every level
`l ≥ 2`, every cell `v` and every interactive cell `u` that passes the
exclusion test, the real part `zdi[0] = (v_x - u_x)*rc` of the argument is
strictly positive if and only if `u_x < v_x`; it is zero when `u_x = v_x` and
negative when `u_x > v_x`. -/
theorem clgn_real_part_sign {R : Type} [LinearOrderedField R] (l : Nat) (hl : 2 ≤ l)
    (BOX : R) (hB : 0 < BOX) (v u : Int × Int)
    (hv : 0 ≤ v.1 ∧ v.1 < 2 ^ l ∧ 0 ≤ v.2 ∧ v.2 < 2 ^ l)
    (hu : u ∈ m2l_visits (2 ^ l) v) :
    (0 < (m2l_zdi (BOX / (((2 : Int) ^ l : Int) : R)) v u).1 ↔ u.1 < v.1)
    ∧ ((m2l_zdi (BOX / (((2 : Int) ^ l : Int) : R)) v u).1 = 0 ↔ u.1 = v.1)
    ∧ ((m2l_zdi (BOX / (((2 : Int) ^ l : Int) : R)) v u).1 < 0 ↔ v.1 < u.1) := by
  have hrc : 0 < BOX / (((2 : Int) ^ l : Int) : R) := by
    apply div_pos hB
    exact_mod_cast (pow_pos (by norm_num : (0 : Int) < 2) l)
  unfold m2l_zdi
  simp only
  refine ⟨?_, ?_, ?_⟩
  · rw [mul_pos_iff_of_pos_right hrc]
    constructor
    · intro h
      have : (0 : Int) < v.1 - u.1 := by exact_mod_cast h
      omega
    · intro h
      have : (0 : Int) < v.1 - u.1 := by omega
      exact_mod_cast this
  · rw [mul_eq_zero]
    constructor
    · rintro (h | h)
      · have : v.1 - u.1 = 0 := by exact_mod_cast h
        omega
      · exact absurd h (ne_of_gt hrc)
    · intro h
      left
      have : v.1 - u.1 = 0 := by omega
      exact_mod_cast this
  · rw [mul_neg_iff]
    constructor
    · rintro (⟨_, h⟩ | ⟨h, _⟩)
      · exact absurd h (not_lt.mpr (le_of_lt hrc))
      · have : v.1 - u.1 < 0 := by exact_mod_cast h
        omega
    · intro h
      right
      refine ⟨?_, hrc⟩
      have : v.1 - u.1 < 0 := by omega
      exact_mod_cast this

/-- Witness of C6 (amended): level 2, `v = (0,0)`, `u = (2,0)`, `BOX = 1`. -/
theorem clgn_real_part_sign_witness :
    (2 ≤ 2) ∧ ((0 : ℚ) < 1)
    ∧ ((0 : Int) ≤ 0 ∧ (0 : Int) < 2 ^ 2 ∧ (0 : Int) ≤ 0 ∧ (0 : Int) < 2 ^ 2)
    ∧ (((2, 0) : Int × Int) ∈ m2l_visits (2 ^ 2) ((0, 0) : Int × Int))
    ∧ ((m2l_zdi ((1 : ℚ) / (((2 : Int) ^ 2 : Int) : ℚ)) (0, 0) (2, 0)).1 < 0
        ↔ (0 : Int) < 2) :=
  ⟨le_refl 2, by norm_num, by decide, mem_m2l_visits_example,
    (clgn_real_part_sign 2 (le_refl 2) (1 : ℚ) (by norm_num) (0, 0) (2, 0) (by decide)
      mem_m2l_visits_example).2.2⟩

/-- C7: `cinv` is never applied to the zero vector in `downward`. For every
level `l ≥ 2`, every cell `v` and every interactive cell `u` that passes the
exclusion test, the displacement `zdi = (v - u)*rc` is not zero, `|zdi| ≥ rc`
(`rc = BOX/2^l` the cell side), and the divisor `a[0]^2 + a[1]^2` of `cinv` is
strictly positive. -/
theorem cinv_argument_nonzero (l : Nat) (hl : 2 ≤ l) (BOX : ℝ) (hB : 0 < BOX)
    (v u : Int × Int) (hv : 0 ≤ v.1 ∧ v.1 < 2 ^ l ∧ 0 ≤ v.2 ∧ v.2 < 2 ^ l)
    (hu : u ∈ m2l_visits (2 ^ l) v) :
    m2l_zdi (BOX / (((2 : Int) ^ l : Int) : ℝ)) v u ≠ (0, 0)
    ∧ BOX / (((2 : Int) ^ l : Int) : ℝ)
        ≤ Real.sqrt ((m2l_zdi (BOX / (((2 : Int) ^ l : Int) : ℝ)) v u).1
              * (m2l_zdi (BOX / (((2 : Int) ^ l : Int) : ℝ)) v u).1
            + (m2l_zdi (BOX / (((2 : Int) ^ l : Int) : ℝ)) v u).2
              * (m2l_zdi (BOX / (((2 : Int) ^ l : Int) : ℝ)) v u).2)
    ∧ 0 < (m2l_zdi (BOX / (((2 : Int) ^ l : Int) : ℝ)) v u).1
              * (m2l_zdi (BOX / (((2 : Int) ^ l : Int) : ℝ)) v u).1
            + (m2l_zdi (BOX / (((2 : Int) ^ l : Int) : ℝ)) v u).2
              * (m2l_zdi (BOX / (((2 : Int) ^ l : Int) : ℝ)) v u).2 := by
  have hrc : 0 < BOX / (((2 : Int) ^ l : Int) : ℝ) := by
    apply div_pos hB
    exact_mod_cast (pow_pos (by norm_num : (0 : Int) < 2) l)
  generalize BOX / (((2 : Int) ^ l : Int) : ℝ) = rc at hrc ⊢
  have ht := ((mem_m2l_visits (2 ^ l) v u ⟨hv.1, hv.2.2.1⟩).mp hu).2.2
  unfold m2l_zdi
  simp only
  have hd : (4 : ℝ) ≤ ((v.1 - u.1 : Int) : ℝ) * ((v.1 - u.1 : Int) : ℝ)
      + ((v.2 - u.2 : Int) : ℝ) * ((v.2 - u.2 : Int) : ℝ) := by
    have h4 : (4 : Int) ≤ (v.1 - u.1) * (v.1 - u.1) + (v.2 - u.2) * (v.2 - u.2) := by
      rcases ht with h | h | h | h <;> nlinarith
    exact_mod_cast h4
  have hsq : rc * rc * 4 ≤ ((v.1 - u.1 : Int) : ℝ) * rc * (((v.1 - u.1 : Int) : ℝ) * rc)
      + ((v.2 - u.2 : Int) : ℝ) * rc * (((v.2 - u.2 : Int) : ℝ) * rc) := by
    have : 0 < rc * rc := mul_pos hrc hrc
    nlinarith
  have hpos : 0 < ((v.1 - u.1 : Int) : ℝ) * rc * (((v.1 - u.1 : Int) : ℝ) * rc)
      + ((v.2 - u.2 : Int) : ℝ) * rc * (((v.2 - u.2 : Int) : ℝ) * rc) := by
    have : 0 < rc * rc := mul_pos hrc hrc
    linarith
  refine ⟨?_, ?_, hpos⟩
  · intro h0
    have h1 := (Prod.mk.inj h0).1
    have h2 := (Prod.mk.inj h0).2
    rw [h1, h2] at hpos
    simp at hpos
  · apply Real.le_sqrt_of_sq_le
    have : 0 < rc * rc := mul_pos hrc hrc
    nlinarith

/-- Witness of C7: level 2, `v = (0,0)`, `u = (2,0)`, `BOX = 1`. -/
theorem cinv_argument_nonzero_witness :
    (2 ≤ 2) ∧ ((0 : ℝ) < 1)
    ∧ ((0 : Int) ≤ 0 ∧ (0 : Int) < 2 ^ 2 ∧ (0 : Int) ≤ 0 ∧ (0 : Int) < 2 ^ 2)
    ∧ (((2, 0) : Int × Int) ∈ m2l_visits (2 ^ 2) ((0, 0) : Int × Int))
    ∧ m2l_zdi ((1 : ℝ) / (((2 : Int) ^ 2 : Int) : ℝ)) (0, 0) (2, 0) ≠ (0, 0) :=
  ⟨le_refl 2, by norm_num, by decide, mem_m2l_visits_example,
    (cinv_argument_nonzero 2 (le_refl 2) (1 : ℝ) (by norm_num) (0, 0) (2, 0) (by decide)
      mem_m2l_visits_example).1⟩

/-! ## The particle-to-leaf mapping -/

theorem trunc_of_nonneg {R : Type} [LinearOrderedField R] [FloorRing R] (x : R)
    (h : 0 ≤ x) : trunc x = ⌊x⌋ := by
  unfold trunc
  rw [if_pos h]

theorem c0_eq (l : Nat) : 3 * c0 l = 4 ^ l - 1 := by
  unfold c0
  have h : ((4 : Int) ^ l - 1) % 3 = 0 := by
    induction l with
    | zero => simp
    | succ n ih =>
      rw [pow_succ]
      omega
  omega

theorem c0_succ (l : Nat) : c0 (l + 1) = c0 l + 4 ^ l := by
  have h1 := c0_eq l
  have h2 := c0_eq (l + 1)
  rw [pow_succ] at h2
  omega

/-- For a coordinate `x` in `[0, BOX)`, the index `trunc(x/rc)` with
`rc = BOX/2^L` is `floor(x/rc)`, lies in `[0, 2^L)`, and `x` is within `rc/2`
of the centre `(index + 1/2)*rc`. -/
theorem coord_index {R : Type} [LinearOrderedField R] [FloorRing R] (L : Nat) (BOX : R)
    (hB : 0 < BOX) (x : R) (hx : 0 ≤ x ∧ x < BOX) :
    trunc (x / (BOX / (((2 : Int) ^ L : Int) : R))) = ⌊x / (BOX / (((2 : Int) ^ L : Int) : R))⌋
    ∧ 0 ≤ trunc (x / (BOX / (((2 : Int) ^ L : Int) : R)))
    ∧ trunc (x / (BOX / (((2 : Int) ^ L : Int) : R))) < 2 ^ L
    ∧ |x - ((trunc (x / (BOX / (((2 : Int) ^ L : Int) : R))) : R) + 1 / 2)
          * (BOX / (((2 : Int) ^ L : Int) : R))|
        ≤ BOX / (((2 : Int) ^ L : Int) : R) / 2 := by
  have hlc : (0 : R) < (((2 : Int) ^ L : Int) : R) := by
    exact_mod_cast (pow_pos (by norm_num : (0 : Int) < 2) L)
  have hrc : 0 < BOX / (((2 : Int) ^ L : Int) : R) := div_pos hB hlc
  have hBeq : BOX = BOX / (((2 : Int) ^ L : Int) : R) * (((2 : Int) ^ L : Int) : R) := by
    field_simp
  generalize BOX / (((2 : Int) ^ L : Int) : R) = rc at hrc hBeq ⊢
  have hq : 0 ≤ x / rc := div_nonneg hx.1 (le_of_lt hrc)
  rw [trunc_of_nonneg _ hq]
  have hfl : (⌊x / rc⌋ : R) ≤ x / rc := Int.floor_le _
  have hfl2 : x / rc < (⌊x / rc⌋ : R) + 1 := Int.lt_floor_add_one _
  have h1 : (⌊x / rc⌋ : R) * rc ≤ x := (le_div_iff₀ hrc).mp hfl
  have h2 : x < ((⌊x / rc⌋ : R) + 1) * rc := (div_lt_iff₀ hrc).mp hfl2
  refine ⟨rfl, Int.floor_nonneg.mpr hq, ?_, ?_⟩
  · rw [Int.floor_lt, div_lt_iff₀ hrc]
    have := hx.2
    rw [hBeq] at this
    linarith
  · rw [abs_le]
    constructor <;> linarith

theorem mp_leaf_cj_mem {R : Type} [LinearOrderedField R] [FloorRing R] (L : Nat) (BOX : R)
    (hB : 0 < BOX) (zj : R × R) (hz : (0 ≤ zj.1 ∧ zj.1 < BOX) ∧ (0 ≤ zj.2 ∧ zj.2 < BOX)) :
    0 ≤ (mp_leaf_cj (BOX / (((2 : Int) ^ L : Int) : R)) zj).1
      ∧ (mp_leaf_cj (BOX / (((2 : Int) ^ L : Int) : R)) zj).1 < 2 ^ L
      ∧ 0 ≤ (mp_leaf_cj (BOX / (((2 : Int) ^ L : Int) : R)) zj).2
      ∧ (mp_leaf_cj (BOX / (((2 : Int) ^ L : Int) : R)) zj).2 < 2 ^ L := by
  obtain ⟨_, a2, a3, _⟩ := coord_index L BOX hB zj.1 hz.1
  obtain ⟨_, b2, b3, _⟩ := coord_index L BOX hB zj.2 hz.2
  exact ⟨a2, a3, b2, b3⟩

/-- C8: the particle-to-leaf mapping is in range and geometrically correct.
For every `L ≥ 0` and every position `z` with both coordinates in `[0, BOX)`,
the vector index computed by `mp_leaf` is `(floor(z_x/rc), floor(z_y/rc))`
with `rc = BOX/2^L`, both components lie in `[0, 2^L)`, the serial index
`c0[L] + ix*2^L + iy` lies in `[c0[L], c0[L] + 4^L)` with
`c0[L] = (4^L - 1)/3`, each coordinate of `z - centre(cell)` has absolute
value at most `rc/2`, and `nn_direct` assigns the particle to the same leaf
as `mp_leaf`. -/
theorem leaf_mapping_in_range {R : Type} [LinearOrderedField R] [FloorRing R] (L : Nat)
    (BOX : R) (hB : 0 < BOX) (zj : R × R)
    (hz : (0 ≤ zj.1 ∧ zj.1 < BOX) ∧ (0 ≤ zj.2 ∧ zj.2 < BOX)) :
    mp_leaf_cj (BOX / (((2 : Int) ^ L : Int) : R)) zj
        = (⌊zj.1 / (BOX / (((2 : Int) ^ L : Int) : R))⌋,
            ⌊zj.2 / (BOX / (((2 : Int) ^ L : Int) : R))⌋)
    ∧ (0 ≤ (mp_leaf_cj (BOX / (((2 : Int) ^ L : Int) : R)) zj).1
        ∧ (mp_leaf_cj (BOX / (((2 : Int) ^ L : Int) : R)) zj).1 < 2 ^ L
        ∧ 0 ≤ (mp_leaf_cj (BOX / (((2 : Int) ^ L : Int) : R)) zj).2
        ∧ (mp_leaf_cj (BOX / (((2 : Int) ^ L : Int) : R)) zj).2 < 2 ^ L)
    ∧ (c0 L ≤ serial L (2 ^ L) (mp_leaf_cj (BOX / (((2 : Int) ^ L : Int) : R)) zj)
        ∧ serial L (2 ^ L) (mp_leaf_cj (BOX / (((2 : Int) ^ L : Int) : R)) zj)
            < c0 L + 4 ^ L
        ∧ c0 L = (4 ^ L - 1) / 3 ∧ 3 * c0 L = 4 ^ L - 1)
    ∧ (|(relPos (BOX / (((2 : Int) ^ L : Int) : R)) zj
            (mp_leaf_cj (BOX / (((2 : Int) ^ L : Int) : R)) zj)).1|
          ≤ BOX / (((2 : Int) ^ L : Int) : R) / 2
        ∧ |(relPos (BOX / (((2 : Int) ^ L : Int) : R)) zj
            (mp_leaf_cj (BOX / (((2 : Int) ^ L : Int) : R)) zj)).2|
          ≤ BOX / (((2 : Int) ^ L : Int) : R) / 2)
    ∧ serial L (2 ^ L) (nn_direct_vc (BOX / (((2 : Int) ^ L : Int) : R)) zj)
        = serial L (2 ^ L) (mp_leaf_cj (BOX / (((2 : Int) ^ L : Int) : R)) zj) := by
  obtain ⟨a1, a2, a3, a4⟩ := coord_index L BOX hB zj.1 hz.1
  obtain ⟨b1, b2, b3, b4⟩ := coord_index L BOX hB zj.2 hz.2
  refine ⟨?_, ⟨a2, a3, b2, b3⟩, ⟨?_, ?_, rfl, c0_eq L⟩, ⟨a4, b4⟩, rfl⟩
  · unfold mp_leaf_cj
    rw [a1, b1]
  · unfold serial mp_leaf_cj
    simp only
    have : (0 : Int) ≤ 2 ^ L := by positivity
    nlinarith
  · unfold serial mp_leaf_cj
    simp only
    have h4 : (4 : Int) ^ L = 2 ^ L * 2 ^ L := by
      rw [← mul_pow]
      norm_num
    nlinarith

/-- Witness of C8: the position `(1/2, 1/4)` in the unit box at depth 2. -/
theorem leaf_mapping_in_range_witness :
    ((0 : ℚ) < 1)
    ∧ (((0 : ℚ) ≤ 1 / 2 ∧ (1 / 2 : ℚ) < 1) ∧ ((0 : ℚ) ≤ 1 / 4 ∧ (1 / 4 : ℚ) < 1))
    ∧ (c0 2 ≤ serial 2 (2 ^ 2)
          (mp_leaf_cj ((1 : ℚ) / (((2 : Int) ^ 2 : Int) : ℚ)) ((1 / 2 : ℚ), (1 / 4 : ℚ)))
        ∧ serial 2 (2 ^ 2)
          (mp_leaf_cj ((1 : ℚ) / (((2 : Int) ^ 2 : Int) : ℚ)) ((1 / 2 : ℚ), (1 / 4 : ℚ)))
            < c0 2 + 4 ^ 2
        ∧ c0 2 = (4 ^ 2 - 1) / 3 ∧ 3 * c0 2 = 4 ^ 2 - 1) :=
  ⟨by norm_num, by norm_num,
    (leaf_mapping_in_range 2 (1 : ℚ) (by norm_num) ((1 / 2 : ℚ), (1 / 4 : ℚ))
      (by norm_num)).2.2.1⟩

/-! ## Pairs as complex numbers -/

theorem toC_cmul (a b : ℝ × ℝ) : toC (cmul a b) = toC a * toC b := by
  apply Complex.ext <;> simp [toC, cmul]

theorem toC_cadd (s : ℝ) (a : ℝ × ℝ) (t : ℝ) (b : ℝ × ℝ) :
    toC (cadd s a t b) = (s : ℂ) * toC a + (t : ℂ) * toC b := by
  apply Complex.ext <;> simp [toC, cadd]

theorem toC_smul (a : ℝ × ℝ) (s : ℝ) : toC (smul a s) = (s : ℂ) * toC a := by
  apply Complex.ext <;> simp [toC, smul]

theorem toC_cini_real (s : ℝ) : toC (cini s 0) = (s : ℂ) := by
  apply Complex.ext <;> simp [toC, cini]

theorem toC_zero : toC ((0 : ℝ), (0 : ℝ)) = 0 := by
  apply Complex.ext <;> simp [toC]

theorem toC_sub (a b : ℝ × ℝ) : toC (a.1 - b.1, a.2 - b.2) = toC a - toC b := by
  apply Complex.ext <;> simp [toC]

theorem toC_injective (a b : ℝ × ℝ) (h : toC a = toC b) : a = b := by
  have h1 := congrArg Complex.re h
  have h2 := congrArg Complex.im h
  exact Prod.ext h1 h2

/-- Where the real part of its argument is positive, `clgn` with the real
`log`, `sqrt` and `atan` is the principal complex logarithm. -/
theorem clgn_eq_log_of_re_pos (a : ℝ × ℝ) (ha : 0 < a.1) :
    toC (clgn Real.log Real.sqrt (atan_ieee Real.arctan (Real.pi / 2) 0) a) = Complex.log (toC a) := by
  have habs : Complex.abs (toC a) = Real.sqrt (a.1 * a.1 + a.2 * a.2) := by
    rw [Complex.abs_apply, Complex.normSq_apply]
    rfl
  have hpos : 0 < a.1 * a.1 + a.2 * a.2 := by nlinarith [mul_self_nonneg a.2, mul_pos ha ha]
  have hs : 0 < Real.sqrt (a.1 * a.1 + a.2 * a.2) := Real.sqrt_pos.mpr hpos
  apply Complex.ext
  · rw [Complex.log_re, habs]
    rfl
  · rw [Complex.log_im, Complex.arg_of_re_nonneg (le_of_lt ha), habs]
    have hd : ddiv a.2 a.1 = DoubleQuot.finite (a.2 / a.1) := by
      unfold ddiv
      rw [if_neg (ne_of_gt ha)]
    show atan_ieee Real.arctan (Real.pi / 2) 0 (ddiv a.2 a.1)
      = Real.arcsin (a.2 / Real.sqrt (a.1 * a.1 + a.2 * a.2))
    rw [hd]
    show Real.arctan (a.2 / a.1) = Real.arcsin (a.2 / Real.sqrt (a.1 * a.1 + a.2 * a.2))
    rw [Real.arctan_eq_arcsin]
    congr 1
    have h1 : 1 + (a.2 / a.1) ^ 2 = (a.1 * a.1 + a.2 * a.2) / (a.1 * a.1) := by
      field_simp
      ring
    rw [h1, Real.sqrt_div' _ (le_of_lt (mul_pos ha ha)), Real.sqrt_mul_self (le_of_lt ha)]
    field_simp

/-- At the argument `-1`, whose real part is negative, the value of `clgn` is
`0` and differs from the principal complex logarithm `π i`. -/
theorem clgn_ne_log_neg_one :
    toC (clgn Real.log Real.sqrt (atan_ieee Real.arctan (Real.pi / 2) 0) ((-1 : ℝ), (0 : ℝ))) = 0
    ∧ toC (clgn Real.log Real.sqrt (atan_ieee Real.arctan (Real.pi / 2) 0) ((-1 : ℝ), (0 : ℝ)))
        ≠ Complex.log (toC ((-1 : ℝ), (0 : ℝ))) := by
  have h0 : toC (clgn Real.log Real.sqrt (atan_ieee Real.arctan (Real.pi / 2) 0) ((-1 : ℝ), (0 : ℝ))) = 0 := by
    apply Complex.ext
    · simp [toC, clgn]
    · simp [toC, clgn, ddiv, atan_ieee]
  have h1 : toC ((-1 : ℝ), (0 : ℝ)) = -1 := by
    apply Complex.ext <;> simp [toC]
  refine ⟨h0, ?_⟩
  rw [h0, h1, Complex.log_neg_one]
  intro h
  have := congrArg Complex.im h
  simp at this
  exact Real.pi_ne_zero this.symm

/-- At an argument with zero real part the division of `clgn` is infinite and
`clgn` returns the argument `π/2` for a positive and `-π/2` for a negative
imaginary part, as `atan(±inf)` does. -/
theorem clgn_zero_re (nanv y : ℝ) :
    (0 < y → clgn Real.log Real.sqrt (atan_ieee Real.arctan (Real.pi / 2) nanv) (0, y)
        = (Real.log y, Real.pi / 2))
    ∧ (y < 0 → clgn Real.log Real.sqrt (atan_ieee Real.arctan (Real.pi / 2) nanv) (0, y)
        = (Real.log (-y), -(Real.pi / 2))) := by
  have hs : Real.sqrt (0 * 0 + y * y) = |y| := by
    rw [zero_mul, zero_add, Real.sqrt_mul_self_eq_abs]
  constructor
  · intro h
    unfold clgn ddiv
    simp only [hs, abs_of_pos h, if_pos h, if_true]
    rfl
  · intro h
    unfold clgn ddiv
    simp only [hs, abs_of_neg h, if_neg (not_lt.mpr (le_of_lt h)), if_pos h, if_true]
    rfl

/-! ## `mp_leaf` -/

theorem clearCell_aux {R : Type} [Field R] (n : Nat) (arr : Int × Nat → R × R) (c : Int)
    (x : Int × Nat) :
    (List.range n).foldl (fun arr a => store arr (c, a) (cini 0 0)) arr x
      = if x.1 = c ∧ x.2 < n then ((0 : R), (0 : R)) else arr x := by
  induction n with
  | zero => simp
  | succ n ih =>
    rw [List.range_succ, List.foldl_append, List.foldl_cons, List.foldl_nil]
    by_cases h : x = (c, n)
    · subst h
      simp [store, cini]
    · rw [store_other _ _ _ _ h, ih]
      by_cases h1 : x.1 = c ∧ x.2 < n
      · rw [if_pos h1, if_pos ⟨h1.1, by omega⟩]
      · rw [if_neg h1, if_neg]
        rintro ⟨h2, h3⟩
        by_cases h4 : x.2 = n
        · exact h (Prod.ext h2 h4)
        · exact h1 ⟨h2, by omega⟩

theorem clearCell_apply {R : Type} [Field R] (P : Nat) (arr : Int × Nat → R × R) (c : Int)
    (x : Int × Nat) :
    clearCell P arr c x = if x.1 = c ∧ x.2 ≤ P then ((0 : R), (0 : R)) else arr x := by
  unfold clearCell
  rw [clearCell_aux]
  simp only [Nat.lt_succ_iff]

theorem foldl_clearCell_apply {R : Type} [Field R] (P : Nat) (cs : List Int)
    (arr : Int × Nat → R × R) (x : Int × Nat) :
    cs.foldl (clearCell P) arr x
      = if x.1 ∈ cs ∧ x.2 ≤ P then ((0 : R), (0 : R)) else arr x := by
  induction cs generalizing arr with
  | nil => simp
  | cons c cs ih =>
    rw [List.foldl_cons, ih, clearCell_apply]
    by_cases h1 : x.1 ∈ cs ∧ x.2 ≤ P
    · rw [if_pos h1, if_pos ⟨List.mem_cons_of_mem _ h1.1, h1.2⟩]
    · rw [if_neg h1]
      by_cases h2 : x.1 = c ∧ x.2 ≤ P
      · rw [if_pos h2, if_pos ⟨by rw [h2.1]; exact List.mem_cons_self _ _, h2.2⟩]
      · rw [if_neg h2, if_neg]
        rintro ⟨h3, h4⟩
        rcases List.mem_cons.mp h3 with h5 | h5
        · exact h2 ⟨h5, h4⟩
        · exact h1 ⟨h5, h4⟩

theorem serial_injective (l : Nat) (lc : Int) (u v : Int × Int)
    (hu : 0 ≤ u.2 ∧ u.2 < lc) (hv : 0 ≤ v.2 ∧ v.2 < lc)
    (h : serial l lc u = serial l lc v) : u = v := by
  unfold serial at h
  have h1 : u.1 = v.1 := by
    rcases lt_trichotomy u.1 v.1 with h2 | h2 | h2
    · exfalso
      have : (u.1 + 1) * lc ≤ v.1 * lc := by
        apply mul_le_mul_of_nonneg_right (by omega) (by omega)
      nlinarith
    · exact h2
    · exfalso
      have : (v.1 + 1) * lc ≤ u.1 * lc := by
        apply mul_le_mul_of_nonneg_right (by omega) (by omega)
      nlinarith
  have h2 : u.2 = v.2 := by
    rw [h1] at h
    omega
  exact Prod.ext h1 h2

/-- The terms loop of `mp_leaf` for one particle, in complex form. -/
theorem mp_leaf_terms (c : Int) (zjc : ℝ × ℝ) (n : Nat) (qz : ℝ × ℝ)
    (phi : Int × Nat → ℝ × ℝ) :
    toC ((List.range' 1 n).foldl
      (fun (st : (ℝ × ℝ) × (Int × Nat → ℝ × ℝ)) a =>
        let qz := cmul st.1 zjc
        (qz, store st.2 (c, a) (cadd 1 (st.2 (c, a)) (-1 / (a : ℝ)) qz)))
      (qz, phi)).1 = toC qz * toC zjc ^ n
    ∧ ∀ x : Int × Nat, toC (((List.range' 1 n).foldl
      (fun (st : (ℝ × ℝ) × (Int × Nat → ℝ × ℝ)) a =>
        let qz := cmul st.1 zjc
        (qz, store st.2 (c, a) (cadd 1 (st.2 (c, a)) (-1 / (a : ℝ)) qz)))
      (qz, phi)).2 x)
      = toC (phi x) + (if x.1 = c ∧ 1 ≤ x.2 ∧ x.2 ≤ n
          then -(1 / (x.2 : ℂ)) * (toC qz * toC zjc ^ x.2) else 0) := by
  induction n with
  | zero =>
    simp
    intro a b h1 h2 h3
    omega
  | succ n ih =>
    rw [List.range'_1_concat, List.foldl_append, List.foldl_cons, List.foldl_nil]
    obtain ⟨ih1, ih2⟩ := ih
    generalize List.foldl _ (qz, phi) (List.range' 1 n) = st at ih1 ih2 ⊢
    constructor
    · simp only [toC_cmul, ih1]
      ring
    · intro x
      simp only
      by_cases h : x = (c, 1 + n)
      · subst h
        rw [store_same, toC_cadd, toC_cmul, ih1, ih2 (c, 1 + n),
          if_neg (by simp), if_pos (by simp; omega)]
        push_cast
        ring
      · rw [store_other _ _ _ _ h, ih2]
        by_cases h1 : x.1 = c ∧ 1 ≤ x.2 ∧ x.2 ≤ n
        · rw [if_pos h1, if_pos ⟨h1.1, h1.2.1, by omega⟩]
        · rw [if_neg h1, if_neg]
          rintro ⟨h2, h3, h4⟩
          by_cases h5 : x.2 = 1 + n
          · exact h (Prod.ext h2 h5)
          · exact h1 ⟨h2, h3, by omega⟩

/-- Effect of the body of the particle loop of `mp_leaf` on `phi`, in complex
form: particle `j` adds `q[j]` to the term 0 of its cell and
`-(1/a) * q[j] * (z[j] - centre)^a` to the term `a` for `1 ≤ a ≤ P`. -/
theorem mp_leaf_particle_apply (P L : Nat) (BOX : ℝ) (z : Nat → ℝ × ℝ) (q : Nat → ℝ)
    (phi : Int × Nat → ℝ × ℝ) (j : Nat) (x : Int × Nat) (hx : x.2 ≤ P) :
    toC (mp_leaf_particle P L BOX z q phi j x)
      = toC (phi x)
        + (if x.1 = serial L (2 ^ L) (mp_leaf_cj (BOX / (((2 : Int) ^ L : Int) : ℝ)) (z j))
          then (if x.2 = 0 then (q j : ℂ)
            else -(1 / (x.2 : ℂ)) * ((q j : ℂ)
              * toC (relPos (BOX / (((2 : Int) ^ L : Int) : ℝ)) (z j)
                  (mp_leaf_cj (BOX / (((2 : Int) ^ L : Int) : ℝ)) (z j))) ^ x.2))
          else 0) := by
  unfold mp_leaf_particle
  simp only
  rw [(mp_leaf_terms _ _ P _ _).2 x, toC_cini_real]
  generalize serial L (2 ^ L) (mp_leaf_cj (BOX / (((2 : Int) ^ L : Int) : ℝ)) (z j)) = c
  generalize toC (relPos (BOX / (((2 : Int) ^ L : Int) : ℝ)) (z j)
    (mp_leaf_cj (BOX / (((2 : Int) ^ L : Int) : ℝ)) (z j))) = d
  by_cases h : x = (c, 0)
  · subst h
    rw [store_same, toC_cadd, toC_cini_real]
    simp
  · rw [store_other _ _ _ _ h]
    by_cases h1 : x.1 = c
    · have h2 : x.2 ≠ 0 := fun h3 => h (Prod.ext h1 h3)
      rw [if_pos ⟨h1, by omega, hx⟩, if_pos h1, if_neg h2]
    · rw [if_neg (fun h3 => h1 h3.1), if_neg h1]

theorem mp_leaf_particles_apply (P L : Nat) (BOX : ℝ) (z : Nat → ℝ × ℝ) (q : Nat → ℝ)
    (phi : Int × Nat → ℝ × ℝ) (N : Nat) (x : Int × Nat) (hx : x.2 ≤ P) :
    toC ((List.range N).foldl (mp_leaf_particle P L BOX z q) phi x)
      = toC (phi x)
        + ∑ j in Finset.range N,
          (if x.1 = serial L (2 ^ L) (mp_leaf_cj (BOX / (((2 : Int) ^ L : Int) : ℝ)) (z j))
          then (if x.2 = 0 then (q j : ℂ)
            else -(1 / (x.2 : ℂ)) * ((q j : ℂ)
              * toC (relPos (BOX / (((2 : Int) ^ L : Int) : ℝ)) (z j)
                  (mp_leaf_cj (BOX / (((2 : Int) ^ L : Int) : ℝ)) (z j))) ^ x.2))
          else 0) := by
  induction N with
  | zero => simp
  | succ n ih =>
    rw [List.range_succ, List.foldl_append, List.foldl_cons, List.foldl_nil,
      mp_leaf_particle_apply P L BOX z q _ n x hx, ih, Finset.sum_range_succ, add_assoc]

theorem relPos_eq_sub (rc : ℝ) (zj : ℝ × ℝ) (v : Int × Int) :
    toC (relPos rc zj v) = toC zj - toC (cellCentre rc v) := by
  unfold relPos cellCentre
  apply Complex.ext <;> simp [toC]

/-- C2: after `mp_leaf` (P2M), over exact real arithmetic and for positions in
`[0,BOX)^2`, for every leaf cell `c` (vector index `v`, centre `c_c`) and the
set `S_c` of particles that the particle-to-cell mapping assigns to `c`:
`phi[c][0] = Σ_{j ∈ S_c} q[j]` with zero imaginary part, and for `1 ≤ a ≤ P`,
`phi[c][a] = -Σ_{j ∈ S_c} (q[j]/a) * (z_j - c_c)^a`; a leaf with no particle
has all `P+1` coefficients equal to zero. -/
theorem mp_leaf_multipoles (P L N : Nat) (BOX : ℝ) (hB : 0 < BOX) (z : Nat → ℝ × ℝ)
    (q : Nat → ℝ) (phi0 : Int × Nat → ℝ × ℝ)
    (hz : ∀ j < N, (0 ≤ (z j).1 ∧ (z j).1 < BOX) ∧ (0 ≤ (z j).2 ∧ (z j).2 < BOX))
    (v : Int × Int) (hv : 0 ≤ v.1 ∧ v.1 < 2 ^ L ∧ 0 ≤ v.2 ∧ v.2 < 2 ^ L) :
    mp_leaf P L N BOX z q phi0 (serial L (2 ^ L) v, 0)
        = (∑ j in (Finset.range N).filter (fun j =>
            serial L (2 ^ L) (mp_leaf_cj (BOX / (((2 : Int) ^ L : Int) : ℝ)) (z j))
              = serial L (2 ^ L) v), q j, 0)
    ∧ (∀ a : Nat, 1 ≤ a → a ≤ P →
        toC (mp_leaf P L N BOX z q phi0 (serial L (2 ^ L) v, a))
          = -(∑ j in (Finset.range N).filter (fun j =>
              serial L (2 ^ L) (mp_leaf_cj (BOX / (((2 : Int) ^ L : Int) : ℝ)) (z j))
                = serial L (2 ^ L) v),
              ((q j : ℂ) / (a : ℂ))
                * (toC (z j) - toC (cellCentre (BOX / (((2 : Int) ^ L : Int) : ℝ)) v)) ^ a))
    ∧ ((Finset.range N).filter (fun j =>
          serial L (2 ^ L) (mp_leaf_cj (BOX / (((2 : Int) ^ L : Int) : ℝ)) (z j))
            = serial L (2 ^ L) v) = ∅ →
        ∀ a : Nat, a ≤ P → mp_leaf P L N BOX z q phi0 (serial L (2 ^ L) v, a) = (0, 0)) := by
  have hleaf : serial L (2 ^ L) v ∈ intRange (c0 L) (c0 L + 4 ^ L - 1) := by
    rw [mem_intRange]
    unfold serial
    have h4 : (4 : Int) ^ L = 2 ^ L * 2 ^ L := by
      rw [← mul_pow]
      norm_num
    constructor <;> nlinarith
  have hall : ∀ a : Nat, a ≤ P →
      toC (mp_leaf P L N BOX z q phi0 (serial L (2 ^ L) v, a))
        = ∑ j in (Finset.range N).filter (fun j =>
            serial L (2 ^ L) (mp_leaf_cj (BOX / (((2 : Int) ^ L : Int) : ℝ)) (z j))
              = serial L (2 ^ L) v),
            (if a = 0 then (q j : ℂ) else -(1 / (a : ℂ)) * ((q j : ℂ)
              * (toC (z j) - toC (cellCentre (BOX / (((2 : Int) ^ L : Int) : ℝ)) v)) ^ a)) := by
    intro a ha
    unfold mp_leaf
    rw [mp_leaf_particles_apply P L BOX z q _ N _ ha, foldl_clearCell_apply,
      if_pos ⟨hleaf, ha⟩, toC_zero, zero_add, Finset.sum_filter]
    apply Finset.sum_congr rfl
    intro j hj
    have hj2 := hz j (Finset.mem_range.mp hj)
    by_cases hc : serial L (2 ^ L) (mp_leaf_cj (BOX / (((2 : Int) ^ L : Int) : ℝ)) (z j))
        = serial L (2 ^ L) v
    · have hcj := mp_leaf_cj_mem L BOX hB (z j) hj2
      have hveq := serial_injective L (2 ^ L) _ v ⟨hcj.2.2.1, hcj.2.2.2⟩
        ⟨hv.2.2.1, hv.2.2.2⟩ hc
      rw [if_pos hc, if_pos hc.symm, hveq, relPos_eq_sub]
    · rw [if_neg hc, if_neg (fun h => hc h.symm)]
  refine ⟨?_, ?_, ?_⟩
  · apply toC_injective
    rw [hall 0 (Nat.zero_le _)]
    apply Complex.ext
    · simp [toC]
    · simp [toC]
  · intro a ha1 ha2
    rw [hall a ha2, ← Finset.sum_neg_distrib]
    apply Finset.sum_congr rfl
    intro j _
    rw [if_neg (by omega)]
    ring
  · intro hS a ha
    apply toC_injective
    rw [hall a ha, hS, Finset.sum_empty, toC_zero]

/-- Witness of C2: one unit charge at `(1/4,1/4)`, depth 1, order 1, and the
leaf `(0,0)`. -/
theorem mp_leaf_multipoles_witness :
    ((0 : ℝ) < 1)
    ∧ (∀ j < 1, (0 ≤ ((fun _ : Nat => ((1 / 4 : ℝ), (1 / 4 : ℝ))) j).1
          ∧ ((fun _ : Nat => ((1 / 4 : ℝ), (1 / 4 : ℝ))) j).1 < 1)
        ∧ (0 ≤ ((fun _ : Nat => ((1 / 4 : ℝ), (1 / 4 : ℝ))) j).2
          ∧ ((fun _ : Nat => ((1 / 4 : ℝ), (1 / 4 : ℝ))) j).2 < 1))
    ∧ ((0 : Int) ≤ 0 ∧ (0 : Int) < 2 ^ 1 ∧ (0 : Int) ≤ 0 ∧ (0 : Int) < 2 ^ 1)
    ∧ mp_leaf 1 1 1 (1 : ℝ) (fun _ => ((1 / 4 : ℝ), (1 / 4 : ℝ))) (fun _ => 1)
          (fun _ => (0, 0)) (serial 1 (2 ^ 1) (0, 0), 0)
        = (∑ j in (Finset.range 1).filter (fun j =>
            serial 1 (2 ^ 1) (mp_leaf_cj ((1 : ℝ) / (((2 : Int) ^ 1 : Int) : ℝ))
              ((fun _ : Nat => ((1 / 4 : ℝ), (1 / 4 : ℝ))) j))
              = serial 1 (2 ^ 1) (0, 0)), (fun _ : Nat => (1 : ℝ)) j, 0) :=
  have hz : ∀ j < 1, (0 ≤ ((fun _ : Nat => ((1 / 4 : ℝ), (1 / 4 : ℝ))) j).1
          ∧ ((fun _ : Nat => ((1 / 4 : ℝ), (1 / 4 : ℝ))) j).1 < 1)
        ∧ (0 ≤ ((fun _ : Nat => ((1 / 4 : ℝ), (1 / 4 : ℝ))) j).2
          ∧ ((fun _ : Nat => ((1 / 4 : ℝ), (1 / 4 : ℝ))) j).2 < 1) := by
    intro j _
    norm_num
  ⟨by norm_num, hz, by decide,
    (mp_leaf_multipoles 1 1 1 (1 : ℝ) (by norm_num) (fun _ => ((1 / 4 : ℝ), (1 / 4 : ℝ)))
      (fun _ => 1) (fun _ => (0, 0)) hz (0, 0) (by decide)).1⟩

/-! ## `downward` -/

theorem comb_cast (n k : Nat) (hk : k ≤ n) (hn : n ≤ 12) :
    (((comb (n : Int) (k : Int) : Int) : ℝ) : ℂ) = ((Nat.choose n k : Nat) : ℂ) := by
  rw [comb_table n (List.mem_range.mpr (by omega)) k (List.mem_range.mpr (by omega))]
  push_cast
  rfl

/-- The `g` loop of the local-to-local transformation. -/
theorem l2l_g_loop (c cm : Int) (hne : cm ≠ c) (zdm : ℝ × ℝ) (a n : Nat) (hn : a + n ≤ 13)
    (z0 : ℝ × ℝ) (psi0 : Int × Nat → ℝ × ℝ) :
    (1 ≤ n → toC ((List.range n).foldl (l2l_g_body c cm zdm a) (z0, psi0)).1
        = toC zdm ^ (n - 1))
    ∧ (∀ x, x ≠ (c, a) →
        ((List.range n).foldl (l2l_g_body c cm zdm a) (z0, psi0)).2 x = psi0 x)
    ∧ toC (((List.range n).foldl (l2l_g_body c cm zdm a) (z0, psi0)).2 (c, a))
        = toC (psi0 (c, a)) + ∑ g in Finset.range n,
            ((Nat.choose (a + g) a : Nat) : ℂ) * toC (psi0 (cm, a + g)) * toC zdm ^ g := by
  induction n with
  | zero => simp
  | succ n ih =>
    rw [List.range_succ, List.foldl_append, List.foldl_cons, List.foldl_nil]
    obtain ⟨ih1, ih2, ih3⟩ := ih (by omega)
    generalize List.foldl _ (z0, psi0) (List.range n) = st at ih1 ih2 ih3 ⊢
    have hz : toC (if n = 0 then cini 1 0 else cmul st.1 zdm) = toC zdm ^ n := by
      by_cases h0 : n = 0
      · subst h0
        rw [if_pos rfl, toC_cini_real]
        simp
      · rw [if_neg h0, toC_cmul, ih1 (by omega), ← pow_succ]
        congr 1
        omega
    refine ⟨fun _ => ?_, ?_, ?_⟩
    · exact hz
    · intro x hx
      unfold l2l_g_body
      simp only
      rw [store_other _ _ _ _ hx, ih2 x hx]
    · unfold l2l_g_body
      simp only
      have hcm : (cm, a + n) ≠ (c, a) := fun h => hne (Prod.mk.inj h).1
      rw [store_same, toC_cadd, toC_cmul, hz, ih3, ih2 _ hcm, Finset.sum_range_succ]
      have hc := comb_cast (a + n) a (by omega) (by omega)
      push_cast at hc ⊢
      rw [hc]
      ring

/-- The `a` loop of the local-to-local transformation. -/
theorem l2l_a_loop (P : Nat) (hP : P ≤ 12) (c cm : Int) (hne : cm ≠ c) (zdm : ℝ × ℝ)
    (n : Nat) (hn : n ≤ P + 1) (psi0 : Int × Nat → ℝ × ℝ) (x : Int × Nat) :
    toC ((List.range n).foldl (l2l_a_body P c cm zdm) psi0 x)
      = if x.1 = c ∧ x.2 < n
        then l2lSum P (fun k => toC (psi0 (cm, k))) (toC zdm) x.2
        else toC (psi0 x) := by
  induction n generalizing x with
  | zero => simp
  | succ n ih =>
    rw [List.range_succ, List.foldl_append, List.foldl_cons, List.foldl_nil]
    have ih' := ih (by omega)
    generalize List.foldl (l2l_a_body P c cm zdm) psi0 (List.range n) = psi at ih' ⊢
    unfold l2l_a_body
    obtain ⟨_, h2, h3⟩ := l2l_g_loop c cm hne zdm n (P - n + 1) (by omega) (cini 0 0)
      (store psi (c, n) (cini 0 0))
    by_cases hx : x = (c, n)
    · subst hx
      rw [h3, store_same, if_pos ⟨rfl, by simp⟩]
      unfold l2lSum
      simp only [cini, toC_zero, zero_add]
      apply Finset.sum_congr rfl
      intro g _
      have hcm : (cm, n + g) ≠ (c, n) := fun h => hne (Prod.mk.inj h).1
      rw [store_other _ _ _ _ hcm]
      have := ih' (cm, n + g)
      rw [if_neg (fun h => hne h.1)] at this
      rw [this]
    · rw [h2 x hx, store_other _ _ _ _ hx, ih' x]
      by_cases h1 : x.1 = c ∧ x.2 < n
      · rw [if_pos h1, if_pos ⟨h1.1, by omega⟩]
      · rw [if_neg h1, if_neg]
        rintro ⟨h4, h5⟩
        by_cases h6 : x.2 = n
        · exact hx (Prod.ext h4 h6)
        · exact h1 ⟨h4, by omega⟩

/-! ### Cell indices -/

theorem cellVec_serial (l : Nat) (v : Int × Int) (hv : 0 ≤ v.1 ∧ 0 ≤ v.2 ∧ v.2 < 2 ^ l) :
    cellVec l (serial l (2 ^ l) v) = v := by
  unfold cellVec serial
  have hlc : (0 : Int) < 2 ^ l := by positivity
  generalize (2 : Int) ^ l = lc at hv hlc ⊢
  have e : c0 l + v.1 * lc + v.2 - c0 l = v.2 + v.1 * lc := by ring
  have hnn : 0 ≤ v.2 + v.1 * lc := by
    have := mul_nonneg hv.1 (le_of_lt hlc)
    omega
  simp only
  rw [e, Int.tdiv_eq_ediv hnn (le_of_lt hlc), Int.tmod_eq_emod hnn (le_of_lt hlc),
    Int.add_mul_ediv_right _ _ (ne_of_gt hlc), Int.add_mul_emod_self,
    Int.ediv_eq_zero_of_lt hv.2.1 hv.2.2, Int.emod_eq_of_lt hv.2.1 hv.2.2, zero_add]

theorem pow_four_eq (l : Nat) : (4 : Int) ^ l = 2 ^ l * 2 ^ l := by
  rw [← mul_pow]
  norm_num

theorem serial_mem_level (l : Nat) (v : Int × Int)
    (hv : 0 ≤ v.1 ∧ v.1 < 2 ^ l ∧ 0 ≤ v.2 ∧ v.2 < 2 ^ l) :
    serial l (2 ^ l) v ∈ intRange (c0 l) (c0 l + 4 ^ l - 1) := by
  rw [mem_intRange]
  unfold serial
  have h4 := pow_four_eq l
  constructor <;> nlinarith

/-- Every serial index of level `l` is the serial index of a vector index in
`[0,2^l)^2`. -/
theorem exists_vec_of_mem_level (l : Nat) (c : Int)
    (hc : c ∈ intRange (c0 l) (c0 l + 4 ^ l - 1)) :
    ∃ v : Int × Int, (0 ≤ v.1 ∧ v.1 < 2 ^ l ∧ 0 ≤ v.2 ∧ v.2 < 2 ^ l)
      ∧ c = serial l (2 ^ l) v := by
  rw [mem_intRange, pow_four_eq] at hc
  have hlc : (0 : Int) < 2 ^ l := by positivity
  generalize (2 : Int) ^ l = lc at hc hlc ⊢
  refine ⟨((c - c0 l) / lc, (c - c0 l) % lc), ⟨?_, ?_, ?_, ?_⟩, ?_⟩
  · exact Int.ediv_nonneg (by omega) (le_of_lt hlc)
  · simp only
    rw [Int.ediv_lt_iff_lt_mul hlc]
    omega
  · exact Int.emod_nonneg _ (ne_of_gt hlc)
  · exact Int.emod_lt_of_pos _ hlc
  · unfold serial
    simp only
    have := Int.ediv_add_emod (c - c0 l) lc
    linarith [mul_comm lc ((c - c0 l) / lc)]

theorem level_lt_of_lt (l : Nat) (c cm : Int) (hl : 1 ≤ l)
    (hc : c ∈ intRange (c0 l) (c0 l + 4 ^ l - 1))
    (hcm : cm ∈ intRange (c0 (l - 1)) (c0 (l - 1) + 4 ^ (l - 1) - 1)) : cm ≠ c := by
  rw [mem_intRange] at hc hcm
  have h := c0_succ (l - 1)
  rw [Nat.sub_add_cancel hl] at h
  omega

theorem l2l_cm_serial (l : Nat) (hl : 1 ≤ l) (v : Int × Int)
    (hv : 0 ≤ v.1 ∧ v.1 < 2 ^ l ∧ 0 ≤ v.2 ∧ v.2 < 2 ^ l) :
    l2l_cm l (serial l (2 ^ l) v) = serial (l - 1) (2 ^ (l - 1)) (v.1 / 2, v.2 / 2) := by
  unfold l2l_cm
  simp only
  rw [cellVec_serial l v ⟨hv.1, hv.2.2.1, hv.2.2.2⟩, Int.tdiv_eq_ediv hv.1 (by norm_num),
    Int.tdiv_eq_ediv hv.2.2.1 (by norm_num), Int.tdiv_eq_ediv (by positivity) (by norm_num)]
  unfold serial
  have h2 : (2 : Int) ^ l / 2 = 2 ^ (l - 1) := by
    obtain ⟨k, rfl⟩ : ∃ k, l = k + 1 := ⟨l - 1, by omega⟩
    rw [pow_succ]
    simp
  rw [h2]

theorem half_vec_mem (l : Nat) (hl : 1 ≤ l) (v : Int × Int)
    (hv : 0 ≤ v.1 ∧ v.1 < 2 ^ l ∧ 0 ≤ v.2 ∧ v.2 < 2 ^ l) :
    0 ≤ v.1 / 2 ∧ v.1 / 2 < 2 ^ (l - 1) ∧ 0 ≤ v.2 / 2 ∧ v.2 / 2 < 2 ^ (l - 1) := by
  obtain ⟨k, rfl⟩ : ∃ k, l = k + 1 := ⟨l - 1, by omega⟩
  rw [pow_succ] at hv
  simp only [Nat.add_sub_cancel]
  omega

theorem l2l_zdm_serial (l : Nat) (hl : 1 ≤ l) (BOX : ℝ) (v : Int × Int)
    (hv : 0 ≤ v.1 ∧ v.1 < 2 ^ l ∧ 0 ≤ v.2 ∧ v.2 < 2 ^ l) :
    toC (l2l_zdm l BOX (serial l (2 ^ l) v))
      = toC (cellCentre (BOX / (((2 : Int) ^ l : Int) : ℝ)) v)
        - toC (cellCentre (BOX / (((2 : Int) ^ (l - 1) : Int) : ℝ)) (v.1 / 2, v.2 / 2)) := by
  unfold l2l_zdm
  simp only
  rw [cellVec_serial l v ⟨hv.1, hv.2.2.1, hv.2.2.2⟩, Int.tdiv_eq_ediv hv.1 (by norm_num),
    Int.tdiv_eq_ediv hv.2.2.1 (by norm_num)]
  have h2 : 2 * (BOX / (((2 : Int) ^ l : Int) : ℝ)) = BOX / (((2 : Int) ^ (l - 1) : Int) : ℝ) := by
    obtain ⟨k, rfl⟩ : ∃ k, l = k + 1 := ⟨l - 1, by omega⟩
    simp only [Nat.add_sub_cancel]
    push_cast
    rw [pow_succ]
    field_simp
    ring
  rw [h2]
  unfold cellCentre
  apply Complex.ext <;> simp [toC]

/-! ### The multipole-to-local loops -/

/-- The first `b` loop of the multipole-to-local transformation. -/
theorem m2l_b_loop (phi : Int × Nat → ℝ × ℝ) (c ci : Int) (zi : ℝ × ℝ) (n : Nat)
    (zib0 : ℝ × ℝ) (psi0 : Int × Nat → ℝ × ℝ) :
    toC ((List.range' 1 n).foldl (m2l_b_body phi c ci zi) (zib0, psi0)).1
        = toC zib0 * toC zi ^ n
    ∧ (∀ x, x ≠ (c, 0) →
        ((List.range' 1 n).foldl (m2l_b_body phi c ci zi) (zib0, psi0)).2 x = psi0 x)
    ∧ toC (((List.range' 1 n).foldl (m2l_b_body phi c ci zi) (zib0, psi0)).2 (c, 0))
        = toC (psi0 (c, 0)) + ∑ b in Finset.Icc 1 n,
            toC (phi (ci, b)) * (toC zib0 * toC zi ^ b) := by
  induction n with
  | zero => simp
  | succ n ih =>
    rw [List.range'_1_concat, List.foldl_append, List.foldl_cons, List.foldl_nil]
    obtain ⟨ih1, ih2, ih3⟩ := ih
    generalize List.foldl _ (zib0, psi0) (List.range' 1 n) = st at ih1 ih2 ih3 ⊢
    unfold m2l_b_body
    simp only
    refine ⟨?_, ?_, ?_⟩
    · rw [toC_cmul, ih1]
      ring
    · intro x hx
      rw [store_other _ _ _ _ hx, ih2 x hx]
    · rw [store_same, toC_cadd, toC_cmul, toC_cmul, ih1, ih3,
        Finset.sum_Icc_succ_top (by omega), Nat.add_comm 1 n]
      push_cast
      ring

theorem foldl_filter_eq {α β : Type} (p : α → Bool) (f : β → α → β) (l : List α) (b : β) :
    (l.filter p).foldl f b = l.foldl (fun b x => if p x then f b x else b) b := by
  induction l generalizing b with
  | nil => rfl
  | cons x l ih =>
    by_cases h : p x
    · rw [List.filter_cons_of_pos h, List.foldl_cons, List.foldl_cons, if_pos h, ih]
    · rw [List.filter_cons_of_neg h, List.foldl_cons, if_neg h, ih]

/-- A loop whose body adds to every entry an amount that does not depend on
the array adds the sum of these amounts. -/
theorem foldl_add_delta {α : Type} (f : (Int × Nat → ℝ × ℝ) → α → (Int × Nat → ℝ × ℝ))
    (D : α → Int × Nat → ℂ) (h : ∀ psi u x, toC (f psi u x) = toC (psi x) + D u x)
    (us : List α) (psi : Int × Nat → ℝ × ℝ) (x : Int × Nat) :
    toC (us.foldl f psi x) = toC (psi x) + (us.map (fun u => D u x)).sum := by
  induction us generalizing psi with
  | nil => simp
  | cons u us ih =>
    rw [List.foldl_cons, ih, h, List.map_cons, List.sum_cons, add_assoc]

theorem sum_map_ite_mem (cs : List Int) (hnd : cs.Nodup) (F : Int → ℂ) (c : Int) (p : Prop)
    [Decidable p] :
    (cs.map (fun u => if c = u ∧ p then F u else 0)).sum
      = if c ∈ cs ∧ p then F c else 0 := by
  induction cs with
  | nil => simp
  | cons u us ih =>
    rw [List.map_cons, List.sum_cons, ih (List.nodup_cons.mp hnd).2]
    have hnot := (List.nodup_cons.mp hnd).1
    by_cases hp : p
    · by_cases h1 : c = u
      · subst h1
        simp [hp, hnot]
      · simp [hp, h1]
    · simp [hp]

theorem l2l_cell_apply (P : Nat) (hP : P ≤ 12) (l : Nat) (BOX : ℝ)
    (psi : Int × Nat → ℝ × ℝ) (c : Int) (hne : l2l_cm l c ≠ c) (x : Int × Nat) :
    toC (l2l_cell P l BOX psi c x)
      = if x.1 = c ∧ x.2 ≤ P
        then l2lSum P (fun k => toC (psi (l2l_cm l c, k))) (toC (l2l_zdm l BOX c)) x.2
        else toC (psi x) := by
  unfold l2l_cell
  rw [l2l_a_loop P hP c _ hne _ (P + 1) (le_refl _) psi x]
  simp only [Nat.lt_succ_iff]

theorem mem_level_iff (l : Nat) (c : Int) :
    c ∈ intRange (c0 l) (c0 l + 4 ^ l - 1) ↔ c0 l ≤ c ∧ c < c0 (l + 1) := by
  rw [mem_intRange, c0_succ]
  omega

theorem l2l_cm_mem_level (l : Nat) (hl : 1 ≤ l) (c : Int)
    (hc : c ∈ intRange (c0 l) (c0 l + 4 ^ l - 1)) :
    l2l_cm l c ∈ intRange (c0 (l - 1)) (c0 (l - 1) + 4 ^ (l - 1) - 1) := by
  obtain ⟨v, hv, rfl⟩ := exists_vec_of_mem_level l c hc
  rw [l2l_cm_serial l hl v hv]
  exact serial_mem_level (l - 1) _ (half_vec_mem l hl v hv)

theorem c0_le (l k : Nat) (h : l ≤ k) : c0 l ≤ c0 k := by
  induction k with
  | zero =>
    have : l = 0 := by omega
    rw [this]
  | succ k ih =>
    by_cases h1 : l = k + 1
    · rw [h1]
    · have := ih (by omega)
      have h4 : (0 : Int) < 4 ^ k := by positivity
      rw [c0_succ]
      omega

theorem l2l_cm_bounds (l : Nat) (hl : 1 ≤ l) (c : Int) (h1 : c0 l ≤ c) (h2 : c < c0 (l + 1)) :
    c0 (l - 1) ≤ l2l_cm l c ∧ l2l_cm l c < c0 l := by
  have h := l2l_cm_mem_level l hl c ((mem_level_iff l c).mpr ⟨h1, h2⟩)
  rw [mem_level_iff, Nat.sub_add_cancel hl] at h
  exact h

theorem isChain_store (lscl : Nat → Int) (n : Nat) (v : Int) (h : Int) (l : List Nat)
    (hc : IsChain lscl h l) (hn : n ∉ l) : IsChain (store lscl n v) h l := by
  induction l generalizing h with
  | nil => exact hc
  | cons j l ih =>
    obtain ⟨h1, h2⟩ := hc
    have hj : j ≠ n := fun e => hn (by rw [e]; exact List.mem_cons_self _ _)
    refine ⟨h1, ?_⟩
    rw [store_other _ _ _ _ hj]
    exact ih _ h2 (fun h3 => hn (List.mem_cons_of_mem _ h3))

theorem isChain_empty (lscl : Nat → Int) (l : List Nat) (hc : IsChain lscl EMPTY l) :
    l = [] := by
  cases l with
  | nil => rfl
  | cons j l =>
    exfalso
    have := hc.1
    unfold EMPTY at this
    omega

theorem isChain_head_empty (lscl : Nat → Int) (h : Int) (l : List Nat)
    (hc : IsChain lscl h l) : h = EMPTY ↔ l = [] := by
  constructor
  · intro e
    rw [e] at hc
    exact isChain_empty lscl l hc
  · intro e
    rw [e] at hc
    exact hc

theorem mem_members (cell : Nat → Int) (n : Nat) (c : Int) (j : Nat) :
    j ∈ members cell n c ↔ j < n ∧ cell j = c := by
  unfold members
  simp [List.mem_filter]

theorem members_succ (cell : Nat → Int) (n : Nat) (c : Int) :
    members cell (n + 1) c
      = if cell n = c then n :: members cell n c else members cell n c := by
  unfold members
  rw [List.range_succ, List.filter_append]
  by_cases h : cell n = c
  · simp [h]
  · simp [h]

theorem nodup_members (cell : Nat → Int) (n : Nat) (c : Int) : (members cell n c).Nodup := by
  unfold members
  rw [List.nodup_reverse]
  exact List.Nodup.filter _ (List.nodup_range n)

theorem length_members (cell : Nat → Int) (n : Nat) (c : Int) :
    (members cell n c).length ≤ n := by
  unfold members
  rw [List.length_reverse]
  calc (List.filter (fun j => decide (cell j = c)) (List.range n)).length
      ≤ (List.range n).length := List.length_filter_le _ _
    _ = n := List.length_range n

theorem nn_scan_head {R : Type} [LinearOrderedField R] [FloorRing R] (P L : Nat) (BOX : R)
    (z : Nat → R × R) (psi : Int × Nat → R × R) (st : NNState R) (j : Nat) :
    (nn_scan P L BOX z psi st j).head = store st.head (nnCell L BOX z j) (j : Int) := rfl

theorem nn_scan_lscl {R : Type} [LinearOrderedField R] [FloorRing R] (P L : Nat) (BOX : R)
    (z : Nat → R × R) (psi : Int × Nat → R × R) (st : NNState R) (j : Nat) :
    (nn_scan P L BOX z psi st j).lscl = store st.lscl j (st.head (nnCell L BOX z j)) := rfl

theorem nn_scan_pot {R : Type} [LinearOrderedField R] [FloorRing R] (P L : Nat) (BOX : R)
    (z : Nat → R × R) (psi : Int × Nat → R × R) (st : NNState R) (j : Nat) :
    (nn_scan P L BOX z psi st j).pot = store st.pot j
      ((List.range (P + 1)).foldl
        (nn_eval_body psi (nnCell L BOX z j)
          (relPos (BOX / (((2 : Int) ^ L : Int) : R)) (z j)
            (nn_direct_vc (BOX / (((2 : Int) ^ L : Int) : R)) (z j))))
        (cini 0 0, cini 0 0)).2.1 := rfl

/-- After the particle loop of `nn_direct` over the particles `0 .. n-1`, the
linked list of every cell whose header was `EMPTY` holds the particles of the
cell, last first. -/
theorem nn_scan_chain {R : Type} [LinearOrderedField R] [FloorRing R] (P L : Nat) (BOX : R)
    (z : Nat → R × R) (psi : Int × Nat → R × R) (st0 : NNState R) (n : Nat) (c : Int)
    (hc : st0.head c = EMPTY) :
    IsChain ((List.range n).foldl (nn_scan P L BOX z psi) st0).lscl
      (((List.range n).foldl (nn_scan P L BOX z psi) st0).head c)
      (members (nnCell L BOX z) n c) := by
  induction n generalizing c with
  | zero => exact hc
  | succ n ih =>
    rw [List.range_succ, List.foldl_append, List.foldl_cons, List.foldl_nil, nn_scan_head,
      nn_scan_lscl, members_succ]
    generalize List.foldl (nn_scan P L BOX z psi) st0 (List.range n) = st at ih ⊢
    have hn : ∀ c2, n ∉ members (nnCell L BOX z) n c2 := by
      intro c2 h
      have := ((mem_members _ _ _ _).mp h).1
      omega
    by_cases h : nnCell L BOX z n = c
    · rw [if_pos h, h, store_same]
      refine ⟨rfl, ?_⟩
      rw [store_same]
      exact isChain_store _ _ _ _ _ (ih c hc) (hn c)
    · rw [if_neg h, store_other _ _ _ _ (fun e => h e.symm)]
      exact isChain_store _ _ _ _ _ (ih c hc) (hn c)

theorem nn_scan_pot_fold {R : Type} [LinearOrderedField R] [FloorRing R] (P L : Nat) (BOX : R)
    (z : Nat → R × R) (psi : Int × Nat → R × R) (st0 : NNState R) (n : Nat) (j : Nat) :
    ((List.range n).foldl (nn_scan P L BOX z psi) st0).pot j
      = if j < n then
          ((List.range (P + 1)).foldl
            (nn_eval_body psi (nnCell L BOX z j)
              (relPos (BOX / (((2 : Int) ^ L : Int) : R)) (z j)
                (nn_direct_vc (BOX / (((2 : Int) ^ L : Int) : R)) (z j))))
            (cini 0 0, cini 0 0)).2.1
        else st0.pot j := by
  induction n with
  | zero => simp
  | succ n ih =>
    rw [List.range_succ, List.foldl_append, List.foldl_cons, List.foldl_nil, nn_scan_pot]
    by_cases h : j = n
    · subst h
      rw [store_same, if_pos (Nat.lt_succ_self _)]
    · rw [store_other _ _ _ _ h, ih]
      by_cases h2 : j < n
      · rw [if_pos h2, if_pos (by omega)]
      · rw [if_neg h2, if_neg (by omega)]

/-- The loop that evaluates the local expansion, in complex form. -/
theorem nn_eval_loop (psi : Int × Nat → ℝ × ℝ) (c : Int) (zjc : ℝ × ℝ) (n : Nat)
    (za0 : ℝ × ℝ) :
    (1 ≤ n → toC ((List.range n).foldl (nn_eval_body psi c zjc) (za0, cini 0 0)).1
        = toC zjc ^ (n - 1))
    ∧ toC ((List.range n).foldl (nn_eval_body psi c zjc) (za0, cini 0 0)).2
        = ∑ a in Finset.range n, toC (psi (c, a)) * toC zjc ^ a := by
  induction n with
  | zero =>
    constructor
    · intro h
      omega
    · simp only [List.range_zero, List.foldl_nil, Finset.range_zero, Finset.sum_empty]
      exact toC_zero
  | succ n ih =>
    rw [List.range_succ, List.foldl_append, List.foldl_cons, List.foldl_nil]
    obtain ⟨ih1, ih2⟩ := ih
    generalize List.foldl (nn_eval_body psi c zjc) (za0, cini 0 0) (List.range n)
      = st at ih1 ih2 ⊢
    have hz : toC (if n = 0 then cini 1 0 else cmul st.1 zjc) = toC zjc ^ n := by
      by_cases h0 : n = 0
      · subst h0
        rw [if_pos rfl, toC_cini_real]
        simp
      · rw [if_neg h0, toC_cmul, ih1 (by omega), ← pow_succ]
        congr 1
        omega
    unfold nn_eval_body
    simp only
    refine ⟨fun _ => hz, ?_⟩
    rw [toC_cadd, toC_cmul, hz, ih2, Finset.sum_range_succ]
    push_cast
    ring

/-! ### The list walks -/

theorem nn_direct_pair_eq {R : Type} [Field R] (log sqrt : R → R) (z : Nat → R × R)
    (q : Nat → R) (j k : Nat) (pot : Nat → R) :
    nn_direct_pair log sqrt z q j k pot = pairUpd q (pairLog log sqrt z) pot (j, k) := rfl

theorem nn_scan_k_eq {R : Type} [Field R] (log sqrt : R → R) (z : Nat → R × R) (q : Nat → R)
    (lscl : Nat → Int) (j : Nat) (ks : List Nat) (k : Int) (hc : IsChain lscl k ks)
    (fuel : Nat) (hf : ks.length < fuel) (pot : Nat → R) :
    nn_scan_k log sqrt z q lscl (j : Int) fuel k pot
      = some (((ks.filter (fun k2 => decide (j < k2))).map (fun k2 => (j, k2))).foldl
          (pairUpd q (pairLog log sqrt z)) pot) := by
  induction ks generalizing k fuel pot with
  | nil =>
    obtain ⟨f, rfl⟩ : ∃ f, fuel = f + 1 := ⟨fuel - 1, by simp at hf; omega⟩
    have hk : k = EMPTY := hc
    rw [nn_scan_k, if_pos hk]
    rfl
  | cons k2 ks ih =>
    obtain ⟨f, rfl⟩ : ∃ f, fuel = f + 1 := ⟨fuel - 1, by simp at hf; omega⟩
    obtain ⟨hk, hc2⟩ := hc
    have hne : k ≠ EMPTY := by
      rw [hk]
      unfold EMPTY
      omega
    have hlen : ks.length < f := by
      simp only [List.length_cons] at hf
      omega
    rw [nn_scan_k, if_neg hne]
    simp only
    subst hk
    rw [Int.toNat_ofNat, Int.toNat_ofNat, ih _ hc2 f hlen]
    by_cases hjk : j < k2
    · have h1 : (j : Int) < (k2 : Int) := by omega
      rw [if_pos h1, List.filter_cons_of_pos (by simpa using hjk), List.map_cons,
        List.foldl_cons, nn_direct_pair_eq]
    · have h1 : ¬ (j : Int) < (k2 : Int) := by omega
      rw [if_neg h1, List.filter_cons_of_neg (by simpa using hjk)]

theorem nn_scan_j_eq {R : Type} [Field R] (log sqrt : R → R) (z : Nat → R × R) (q : Nat → R)
    (lscl : Nat → Int) (head_c1 : Int) (ks : List Nat) (hk : IsChain lscl head_c1 ks)
    (fuel_k : Nat) (hfk : ks.length < fuel_k) (js : List Nat) (j : Int)
    (hj : IsChain lscl j js) (fuel : Nat) (hf : js.length < fuel) (pot : Nat → R) :
    nn_scan_j log sqrt z q lscl head_c1 fuel_k fuel j pot
      = some ((pairsOf js ks).foldl (pairUpd q (pairLog log sqrt z)) pot) := by
  induction js generalizing j fuel pot with
  | nil =>
    obtain ⟨f, rfl⟩ : ∃ f, fuel = f + 1 := ⟨fuel - 1, by simp at hf; omega⟩
    have hj2 : j = EMPTY := hj
    rw [nn_scan_j, if_pos hj2]
    rfl
  | cons j2 js ih =>
    obtain ⟨f, rfl⟩ : ∃ f, fuel = f + 1 := ⟨fuel - 1, by simp at hf; omega⟩
    obtain ⟨hj1, hj2⟩ := hj
    have hne : j ≠ EMPTY := by
      rw [hj1]
      unfold EMPTY
      omega
    have hlen : js.length < f := by
      simp only [List.length_cons] at hf
      omega
    rw [nn_scan_j, if_neg hne]
    subst hj1
    rw [nn_scan_k_eq log sqrt z q lscl j2 ks head_c1 hk fuel_k hfk]
    simp only
    rw [Int.toNat_ofNat, ih _ hj2 f hlen]
    unfold pairsOf
    rw [List.flatMap_cons, List.foldl_append]

theorem pairsOf_nil_left (ks : List Nat) : pairsOf [] ks = [] := rfl

theorem pairsOf_nil_right (js : List Nat) : pairsOf js [] = [] := by
  unfold pairsOf
  induction js with
  | nil => rfl
  | cons j js ih => rw [List.flatMap_cons, ih]; rfl

theorem foldlM_some {α β : Type} (step : β → α → Option β) (g : β → α → β) (l : List α)
    (h : ∀ x ∈ l, ∀ b, step b x = some (g b x)) (b : β) :
    l.foldlM step b = some (l.foldl g b) := by
  induction l generalizing b with
  | nil => rfl
  | cons x l ih =>
    rw [List.foldlM_cons, h x (List.mem_cons_self _ _) b, List.foldl_cons]
    exact ih (fun y hy => h y (List.mem_cons_of_mem _ hy)) (g b x)

theorem foldl_flatMap_eq {α β γ : Type} (f : α → List β) (g : γ → β → γ) (l : List α)
    (b : γ) : (l.flatMap f).foldl g b = l.foldl (fun b x => (f x).foldl g b) b := by
  rw [List.flatMap, List.foldl_flatten, List.foldl_map]

/-! ### The cell loops -/

theorem foldl_keep {α β : Type} (l : List α) (b : β) : l.foldl (fun b _ => b) b = b := by
  induction l with
  | nil => rfl
  | cons x l ih => rw [List.foldl_cons, ih]

theorem nbr_in_grid (lc v u : Int) (hv : 0 ≤ v ∧ v < lc)
    (hu : u ∈ intRange (if v - 1 ≥ 0 then v - 1 else 0) (if v + 1 < lc then v + 1 else lc - 1)) :
    (0 ≤ u ∧ u < lc) ∧ (v - 1 ≤ u ∧ u ≤ v + 1) := by
  rw [mem_intRange] at hu
  split_ifs at hu <;> omega

theorem mem_nbr_range (lc v u : Int) (hv : 0 ≤ v ∧ v < lc) (hu : 0 ≤ u ∧ u < lc)
    (h : v - 1 ≤ u ∧ u ≤ v + 1) :
    u ∈ intRange (if v - 1 ≥ 0 then v - 1 else 0) (if v + 1 < lc then v + 1 else lc - 1) := by
  rw [mem_intRange]
  split_ifs <;> omega

theorem nn_neighbor_eq {R : Type} [Field R] (log sqrt : R → R) (z : Nat → R × R)
    (q : Nat → R) (L N : Nat) (cell : Nat → Int) (head : Int → Int) (lscl : Nat → Int)
    (hchain : ∀ c, c ∈ intRange (c0 L) (c0 L + 4 ^ L - 1) →
      IsChain lscl (head c) (members cell N c))
    (c : Int) (hc : c ∈ intRange (c0 L) (c0 L + 4 ^ L - 1)) (vc1 : Int × Int)
    (hv1 : 0 ≤ vc1.1 ∧ vc1.1 < 2 ^ L ∧ 0 ≤ vc1.2 ∧ vc1.2 < 2 ^ L) (pot : Nat → R) :
    nn_neighbor log sqrt L N z q head lscl c pot vc1
      = some ((pairsOf (members cell N c) (members cell N (serial L (2 ^ L) vc1))).foldl
          (pairUpd q (pairLog log sqrt z)) pot) := by
  unfold nn_neighbor
  simp only
  have hc1 := hchain _ (serial_mem_level L vc1 hv1)
  by_cases h : head (serial L (2 ^ L) vc1) = EMPTY
  · rw [if_pos h, (isChain_head_empty _ _ _ hc1).mp h, pairsOf_nil_right]
    rfl
  · rw [if_neg h]
    exact nn_scan_j_eq log sqrt z q lscl _ _ hc1 (N + 1)
      (Nat.lt_succ_of_le (length_members _ _ _)) _ _ (hchain c hc) (N + 1)
      (Nat.lt_succ_of_le (length_members _ _ _)) pot

theorem nn_cell_eq {R : Type} [Field R] (log sqrt : R → R) (z : Nat → R × R)
    (q : Nat → R) (L N : Nat) (cell : Nat → Int) (head : Int → Int) (lscl : Nat → Int)
    (hchain : ∀ c, c ∈ intRange (c0 L) (c0 L + 4 ^ L - 1) →
      IsChain lscl (head c) (members cell N c))
    (vc : Int × Int) (hv : 0 ≤ vc.1 ∧ vc.1 < 2 ^ L ∧ 0 ≤ vc.2 ∧ vc.2 < 2 ^ L)
    (pot : Nat → R) :
    nn_cell log sqrt L N z q head lscl pot vc
      = some ((nbrPairs cell L N vc).foldl (pairUpd q (pairLog log sqrt z)) pot) := by
  unfold nn_cell nbrPairs
  simp only
  have hc := serial_mem_level L vc hv
  rw [foldl_flatMap_eq]
  simp only [foldl_flatMap_eq]
  by_cases h : head (serial L (2 ^ L) vc) = EMPTY
  · rw [if_pos h, (isChain_head_empty _ _ _ (hchain _ hc)).mp h]
    simp only [pairsOf_nil_left, List.foldl_nil, foldl_keep]
  · rw [if_neg h]
    apply foldlM_some
    intro v0 hv0 b
    apply foldlM_some
    intro v1 hv1 b1
    have h0 := (nbr_in_grid (2 ^ L) vc.1 v0 ⟨hv.1, hv.2.1⟩ hv0).1
    have h1 := (nbr_in_grid (2 ^ L) vc.2 v1 ⟨hv.2.2.1, hv.2.2.2⟩ hv1).1
    exact nn_neighbor_eq log sqrt z q L N cell head lscl hchain _ hc (v0, v1)
      ⟨h0.1, h0.2, h1.1, h1.2⟩ b1

theorem nn_cells_eq {R : Type} [Field R] (log sqrt : R → R) (z : Nat → R × R)
    (q : Nat → R) (L N : Nat) (cell : Nat → Int) (head : Int → Int) (lscl : Nat → Int)
    (hchain : ∀ c, c ∈ intRange (c0 L) (c0 L + 4 ^ L - 1) →
      IsChain lscl (head c) (members cell N c)) (pot : Nat → R) :
    (intRange 0 (2 ^ L - 1)).foldlM
        (fun pot v0 => (intRange 0 (2 ^ L - 1)).foldlM
          (fun pot v1 => nn_cell log sqrt L N z q head lscl pot (v0, v1)) pot) pot
      = some ((nnPairs cell L N).foldl (pairUpd q (pairLog log sqrt z)) pot) := by
  unfold nnPairs
  rw [foldl_flatMap_eq]
  simp only [foldl_flatMap_eq]
  apply foldlM_some
  intro v0 hv0 b
  apply foldlM_some
  intro v1 hv1 b1
  rw [mem_intRange] at hv0 hv1
  exact nn_cell_eq log sqrt z q L N cell head lscl hchain (v0, v1)
    ⟨hv0.1, by omega, hv1.1, by omega⟩ b1

/-! ### The visited pairs -/

theorem mem_pairsOf (js ks : List Nat) (p : Nat × Nat) :
    p ∈ pairsOf js ks ↔ p.1 ∈ js ∧ p.2 ∈ ks ∧ p.1 < p.2 := by
  unfold pairsOf
  simp only [List.mem_flatMap, List.mem_map, List.mem_filter, decide_eq_true_eq]
  constructor
  · rintro ⟨j, hj, k, ⟨hk, hjk⟩, rfl⟩
    exact ⟨hj, hk, hjk⟩
  · rintro ⟨h1, h2, h3⟩
    exact ⟨p.1, h1, p.2, ⟨h2, h3⟩, rfl⟩

theorem nodup_pairsOf (js ks : List Nat) (hj : js.Nodup) (hk : ks.Nodup) :
    (pairsOf js ks).Nodup := by
  unfold pairsOf
  rw [List.nodup_flatMap]
  constructor
  · intro j _
    apply List.Nodup.map
    · intro a b h
      exact (Prod.mk.inj h).2
    · exact List.Nodup.filter _ hk
  · apply List.Pairwise.imp _ hj
    intro a b hab
    simp only [Function.onFun]
    intro x hx1 hx2
    simp only [List.mem_map] at hx1 hx2
    obtain ⟨k1, _, rfl⟩ := hx1
    obtain ⟨k2, _, h2⟩ := hx2
    exact hab (Prod.mk.inj h2).1.symm

/-- A concatenation of duplicate-free lists indexed by a duplicate-free list
is duplicate-free when every element determines its index. -/
theorem nodup_flatMap_of_key {α β κ : Type} (l : List α) (f : α → List β) (key : β → κ)
    (kf : α → κ) (hinj : ∀ a ∈ l, ∀ a2 ∈ l, kf a = kf a2 → a = a2)
    (hkey : ∀ a ∈ l, ∀ b ∈ f a, key b = kf a) (hl : l.Nodup)
    (hf : ∀ a ∈ l, (f a).Nodup) : (l.flatMap f).Nodup := by
  rw [List.nodup_flatMap]
  refine ⟨hf, ?_⟩
  apply List.Pairwise.imp_of_mem _ hl
  intro a a2 ha ha2 hne
  simp only [Function.onFun]
  intro x hx1 hx2
  exact hne (hinj a ha a2 ha2 ((hkey a ha x hx1).symm.trans (hkey a2 ha2 x hx2)))

theorem mem_nbrPairs (cell : Nat → Int) (L N : Nat) (vc : Int × Int)
    (hv : 0 ≤ vc.1 ∧ vc.1 < 2 ^ L ∧ 0 ≤ vc.2 ∧ vc.2 < 2 ^ L) (p : Nat × Nat) :
    p ∈ nbrPairs cell L N vc ↔
      ∃ u : Int × Int, (0 ≤ u.1 ∧ u.1 < 2 ^ L ∧ 0 ≤ u.2 ∧ u.2 < 2 ^ L)
        ∧ (vc.1 - 1 ≤ u.1 ∧ u.1 ≤ vc.1 + 1 ∧ vc.2 - 1 ≤ u.2 ∧ u.2 ≤ vc.2 + 1)
        ∧ (p.1 < N ∧ cell p.1 = serial L (2 ^ L) vc)
        ∧ (p.2 < N ∧ cell p.2 = serial L (2 ^ L) u) ∧ p.1 < p.2 := by
  unfold nbrPairs
  simp only [List.mem_flatMap, mem_pairsOf, mem_members]
  constructor
  · rintro ⟨v0, hv0, v1, hv1, h1, h2, h3⟩
    have h0 := nbr_in_grid (2 ^ L) vc.1 v0 ⟨hv.1, hv.2.1⟩ hv0
    have h1' := nbr_in_grid (2 ^ L) vc.2 v1 ⟨hv.2.2.1, hv.2.2.2⟩ hv1
    exact ⟨(v0, v1), ⟨h0.1.1, h0.1.2, h1'.1.1, h1'.1.2⟩,
      ⟨h0.2.1, h0.2.2, h1'.2.1, h1'.2.2⟩, h1, h2, h3⟩
  · rintro ⟨u, hu, hadj, h1, h2, h3⟩
    exact ⟨u.1, mem_nbr_range _ _ _ ⟨hv.1, hv.2.1⟩ ⟨hu.1, hu.2.1⟩ ⟨hadj.1, hadj.2.1⟩,
      u.2, mem_nbr_range _ _ _ ⟨hv.2.2.1, hv.2.2.2⟩ ⟨hu.2.2.1, hu.2.2.2⟩
        ⟨hadj.2.2.1, hadj.2.2.2⟩, h1, h2, h3⟩

theorem mem_nnPairs (cell : Nat → Int) (L N : Nat) (p : Nat × Nat) :
    p ∈ nnPairs cell L N ↔
      ∃ v u : Int × Int, (0 ≤ v.1 ∧ v.1 < 2 ^ L ∧ 0 ≤ v.2 ∧ v.2 < 2 ^ L)
        ∧ (0 ≤ u.1 ∧ u.1 < 2 ^ L ∧ 0 ≤ u.2 ∧ u.2 < 2 ^ L)
        ∧ (v.1 - 1 ≤ u.1 ∧ u.1 ≤ v.1 + 1 ∧ v.2 - 1 ≤ u.2 ∧ u.2 ≤ v.2 + 1)
        ∧ (p.1 < N ∧ cell p.1 = serial L (2 ^ L) v)
        ∧ (p.2 < N ∧ cell p.2 = serial L (2 ^ L) u) ∧ p.1 < p.2 := by
  unfold nnPairs
  simp only [List.mem_flatMap, mem_intRange]
  constructor
  · rintro ⟨v0, hv0, v1, hv1, hp⟩
    have hv : 0 ≤ ((v0, v1) : Int × Int).1 ∧ ((v0, v1) : Int × Int).1 < 2 ^ L
        ∧ 0 ≤ ((v0, v1) : Int × Int).2 ∧ ((v0, v1) : Int × Int).2 < 2 ^ L :=
      ⟨hv0.1, by omega, hv1.1, by omega⟩
    obtain ⟨u, hu⟩ := (mem_nbrPairs cell L N (v0, v1) hv p).mp hp
    exact ⟨(v0, v1), u, hv, hu⟩
  · rintro ⟨v, u, hv, hu⟩
    exact ⟨v.1, ⟨hv.1, by omega⟩, v.2, ⟨hv.2.2.1, by omega⟩,
      (mem_nbrPairs cell L N v hv p).mpr ⟨u, hu⟩⟩

theorem nodup_nbrPairs (cell : Nat → Int) (L N : Nat) (vc : Int × Int)
    (hv : 0 ≤ vc.1 ∧ vc.1 < 2 ^ L ∧ 0 ≤ vc.2 ∧ vc.2 < 2 ^ L) :
    (nbrPairs cell L N vc).Nodup := by
  unfold nbrPairs
  apply nodup_flatMap_of_key _ _ (fun p => (cellVec L (cell p.2)).1) (fun v0 => v0)
    (fun a _ b _ h => h) _ (nodup_intRange _ _)
  · intro v0 hv0
    apply nodup_flatMap_of_key _ _ (fun p => (cellVec L (cell p.2)).2) (fun v1 => v1)
      (fun a _ b _ h => h) _ (nodup_intRange _ _)
    · intro v1 _
      exact nodup_pairsOf _ _ (nodup_members _ _ _) (nodup_members _ _ _)
    · intro v1 hv1 p hp
      have h0 := (nbr_in_grid (2 ^ L) vc.1 v0 ⟨hv.1, hv.2.1⟩ hv0).1
      have h1 := (nbr_in_grid (2 ^ L) vc.2 v1 ⟨hv.2.2.1, hv.2.2.2⟩ hv1).1
      have hc := ((mem_members _ _ _ _).mp ((mem_pairsOf _ _ p).mp hp).2.1).2
      simp only
      rw [hc, cellVec_serial L (v0, v1) ⟨h0.1, h1.1, h1.2⟩]
  · intro v0 hv0 p hp
    rw [List.mem_flatMap] at hp
    obtain ⟨v1, hv1, hp⟩ := hp
    have h0 := (nbr_in_grid (2 ^ L) vc.1 v0 ⟨hv.1, hv.2.1⟩ hv0).1
    have h1 := (nbr_in_grid (2 ^ L) vc.2 v1 ⟨hv.2.2.1, hv.2.2.2⟩ hv1).1
    have hc := ((mem_members _ _ _ _).mp ((mem_pairsOf _ _ p).mp hp).2.1).2
    simp only
    rw [hc, cellVec_serial L (v0, v1) ⟨h0.1, h1.1, h1.2⟩]

theorem nodup_nnPairs (cell : Nat → Int) (L N : Nat) : (nnPairs cell L N).Nodup := by
  unfold nnPairs
  apply nodup_flatMap_of_key _ _ (fun p => (cellVec L (cell p.1)).1) (fun v0 => v0)
    (fun a _ b _ h => h) _ (nodup_intRange _ _)
  · intro v0 hv0
    rw [mem_intRange] at hv0
    apply nodup_flatMap_of_key _ _ (fun p => (cellVec L (cell p.1)).2) (fun v1 => v1)
      (fun a _ b _ h => h) _ (nodup_intRange _ _)
    · intro v1 hv1
      rw [mem_intRange] at hv1
      exact nodup_nbrPairs cell L N (v0, v1) ⟨hv0.1, by omega, hv1.1, by omega⟩
    · intro v1 hv1 p hp
      rw [mem_intRange] at hv1
      have hv : 0 ≤ ((v0, v1) : Int × Int).1 ∧ ((v0, v1) : Int × Int).1 < 2 ^ L
          ∧ 0 ≤ ((v0, v1) : Int × Int).2 ∧ ((v0, v1) : Int × Int).2 < 2 ^ L :=
        ⟨hv0.1, by omega, hv1.1, by omega⟩
      obtain ⟨u, _, _, h1, _⟩ := (mem_nbrPairs cell L N (v0, v1) hv p).mp hp
      simp only
      rw [h1.2, cellVec_serial L (v0, v1) ⟨hv.1, hv.2.2.1, hv.2.2.2⟩]
  · intro v0 hv0 p hp
    rw [mem_intRange] at hv0
    rw [List.mem_flatMap] at hp
    obtain ⟨v1, hv1, hp⟩ := hp
    rw [mem_intRange] at hv1
    have hv : 0 ≤ ((v0, v1) : Int × Int).1 ∧ ((v0, v1) : Int × Int).1 < 2 ^ L
        ∧ 0 ≤ ((v0, v1) : Int × Int).2 ∧ ((v0, v1) : Int × Int).2 < 2 ^ L :=
      ⟨hv0.1, by omega, hv1.1, by omega⟩
    obtain ⟨u, _, _, h1, _⟩ := (mem_nbrPairs cell L N (v0, v1) hv p).mp hp
    simp only
    rw [h1.2, cellVec_serial L (v0, v1) ⟨hv.1, hv.2.2.1, hv.2.2.2⟩]

/-! ### The potentials of `nn_direct` -/

theorem nn_direct_vc_mem {R : Type} [LinearOrderedField R] [FloorRing R] (L : Nat) (BOX : R)
    (hB : 0 < BOX) (zj : R × R) (hz : (0 ≤ zj.1 ∧ zj.1 < BOX) ∧ (0 ≤ zj.2 ∧ zj.2 < BOX)) :
    0 ≤ (nn_direct_vc (BOX / (((2 : Int) ^ L : Int) : R)) zj).1
      ∧ (nn_direct_vc (BOX / (((2 : Int) ^ L : Int) : R)) zj).1 < 2 ^ L
      ∧ 0 ≤ (nn_direct_vc (BOX / (((2 : Int) ^ L : Int) : R)) zj).2
      ∧ (nn_direct_vc (BOX / (((2 : Int) ^ L : Int) : R)) zj).2 < 2 ^ L := by
  obtain ⟨_, a2, a3, _⟩ := coord_index L BOX hB zj.1 hz.1
  obtain ⟨_, b2, b3, _⟩ := coord_index L BOX hB zj.2 hz.2
  exact ⟨a2, a3, b2, b3⟩

theorem foldl_reset (cs : List Int) (head : Int → Int) (c : Int) :
    cs.foldl (fun h c => store h c EMPTY) head c = if c ∈ cs then EMPTY else head c := by
  induction cs generalizing head with
  | nil => simp
  | cons c2 cs ih =>
    rw [List.foldl_cons, ih]
    by_cases h1 : c ∈ cs
    · rw [if_pos h1, if_pos (List.mem_cons_of_mem _ h1)]
    · rw [if_neg h1]
      by_cases h2 : c = c2
      · rw [h2, store_same, if_pos (List.mem_cons_self _ _)]
      · rw [store_other _ _ _ _ h2, if_neg]
        intro h3
        rcases List.mem_cons.mp h3 with h4 | h4
        · exact h2 h4
        · exact h1 h4

/-- The pairs visited by `nn_direct`, for positions in the box: `(j,k)` is
visited if and only if `j < k < N` and the leaf vector indices of `j` and `k`
differ by at most 1 in each coordinate. -/
theorem mem_nnPairs_iff {R : Type} [LinearOrderedField R] [FloorRing R] (L N : Nat) (BOX : R)
    (hB : 0 < BOX) (z : Nat → R × R)
    (hz : ∀ j < N, (0 ≤ (z j).1 ∧ (z j).1 < BOX) ∧ (0 ≤ (z j).2 ∧ (z j).2 < BOX))
    (p : Nat × Nat) :
    p ∈ nnPairs (nnCell L BOX z) L N ↔
      p.1 < p.2 ∧ p.2 < N
      ∧ |(nn_direct_vc (BOX / (((2 : Int) ^ L : Int) : R)) (z p.2)).1
          - (nn_direct_vc (BOX / (((2 : Int) ^ L : Int) : R)) (z p.1)).1| ≤ 1
      ∧ |(nn_direct_vc (BOX / (((2 : Int) ^ L : Int) : R)) (z p.2)).2
          - (nn_direct_vc (BOX / (((2 : Int) ^ L : Int) : R)) (z p.1)).2| ≤ 1 := by
  rw [mem_nnPairs]
  simp only [abs_le]
  constructor
  · rintro ⟨v, u, hv, hu, hadj, ⟨h1, h2⟩, ⟨h3, h4⟩, h5⟩
    have g1 := nn_direct_vc_mem L BOX hB (z p.1) (hz p.1 h1)
    have g2 := nn_direct_vc_mem L BOX hB (z p.2) (hz p.2 h3)
    have e1 := serial_injective L (2 ^ L) _ v ⟨g1.2.2.1, g1.2.2.2⟩ ⟨hv.2.2.1, hv.2.2.2⟩ h2
    have e2 := serial_injective L (2 ^ L) _ u ⟨g2.2.2.1, g2.2.2.2⟩ ⟨hu.2.2.1, hu.2.2.2⟩ h4
    rw [e1, e2]
    refine ⟨h5, h3, ?_, ?_⟩ <;> omega
  · rintro ⟨h1, h2, h3, h4⟩
    have h0 : p.1 < N := by omega
    exact ⟨_, _, nn_direct_vc_mem L BOX hB (z p.1) (hz p.1 h0),
      nn_direct_vc_mem L BOX hB (z p.2) (hz p.2 h2), by omega, ⟨h0, rfl⟩, ⟨h2, rfl⟩, h1⟩

/-- C9: after `nn_direct` (exact real arithmetic, positions in `[0,BOX)^2`),
which returns, for every particle `j` located in the leaf `c` (centre `c_c`,
`d = z_j - c_c`): `pot[j] = Re(Σ_{a=0..P} psi[c][a] * d^a)
+ Σ q[k]*log|z_j - z_k|` over exactly those particles `k ≠ j` whose leaf
vector index differs from that of `j` by at most 1 in each coordinate. The
pair body runs exactly once for every unordered pair of distinct particles in
the same or adjacent leaves (as `(j,k)` with `j < k`, adding to `pot[j]` and
to `pot[k]`), and never for a pair `(j,j)`. -/
theorem nn_direct_potential (P L N : Nat) (BOX : ℝ) (hB : 0 < BOX) (z : Nat → ℝ × ℝ)
    (q : Nat → ℝ) (psi : Int × Nat → ℝ × ℝ) (st0 : NNState ℝ)
    (hz : ∀ j < N, (0 ≤ (z j).1 ∧ (z j).1 < BOX) ∧ (0 ≤ (z j).2 ∧ (z j).2 < BOX)) :
    ∃ (pot : Nat → ℝ) (eng : ℝ),
      nn_direct Real.log Real.sqrt P L N BOX z q psi st0 = some (pot, eng)
      ∧ (∀ j < N, pot j
          = (∑ a in Finset.range (P + 1),
              toC (psi (serial L (2 ^ L)
                  (nn_direct_vc (BOX / (((2 : Int) ^ L : Int) : ℝ)) (z j)), a))
                * (toC (z j) - toC (cellCentre (BOX / (((2 : Int) ^ L : Int) : ℝ))
                    (nn_direct_vc (BOX / (((2 : Int) ^ L : Int) : ℝ)) (z j)))) ^ a).re
            + ∑ k in (Finset.range N).filter (fun k => k ≠ j
                ∧ |(nn_direct_vc (BOX / (((2 : Int) ^ L : Int) : ℝ)) (z k)).1
                    - (nn_direct_vc (BOX / (((2 : Int) ^ L : Int) : ℝ)) (z j)).1| ≤ 1
                ∧ |(nn_direct_vc (BOX / (((2 : Int) ^ L : Int) : ℝ)) (z k)).2
                    - (nn_direct_vc (BOX / (((2 : Int) ^ L : Int) : ℝ)) (z j)).2| ≤ 1),
              q k * Real.log (Complex.abs (toC (z j) - toC (z k))))
      ∧ (nnPairs (nnCell L BOX z) L N).Nodup
      ∧ (∀ j k : Nat, (j, k) ∈ nnPairs (nnCell L BOX z) L N ↔
          j < k ∧ k < N
          ∧ |(nn_direct_vc (BOX / (((2 : Int) ^ L : Int) : ℝ)) (z k)).1
              - (nn_direct_vc (BOX / (((2 : Int) ^ L : Int) : ℝ)) (z j)).1| ≤ 1
          ∧ |(nn_direct_vc (BOX / (((2 : Int) ^ L : Int) : ℝ)) (z k)).2
              - (nn_direct_vc (BOX / (((2 : Int) ^ L : Int) : ℝ)) (z j)).2| ≤ 1) := by
  obtain ⟨st, hst⟩ : ∃ st : NNState ℝ, st = (List.range N).foldl (nn_scan P L BOX z psi)
      { head := (intRange (c0 L) (c0 L + 4 ^ L - 1)).foldl
          (fun h c => store h c EMPTY) st0.head,
        lscl := st0.lscl, pot := st0.pot } := ⟨_, rfl⟩
  have hchain : ∀ c, c ∈ intRange (c0 L) (c0 L + 4 ^ L - 1) →
      IsChain st.lscl (st.head c) (members (nnCell L BOX z) N c) := by
    intro c hc
    rw [hst]
    apply nn_scan_chain
    simp only
    rw [foldl_reset, if_pos hc]
  have hrun := nn_cells_eq Real.log Real.sqrt z q L N (nnCell L BOX z) st.head st.lscl hchain
    st.pot
  have hmem := mem_nnPairs_iff L N BOX hB z hz
  refine ⟨(nnPairs (nnCell L BOX z) L N).foldl (pairUpd q (pairLog Real.log Real.sqrt z)) st.pot,
    energy N q ((nnPairs (nnCell L BOX z) L N).foldl
      (pairUpd q (pairLog Real.log Real.sqrt z)) st.pot),
    ?_, ?_, nodup_nnPairs _ _ _, fun j k => hmem (j, k)⟩
  · unfold nn_direct
    simp only
    rw [← hst, hrun]
  · intro j hj
    rw [foldl_pairUpd N q _ (pairLog_symm Real.log Real.sqrt z) _
      (fun p hp => ⟨((hmem p).mp hp).1, ((hmem p).mp hp).2.1⟩) (nodup_nnPairs _ _ _),
      hst, nn_scan_pot_fold, if_pos hj]
    congr 1
    · have h := (nn_eval_loop psi (nnCell L BOX z j)
        (relPos (BOX / (((2 : Int) ^ L : Int) : ℝ)) (z j)
          (nn_direct_vc (BOX / (((2 : Int) ^ L : Int) : ℝ)) (z j))) (P + 1) (cini 0 0)).2
      rw [relPos_eq_sub] at h
      unfold nnCell at h ⊢
      rw [← h]
      rfl
    · rw [Finset.sum_filter]
      apply Finset.sum_congr rfl
      intro k hk
      have hk2 := Finset.mem_range.mp hk
      rw [pairLog_real]
      have hiff : ((j, k) ∈ nnPairs (nnCell L BOX z) L N ∨ (k, j) ∈ nnPairs (nnCell L BOX z) L N)
          ↔ (k ≠ j
            ∧ |(nn_direct_vc (BOX / (((2 : Int) ^ L : Int) : ℝ)) (z k)).1
                - (nn_direct_vc (BOX / (((2 : Int) ^ L : Int) : ℝ)) (z j)).1| ≤ 1
            ∧ |(nn_direct_vc (BOX / (((2 : Int) ^ L : Int) : ℝ)) (z k)).2
                - (nn_direct_vc (BOX / (((2 : Int) ^ L : Int) : ℝ)) (z j)).2| ≤ 1) := by
        rw [hmem (j, k), hmem (k, j)]
        simp only [abs_le]
        constructor
        · rintro (⟨h1, _, h3, h4⟩ | ⟨h1, _, h3, h4⟩)
          · exact ⟨by omega, h3, h4⟩
          · exact ⟨by omega, by omega, by omega⟩
        · rintro ⟨h1, h3, h4⟩
          rcases Nat.lt_or_gt_of_ne h1 with h5 | h5
          · right
            exact ⟨h5, hj, by omega, by omega⟩
          · left
            exact ⟨h5, hk2, h3, h4⟩
      by_cases hc : (j, k) ∈ nnPairs (nnCell L BOX z) L N ∨ (k, j) ∈ nnPairs (nnCell L BOX z) L N
      · rw [if_pos hc, if_pos (hiff.mp hc)]
      · rw [if_neg hc, if_neg (fun h => hc (hiff.mpr h))]

/-- Witness of C9: two unit charges at `(1/4,1/4)` and `(3/4,1/4)` in the unit
box at depth 1, order 0. -/
theorem nn_direct_potential_witness :
    ((0 : ℝ) < 1)
    ∧ (∀ j < 2, (0 ≤ ((fun n : Nat => (((2 * n + 1 : Nat) : ℝ) / 4, (1 / 4 : ℝ))) j).1
          ∧ ((fun n : Nat => (((2 * n + 1 : Nat) : ℝ) / 4, (1 / 4 : ℝ))) j).1 < 1)
        ∧ (0 ≤ ((fun n : Nat => (((2 * n + 1 : Nat) : ℝ) / 4, (1 / 4 : ℝ))) j).2
          ∧ ((fun n : Nat => (((2 * n + 1 : Nat) : ℝ) / 4, (1 / 4 : ℝ))) j).2 < 1))
    ∧ ∃ (pot : Nat → ℝ) (eng : ℝ),
        nn_direct Real.log Real.sqrt 0 1 2 (1 : ℝ)
          (fun n : Nat => (((2 * n + 1 : Nat) : ℝ) / 4, (1 / 4 : ℝ))) (fun _ => 1)
          (fun _ => (0, 0)) { head := fun _ => 0, lscl := fun _ => 0, pot := fun _ => 0 }
          = some (pot, eng) :=
  have hz : ∀ j < 2, (0 ≤ ((fun n : Nat => (((2 * n + 1 : Nat) : ℝ) / 4, (1 / 4 : ℝ))) j).1
          ∧ ((fun n : Nat => (((2 * n + 1 : Nat) : ℝ) / 4, (1 / 4 : ℝ))) j).1 < 1)
        ∧ (0 ≤ ((fun n : Nat => (((2 * n + 1 : Nat) : ℝ) / 4, (1 / 4 : ℝ))) j).2
          ∧ ((fun n : Nat => (((2 * n + 1 : Nat) : ℝ) / 4, (1 / 4 : ℝ))) j).2 < 1) := by
    intro j hj
    interval_cases j <;> norm_num
  ⟨by norm_num, hz,
    (nn_direct_potential 0 1 2 (1 : ℝ) (by norm_num)
      (fun n : Nat => (((2 * n + 1 : Nat) : ℝ) / 4, (1 / 4 : ℝ))) (fun _ => 1)
      (fun _ => (0, 0)) { head := fun _ => 0, lscl := fun _ => 0, pot := fun _ => 0 } hz).imp
      (fun _ h => h.imp (fun _ h2 => h2.1))⟩

/-! ## Linearity and symmetry of `all_direct` -/

/-- C13: with positions fixed, `all_direct` is linear in the charge vector
over exact real arithmetic: for every real `α`, `β` and charge vectors `q`,
`q'`, the potentials computed from `α*q + β*q'` are
`α*pot_direct(q) + β*pot_direct(q')` component-wise; in particular scaling all
charges by `α` scales every potential by `α`, and superposed charge vectors
give superposed potentials. -/
theorem all_direct_linear (N : Nat) (z : Nat → ℝ × ℝ) (q q' : Nat → ℝ) (α β : ℝ)
    (pot0 pot1 pot2 : Nat → ℝ) (j : Nat) (hj : j < N) :
    (all_direct Real.log Real.sqrt N z (fun k => α * q k + β * q' k) pot0).1 j
        = α * (all_direct Real.log Real.sqrt N z q pot1).1 j
          + β * (all_direct Real.log Real.sqrt N z q' pot2).1 j
    ∧ (all_direct Real.log Real.sqrt N z (fun k => α * q k) pot0).1 j
        = α * (all_direct Real.log Real.sqrt N z q pot1).1 j
    ∧ (all_direct Real.log Real.sqrt N z (fun k => q k + q' k) pot0).1 j
        = (all_direct Real.log Real.sqrt N z q pot1).1 j
          + (all_direct Real.log Real.sqrt N z q' pot2).1 j := by
  have e : ∀ (r : Nat → ℝ) (p : Nat → ℝ), (all_direct Real.log Real.sqrt N z r p).1 j
      = ∑ k in (Finset.range N).erase j, r k * pairLog Real.log Real.sqrt z j k :=
    fun r p => all_direct_pot_apply Real.log Real.sqrt N z r p j hj
  refine ⟨?_, ?_, ?_⟩
  · rw [e, e, e, Finset.mul_sum, Finset.mul_sum, ← Finset.sum_add_distrib]
    apply Finset.sum_congr rfl
    intro k _
    ring
  · rw [e, e, Finset.mul_sum]
    apply Finset.sum_congr rfl
    intro k _
    ring
  · rw [e, e, e, ← Finset.sum_add_distrib]
    apply Finset.sum_congr rfl
    intro k _
    ring

/-- Witness of C13: two particles at `(0,0)` and `(1/2,0)`. -/
theorem all_direct_linear_witness :
    (0 < 2)
    ∧ (all_direct Real.log Real.sqrt 2 (fun n : Nat => ((n : ℝ) / 2, (0 : ℝ)))
        (fun k => (2 : ℝ) * (fun _ : Nat => (1 : ℝ)) k) (fun _ => 0)).1 0
      = 2 * (all_direct Real.log Real.sqrt 2 (fun n : Nat => ((n : ℝ) / 2, (0 : ℝ)))
        (fun _ => 1) (fun _ => 0)).1 0 :=
  ⟨by decide, (all_direct_linear 2 (fun n : Nat => ((n : ℝ) / 2, (0 : ℝ))) (fun _ => 1)
    (fun _ => 0) 2 0 (fun _ => 0) (fun _ => 0) (fun _ => 0) 0 (by decide)).2.1⟩

theorem image_range_of_injOn (N : Nat) (s : Nat → Nat) (hs : ∀ i < N, s i < N)
    (hinj : ∀ i < N, ∀ k < N, s i = s k → i = k) :
    (Finset.range N).image s = Finset.range N := by
  apply Finset.eq_of_subset_of_card_le
  · intro x hx
    rw [Finset.mem_image] at hx
    obtain ⟨i, hi, rfl⟩ := hx
    exact Finset.mem_range.mpr (hs i (Finset.mem_range.mp hi))
  · rw [Finset.card_image_of_injOn]
    intro a ha b hb hab
    exact hinj a (Finset.mem_range.mp (Finset.mem_coe.mp ha)) b
      (Finset.mem_range.mp (Finset.mem_coe.mp hb)) hab

/-- The potentials of `all_direct` for permuted particles, over any field. -/
theorem all_direct_pot_perm {R : Type} [Field R] (log sqrt : R → R) (N : Nat)
    (z : Nat → R × R) (q : Nat → R) (s : Nat → Nat) (hs : ∀ i < N, s i < N)
    (hinj : ∀ i < N, ∀ k < N, s i = s k → i = k) (pot0 pot1 : Nat → R) (i : Nat)
    (hi : i < N) :
    all_direct_pot log sqrt N (fun n => z (s n)) (fun n => q (s n)) pot0 i
      = all_direct_pot log sqrt N z q pot1 (s i) := by
  rw [all_direct_pot_apply log sqrt N _ _ pot0 i hi,
    all_direct_pot_apply log sqrt N z q pot1 (s i) (hs i hi)]
  have himg : ((Finset.range N).erase i).image s = (Finset.range N).erase (s i) := by
    ext x
    simp only [Finset.mem_image, Finset.mem_erase, Finset.mem_range]
    constructor
    · rintro ⟨k, ⟨hk1, hk2⟩, rfl⟩
      exact ⟨fun h => hk1 (hinj k hk2 i hi h), hs k hk2⟩
    · rintro ⟨hx1, hx2⟩
      have : x ∈ (Finset.range N).image s := by
        rw [image_range_of_injOn N s hs hinj]
        exact Finset.mem_range.mpr hx2
      rw [Finset.mem_image] at this
      obtain ⟨k, hk, rfl⟩ := this
      exact ⟨k, ⟨fun h => hx1 (by rw [h]), Finset.mem_range.mp hk⟩, rfl⟩
  rw [← himg, Finset.sum_image]
  · rfl
  · intro a ha b hb hab
    exact hinj a (Finset.mem_range.mp (Finset.mem_of_mem_erase ha)) b
      (Finset.mem_range.mp (Finset.mem_of_mem_erase hb)) hab

/-- C14: `all_direct` is invariant under reordering of the particles. Over
exact real arithmetic, for every permutation `s` of `0..N-1`, running
`all_direct` on the particles `z'[i] = z[s(i)]`, `q'[i] = q[s(i)]` gives
`pot_direct'[i] = pot_direct[s(i)]` for every `i < N`; and `all_direct` reads
neither `phi`, `psi`, `pot` nor the leaf lists: two global states with the same
positions and charges give the same `pot_direct[0..N-1]` and `eng_direct`, and
the call leaves `phi`, `psi`, `pot`, `head` and `lscl` as they were. -/
theorem all_direct_reorder (N : Nat) (z : Nat → ℝ × ℝ) (q : Nat → ℝ) (s : Nat → Nat)
    (hs : ∀ i < N, s i < N) (hinj : ∀ i < N, ∀ k < N, s i = s k → i = k)
    (pot0 pot1 : Nat → ℝ) :
    (∀ i < N,
      (all_direct Real.log Real.sqrt N (fun n => z (s n)) (fun n => q (s n)) pot0).1 i
        = (all_direct Real.log Real.sqrt N z q pot1).1 (s i))
    ∧ (∀ g g2 : Globals ℝ, g.z = g2.z → g.q = g2.q →
        (∀ i < N, (all_direct_run Real.log Real.sqrt N g).pot_direct i
          = (all_direct_run Real.log Real.sqrt N g2).pot_direct i)
        ∧ (all_direct_run Real.log Real.sqrt N g).eng_direct
          = (all_direct_run Real.log Real.sqrt N g2).eng_direct)
    ∧ (∀ g : Globals ℝ,
        (all_direct_run Real.log Real.sqrt N g).phi = g.phi
        ∧ (all_direct_run Real.log Real.sqrt N g).psi = g.psi
        ∧ (all_direct_run Real.log Real.sqrt N g).pot = g.pot
        ∧ (all_direct_run Real.log Real.sqrt N g).head = g.head
        ∧ (all_direct_run Real.log Real.sqrt N g).lscl = g.lscl) := by
  refine ⟨fun i hi => all_direct_pot_perm Real.log Real.sqrt N z q s hs hinj pot0 pot1 i hi,
    ?_, fun g => ⟨rfl, rfl, rfl, rfl, rfl⟩⟩
  intro g g2 hz hq
  have hpot : ∀ i < N, (all_direct_run Real.log Real.sqrt N g).pot_direct i
      = (all_direct_run Real.log Real.sqrt N g2).pot_direct i := by
    intro i hi
    show all_direct_pot Real.log Real.sqrt N g.z g.q g.pot_direct i
      = all_direct_pot Real.log Real.sqrt N g2.z g2.q g2.pot_direct i
    rw [all_direct_pot_apply _ _ _ _ _ _ i hi, all_direct_pot_apply _ _ _ _ _ _ i hi, hz, hq]
  refine ⟨hpot, ?_⟩
  show energy N g.q (all_direct_pot Real.log Real.sqrt N g.z g.q g.pot_direct)
    = energy N g2.q (all_direct_pot Real.log Real.sqrt N g2.z g2.q g2.pot_direct)
  rw [energy_eq_sum, energy_eq_sum]
  congr 1
  apply Finset.sum_congr rfl
  intro j hj
  have hj2 : j < N := by
    have := Finset.mem_range.mp hj
    omega
  rw [show all_direct_pot Real.log Real.sqrt N g.z g.q g.pot_direct j
    = all_direct_pot Real.log Real.sqrt N g2.z g2.q g2.pot_direct j from hpot j hj2, hq]

/-- Witness of C14: two particles and the permutation that swaps them. -/
theorem all_direct_reorder_witness :
    (∀ i < 2, (fun n : Nat => 1 - n) i < 2)
    ∧ (∀ i < 2, ∀ k < 2, (fun n : Nat => 1 - n) i = (fun n : Nat => 1 - n) k → i = k)
    ∧ (∀ i < 2,
      (all_direct Real.log Real.sqrt 2
          (fun n => (fun m : Nat => ((m : ℝ) / 2, (0 : ℝ))) ((fun n : Nat => 1 - n) n))
          (fun n => (fun m : Nat => ((m : ℝ) + 1)) ((fun n : Nat => 1 - n) n))
          (fun _ => 0)).1 i
        = (all_direct Real.log Real.sqrt 2 (fun m : Nat => ((m : ℝ) / 2, (0 : ℝ)))
            (fun m : Nat => ((m : ℝ) + 1)) (fun _ => 0)).1 ((fun n : Nat => 1 - n) i)) :=
  have hs : ∀ i < 2, (fun n : Nat => 1 - n) i < 2 := by
    intro i _
    simp only
    omega
  have hinj : ∀ i < 2, ∀ k < 2,
      (fun n : Nat => 1 - n) i = (fun n : Nat => 1 - n) k → i = k := by
    intro i hi k hk h
    simp only at h
    omega
  ⟨hs, hinj, (all_direct_reorder 2 (fun m : Nat => ((m : ℝ) / 2, (0 : ℝ)))
    (fun m : Nat => ((m : ℝ) + 1)) (fun n : Nat => 1 - n) hs hinj (fun _ => 0)
    (fun _ => 0)).1⟩

/-! ## The size of the interaction list -/

/-- C15: for every level `l ≥ 2` and every cell `v` in `[0,2^l)^2`, the
number of interactive cells for which the multipole-to-local body of
`downward` executes is at most 27. -/
theorem m2l_visits_length_le (l : Nat) (hl : 2 ≤ l) (v : Int × Int)
    (hv : 0 ≤ v.1 ∧ v.1 < 2 ^ l ∧ 0 ≤ v.2 ∧ v.2 < 2 ^ l) :
    (m2l_visits (2 ^ l) v).length ≤ 27 := by
  rw [← List.toFinset_card_of_nodup (nodup_m2l_visits _ _)]
  have hsub : (m2l_visits (2 ^ l) v).toFinset
      ⊆ (Finset.Icc (2 * (v.1 / 2 - 1)) (2 * (v.1 / 2 + 1) + 1)
          ×ˢ Finset.Icc (2 * (v.2 / 2 - 1)) (2 * (v.2 / 2 + 1) + 1))
        \ (Finset.Icc (v.1 - 1) (v.1 + 1) ×ˢ Finset.Icc (v.2 - 1) (v.2 + 1)) := by
    intro u hu
    rw [List.mem_toFinset, mem_m2l_visits _ _ _ ⟨hv.1, hv.2.2.1⟩] at hu
    obtain ⟨h1, h2, h3⟩ := hu
    simp only [Finset.mem_sdiff, Finset.mem_product, Finset.mem_Icc]
    constructor
    · omega
    · omega
  have hnear : (Finset.Icc (v.1 - 1) (v.1 + 1) ×ˢ Finset.Icc (v.2 - 1) (v.2 + 1))
      ⊆ (Finset.Icc (2 * (v.1 / 2 - 1)) (2 * (v.1 / 2 + 1) + 1)
          ×ˢ Finset.Icc (2 * (v.2 / 2 - 1)) (2 * (v.2 / 2 + 1) + 1)) := by
    intro u hu
    simp only [Finset.mem_product, Finset.mem_Icc] at hu ⊢
    omega
  calc (m2l_visits (2 ^ l) v).toFinset.card
      ≤ ((Finset.Icc (2 * (v.1 / 2 - 1)) (2 * (v.1 / 2 + 1) + 1)
          ×ˢ Finset.Icc (2 * (v.2 / 2 - 1)) (2 * (v.2 / 2 + 1) + 1))
        \ (Finset.Icc (v.1 - 1) (v.1 + 1) ×ˢ Finset.Icc (v.2 - 1) (v.2 + 1))).card :=
        Finset.card_le_card hsub
    _ = 27 := by
        rw [Finset.card_sdiff hnear, Finset.card_product, Finset.card_product,
          Int.card_Icc, Int.card_Icc, Int.card_Icc, Int.card_Icc]
        have e1 : (2 * (v.1 / 2 + 1) + 1 + 1 - 2 * (v.1 / 2 - 1)).toNat = 6 := by omega
        have e2 : (2 * (v.2 / 2 + 1) + 1 + 1 - 2 * (v.2 / 2 - 1)).toNat = 6 := by omega
        have e3 : (v.1 + 1 + 1 - (v.1 - 1)).toNat = 3 := by omega
        have e4 : (v.2 + 1 + 1 - (v.2 - 1)).toNat = 3 := by omega
        rw [e1, e2, e3, e4]

/-- Witness of C15: the cell `(0,0)` at level 2. -/
theorem m2l_visits_length_le_witness :
    (2 ≤ 2) ∧ ((0 : Int) ≤ 0 ∧ (0 : Int) < 2 ^ 2 ∧ (0 : Int) ≤ 0 ∧ (0 : Int) < 2 ^ 2)
    ∧ (m2l_visits (2 ^ 2) ((0, 0) : Int × Int)).length ≤ 27 :=
  ⟨le_refl 2, by decide, m2l_visits_length_le 2 (le_refl 2) (0, 0) (by decide)⟩

/-! ## Near field and interaction lists cover every pair once -/

theorem ancestor_self (L : Nat) (u : Int × Int) : ancestor L L u = u := by
  unfold ancestor
  simp

theorem int_ediv_ediv (a b c : Int) (hb : 0 < b) (hc : 0 < c) : a / b / c = a / (b * c) := by
  apply eq_of_forall_le_iff
  intro z
  rw [Int.le_ediv_iff_mul_le hc, Int.le_ediv_iff_mul_le hb,
    Int.le_ediv_iff_mul_le (Int.mul_pos hb hc), mul_assoc, mul_comm c b]

theorem ancestor_half (L l : Nat) (hl : l + 1 ≤ L) (u : Int × Int) :
    ((ancestor L (l + 1) u).1 / 2, (ancestor L (l + 1) u).2 / 2) = ancestor L l u := by
  unfold ancestor
  have e : L - l = (L - (l + 1)) + 1 := by omega
  rw [e, pow_succ]
  simp only
  rw [int_ediv_ediv _ _ _ (by positivity) (by norm_num),
    int_ediv_ediv _ _ _ (by positivity) (by norm_num)]

theorem ancestor_mem_grid (L l : Nat) (hl : l ≤ L) (u : Int × Int)
    (hu : 0 ≤ u.1 ∧ u.1 < 2 ^ L ∧ 0 ≤ u.2 ∧ u.2 < 2 ^ L) :
    0 ≤ (ancestor L l u).1 ∧ (ancestor L l u).1 < 2 ^ l
      ∧ 0 ≤ (ancestor L l u).2 ∧ (ancestor L l u).2 < 2 ^ l := by
  unfold ancestor
  have hp : (0 : Int) < 2 ^ (L - l) := by positivity
  have e : (2 : Int) ^ L = 2 ^ l * 2 ^ (L - l) := by
    rw [← pow_add]
    congr 1
    omega
  rw [e] at hu
  simp only
  refine ⟨Int.ediv_nonneg hu.1 (le_of_lt hp), ?_, Int.ediv_nonneg hu.2.2.1 (le_of_lt hp), ?_⟩
  · rw [Int.ediv_lt_iff_lt_mul hp]
    exact hu.2.1
  · rw [Int.ediv_lt_iff_lt_mul hp]
    exact hu.2.2.2

/-- A property that holds at level 1, is inherited by the parent level and
fails at level `L` fails first at exactly one level of `2..L`. -/
theorem unique_first_failure (n : Nat → Prop) (L : Nat) (h1 : n 1)
    (hmono : ∀ l, n (l + 1) → n l) (hL : ¬ n L) :
    ∃! l, 2 ≤ l ∧ l ≤ L ∧ n (l - 1) ∧ ¬ n l := by
  classical
  have hdown : ∀ l k, n (l + k) → n l := by
    intro l k
    induction k with
    | zero => exact fun h => h
    | succ k ih => exact fun h => ih (hmono _ h)
  have hex : ∃ l, ¬ n l := ⟨L, hL⟩
  have hf := Nat.find_spec hex
  have hmin : ∀ m, m < Nat.find hex → n m := fun m hm => by
    by_contra h
    exact Nat.find_min hex hm h
  have hle : Nat.find hex ≤ L := Nat.find_min' hex hL
  have h2 : 2 ≤ Nat.find hex := by
    by_contra h
    have h0 : Nat.find hex ≤ 1 := by omega
    apply hf
    obtain ⟨k, hk⟩ : ∃ k, 1 = Nat.find hex + k := ⟨1 - Nat.find hex, by omega⟩
    apply hdown _ k
    rw [← hk]
    exact h1
  refine ⟨Nat.find hex, ⟨h2, hle, hmin _ (by omega), hf⟩, ?_⟩
  rintro m ⟨hm1, _, hm3, hm4⟩
  rcases Nat.lt_trichotomy m (Nat.find hex) with h | h | h
  · exact absurd (hmin m h) hm4
  · exact h
  · exfalso
    apply hf
    obtain ⟨k, hk⟩ : ∃ k, m - 1 = Nat.find hex + k := ⟨m - 1 - Nat.find hex, by omega⟩
    apply hdown _ k
    rw [← hk]
    exact hm3

/-- The level-`l` ancestor of `u` is visited by the multipole-to-local loop of
the level-`l` ancestor of `v` exactly when the ancestors are near at level
`l - 1` and not near at level `l`. -/
theorem ancestor_visited_iff (L l : Nat) (hl1 : 1 ≤ l) (hl : l ≤ L) (u v : Int × Int)
    (hu : 0 ≤ u.1 ∧ u.1 < 2 ^ L ∧ 0 ≤ u.2 ∧ u.2 < 2 ^ L)
    (hv : 0 ≤ v.1 ∧ v.1 < 2 ^ L ∧ 0 ≤ v.2 ∧ v.2 < 2 ^ L) :
    ancestor L l u ∈ m2l_visits (2 ^ l) (ancestor L l v) ↔
      (|(ancestor L (l - 1) u).1 - (ancestor L (l - 1) v).1| ≤ 1
        ∧ |(ancestor L (l - 1) u).2 - (ancestor L (l - 1) v).2| ≤ 1)
      ∧ ¬ (|(ancestor L l u).1 - (ancestor L l v).1| ≤ 1
        ∧ |(ancestor L l u).2 - (ancestor L l v).2| ≤ 1) := by
  obtain ⟨k, rfl⟩ : ∃ k, l = k + 1 := ⟨l - 1, by omega⟩
  have gu := ancestor_mem_grid L (k + 1) hl u hu
  have gv := ancestor_mem_grid L (k + 1) hl v hv
  rw [mem_m2l_visits _ _ _ ⟨gv.1, gv.2.2.1⟩]
  simp only [Nat.add_sub_cancel]
  rw [← ancestor_half L k hl u, ← ancestor_half L k hl v]
  simp only [abs_le]
  constructor
  · rintro ⟨_, h2, h3⟩
    constructor
    · omega
    · omega
  · rintro ⟨h1, h2⟩
    refine ⟨gu, by omega, by omega⟩

/-- C18: for `L ≥ 2` and two leaf cells `u`, `v` of the grid (distinct or not), exactly
one of the following holds: (i) the leaves are near (Chebyshev distance at
most 1), then `u` lies in the clamped 3 x 3 block that `nn_direct` scans
around `v`, and at no level `2..L` is the ancestor of `u` visited by the
multipole-to-local loop of the ancestor of `v`; (ii) there is exactly one level
`l` in `2..L` at which the ancestor of `u` is visited by the
multipole-to-local loop of the ancestor of `v`. -/
theorem near_field_or_one_interaction_level (L : Nat) (hL : 2 ≤ L) (u v : Int × Int)
    (hu : 0 ≤ u.1 ∧ u.1 < 2 ^ L ∧ 0 ≤ u.2 ∧ u.2 < 2 ^ L)
    (hv : 0 ≤ v.1 ∧ v.1 < 2 ^ L ∧ 0 ≤ v.2 ∧ v.2 < 2 ^ L) :
    Xor'
      ((|u.1 - v.1| ≤ 1 ∧ |u.2 - v.2| ≤ 1)
        ∧ (u.1 ∈ intRange (if v.1 - 1 ≥ 0 then v.1 - 1 else 0)
              (if v.1 + 1 < 2 ^ L then v.1 + 1 else 2 ^ L - 1)
          ∧ u.2 ∈ intRange (if v.2 - 1 ≥ 0 then v.2 - 1 else 0)
              (if v.2 + 1 < 2 ^ L then v.2 + 1 else 2 ^ L - 1))
        ∧ ∀ l, 2 ≤ l → l ≤ L → ancestor L l u ∉ m2l_visits (2 ^ l) (ancestor L l v))
      (∃! l, (2 ≤ l ∧ l ≤ L) ∧ ancestor L l u ∈ m2l_visits (2 ^ l) (ancestor L l v)) := by
  have hmono : ∀ l,
      (|(ancestor L (l + 1) u).1 - (ancestor L (l + 1) v).1| ≤ 1
        ∧ |(ancestor L (l + 1) u).2 - (ancestor L (l + 1) v).2| ≤ 1) →
      (|(ancestor L l u).1 - (ancestor L l v).1| ≤ 1
        ∧ |(ancestor L l u).2 - (ancestor L l v).2| ≤ 1) := by
    intro l
    by_cases hl : l + 1 ≤ L
    · rw [← ancestor_half L l hl u, ← ancestor_half L l hl v]
      simp only [abs_le]
      omega
    · have e1 : L - (l + 1) = 0 := by omega
      have e2 : L - l = 0 := by omega
      unfold ancestor
      rw [e1, e2]
      exact fun h => h
  have hdown : ∀ k l, l + k = L → (|u.1 - v.1| ≤ 1 ∧ |u.2 - v.2| ≤ 1) →
      (|(ancestor L l u).1 - (ancestor L l v).1| ≤ 1
        ∧ |(ancestor L l u).2 - (ancestor L l v).2| ≤ 1) := by
    intro k
    induction k with
    | zero =>
      intro l hl h
      have e : l = L := by omega
      rw [e, ancestor_self, ancestor_self]
      exact h
    | succ k ih =>
      intro l hl h
      exact hmono l (ih (l + 1) (by omega) h)
  by_cases hn : |u.1 - v.1| ≤ 1 ∧ |u.2 - v.2| ≤ 1
  · have hno : ∀ l, 2 ≤ l → l ≤ L →
        ancestor L l u ∉ m2l_visits (2 ^ l) (ancestor L l v) := by
      intro l h2 hl hmem
      rw [ancestor_visited_iff L l (by omega) hl u v hu hv] at hmem
      exact hmem.2 (hdown (L - l) l (by omega) hn)
    left
    refine ⟨⟨hn, ?_, hno⟩, ?_⟩
    · rw [mem_intRange, mem_intRange]
      simp only [abs_le] at hn
      constructor
      · constructor
        · split_ifs <;> omega
        · split_ifs <;> omega
      · constructor
        · split_ifs <;> omega
        · split_ifs <;> omega
    · rintro ⟨l, ⟨⟨h2, hl⟩, hmem⟩, _⟩
      exact hno l h2 hl hmem
  · right
    refine ⟨?_, fun h => hn h.1⟩
    have key := unique_first_failure
      (fun l => (|(ancestor L l u).1 - (ancestor L l v).1| ≤ 1
        ∧ |(ancestor L l u).2 - (ancestor L l v).2| ≤ 1)) L
      (by
        have gu := ancestor_mem_grid L 1 (by omega) u hu
        have gv := ancestor_mem_grid L 1 (by omega) v hv
        simp only [abs_le]
        omega)
      hmono
      (by
        intro h2
        rw [ancestor_self, ancestor_self] at h2
        exact hn h2)
    obtain ⟨l, ⟨h2, hl, hp, hq⟩, huniq⟩ := key
    refine ⟨l, ⟨⟨h2, hl⟩, ?_⟩, ?_⟩
    · rw [ancestor_visited_iff L l (by omega) hl u v hu hv]
      exact ⟨hp, hq⟩
    · rintro m ⟨⟨hm2, hmL⟩, hmem⟩
      rw [ancestor_visited_iff L m (by omega) hmL u v hu hv] at hmem
      exact huniq m ⟨hm2, hmL, hmem.1, hmem.2⟩

/-- Witness of C18: depth 2 and the leaves `u = (0,0)`, `v = (3,0)`. -/
theorem near_field_or_one_interaction_level_witness :
    Xor'
      ((|((0, 0) : Int × Int).1 - ((3, 0) : Int × Int).1| ≤ 1
          ∧ |((0, 0) : Int × Int).2 - ((3, 0) : Int × Int).2| ≤ 1)
        ∧ (((0, 0) : Int × Int).1 ∈ intRange
              (if ((3, 0) : Int × Int).1 - 1 ≥ 0 then ((3, 0) : Int × Int).1 - 1 else 0)
              (if ((3, 0) : Int × Int).1 + 1 < 2 ^ 2 then ((3, 0) : Int × Int).1 + 1
                else 2 ^ 2 - 1)
          ∧ ((0, 0) : Int × Int).2 ∈ intRange
              (if ((3, 0) : Int × Int).2 - 1 ≥ 0 then ((3, 0) : Int × Int).2 - 1 else 0)
              (if ((3, 0) : Int × Int).2 + 1 < 2 ^ 2 then ((3, 0) : Int × Int).2 + 1
                else 2 ^ 2 - 1))
        ∧ ∀ l, 2 ≤ l → l ≤ 2 →
            ancestor 2 l (0, 0) ∉ m2l_visits (2 ^ l) (ancestor 2 l (3, 0)))
      (∃! l, (2 ≤ l ∧ l ≤ 2) ∧ ancestor 2 l (0, 0) ∈ m2l_visits (2 ^ l) (ancestor 2 l (3, 0))) :=
  near_field_or_one_interaction_level 2 (by decide) (0, 0) (3, 0) (by decide) (by decide)

/-! ## The downward pass for every order and every logarithm -/

theorem downward_eq_with {R : Type} [LinearOrderedField R] (log sqrt : R → R)
    (atan : DoubleQuot R → R) (P L : Nat) (BOX : R)
    (phi psi : Int × Nat → R × R) :
    downward log sqrt atan P L BOX phi psi
      = downward_with (clgn log sqrt atan) P L BOX phi psi := rfl

/-- The `g` loop of the local-to-local transformation, for every order. -/
theorem l2l_g_loop_gen (c cm : Int) (hne : cm ≠ c) (zdm : ℝ × ℝ) (a n : Nat)
    (z0 : ℝ × ℝ) (psi0 : Int × Nat → ℝ × ℝ) :
    (1 ≤ n → toC ((List.range n).foldl (l2l_g_body c cm zdm a) (z0, psi0)).1
        = toC zdm ^ (n - 1))
    ∧ (∀ x, x ≠ (c, a) →
        ((List.range n).foldl (l2l_g_body c cm zdm a) (z0, psi0)).2 x = psi0 x)
    ∧ toC (((List.range n).foldl (l2l_g_body c cm zdm a) (z0, psi0)).2 (c, a))
        = toC (psi0 (c, a)) + ∑ g in Finset.range n,
            ((comb ((a : Int) + (g : Int)) (a : Int) : Int) : ℂ) * toC (psi0 (cm, a + g))
              * toC zdm ^ g := by
  induction n with
  | zero => simp
  | succ n ih =>
    rw [List.range_succ, List.foldl_append, List.foldl_cons, List.foldl_nil]
    obtain ⟨ih1, ih2, ih3⟩ := ih
    generalize List.foldl _ (z0, psi0) (List.range n) = st at ih1 ih2 ih3 ⊢
    have hz : toC (if n = 0 then cini 1 0 else cmul st.1 zdm) = toC zdm ^ n := by
      by_cases h0 : n = 0
      · subst h0
        rw [if_pos rfl, toC_cini_real]
        simp
      · rw [if_neg h0, toC_cmul, ih1 (by omega), ← pow_succ]
        congr 1
        omega
    refine ⟨fun _ => ?_, ?_, ?_⟩
    · exact hz
    · intro x hx
      unfold l2l_g_body
      simp only
      rw [store_other _ _ _ _ hx, ih2 x hx]
    · unfold l2l_g_body
      simp only
      have hcm : (cm, a + n) ≠ (c, a) := fun h => hne (Prod.mk.inj h).1
      rw [store_same, toC_cadd, toC_cmul, hz, ih3, ih2 _ hcm, Finset.sum_range_succ]
      push_cast
      ring

/-- The `a` loop of the local-to-local transformation, for every order. -/
theorem l2l_a_loop_gen (P : Nat) (c cm : Int) (hne : cm ≠ c) (zdm : ℝ × ℝ)
    (n : Nat) (psi0 : Int × Nat → ℝ × ℝ) (x : Int × Nat) :
    toC ((List.range n).foldl (l2l_a_body P c cm zdm) psi0 x)
      = if x.1 = c ∧ x.2 < n
        then l2lSumC P (fun k => toC (psi0 (cm, k))) (toC zdm) x.2
        else toC (psi0 x) := by
  induction n generalizing x with
  | zero => simp
  | succ n ih =>
    rw [List.range_succ, List.foldl_append, List.foldl_cons, List.foldl_nil]
    have ih' := ih
    generalize List.foldl (l2l_a_body P c cm zdm) psi0 (List.range n) = psi at ih' ⊢
    unfold l2l_a_body
    obtain ⟨_, h2, h3⟩ := l2l_g_loop_gen c cm hne zdm n (P - n + 1) (cini 0 0)
      (store psi (c, n) (cini 0 0))
    by_cases hx : x = (c, n)
    · subst hx
      rw [h3, store_same, if_pos ⟨rfl, by simp⟩]
      unfold l2lSumC
      simp only [cini, toC_zero, zero_add]
      apply Finset.sum_congr rfl
      intro g _
      have hcm : (cm, n + g) ≠ (c, n) := fun h => hne (Prod.mk.inj h).1
      rw [store_other _ _ _ _ hcm]
      have := ih' (cm, n + g)
      rw [if_neg (fun h => hne h.1)] at this
      rw [this]
    · rw [h2 x hx, store_other _ _ _ _ hx, ih' x]
      by_cases h1 : x.1 = c ∧ x.2 < n
      · rw [if_pos h1, if_pos ⟨h1.1, by omega⟩]
      · rw [if_neg h1, if_neg]
        rintro ⟨h4, h5⟩
        by_cases h6 : x.2 = n
        · exact hx (Prod.ext h4 h6)
        · exact h1 ⟨h4, by omega⟩

/-- The inner `b` loop of the multipole-to-local transformation, for every order. -/
theorem m2l_w0_loop_gen (phi : Int × Nat → ℝ × ℝ) (ci : Int) (zi : ℝ × ℝ) (a : Nat)
    (n : Nat) (zib0 w00 : ℝ × ℝ) :
    toC ((List.range' 1 n).foldl (m2l_w0_body phi ci zi a) (zib0, w00)).1
        = toC zib0 * toC zi ^ n
    ∧ toC ((List.range' 1 n).foldl (m2l_w0_body phi ci zi a) (zib0, w00)).2
        = toC w00 + ∑ b in Finset.Icc 1 n,
            ((comb ((a : Int) + (b : Int) - 1) ((b : Int) - 1) : Int) : ℂ)
              * toC (phi (ci, b)) * (toC zib0 * toC zi ^ b) := by
  induction n with
  | zero => simp
  | succ n ih =>
    rw [List.range'_1_concat, List.foldl_append, List.foldl_cons, List.foldl_nil]
    obtain ⟨ih1, ih2⟩ := ih
    generalize List.foldl _ (zib0, w00) (List.range' 1 n) = st at ih1 ih2 ⊢
    unfold m2l_w0_body
    simp only
    refine ⟨?_, ?_⟩
    · rw [toC_cmul, ih1]
      ring
    · rw [toC_cadd, toC_cmul, toC_cmul, ih1, ih2,
        Finset.sum_Icc_succ_top (by omega), Nat.add_comm 1 n]
      push_cast
      ring

/-- The `a` loop of the multipole-to-local transformation, for every order. -/
theorem m2l_a_loop_gen (P : Nat) (phi : Int × Nat → ℝ × ℝ) (c ci : Int)
    (zi zim : ℝ × ℝ) (n : Nat) (zia0 : ℝ × ℝ) (psi0 : Int × Nat → ℝ × ℝ) :
    toC ((List.range' 1 n).foldl (m2l_a_body P phi c ci zi zim) (zia0, psi0)).1
        = toC zia0 * toC zim ^ n
    ∧ ∀ x : Int × Nat,
      toC (((List.range' 1 n).foldl (m2l_a_body P phi c ci zi zim) (zia0, psi0)).2 x)
        = toC (psi0 x) + (if x.1 = c ∧ 1 ≤ x.2 ∧ x.2 ≤ n
          then -(1 / (x.2 : ℂ)) * (toC (phi (ci, 0)) * (toC zia0 * toC zim ^ x.2))
            + (toC zia0 * toC zim ^ x.2) * ∑ b in Finset.Icc 1 P,
                ((comb ((x.2 : Int) + (b : Int) - 1) ((b : Int) - 1) : Int) : ℂ)
                  * toC (phi (ci, b)) * toC zi ^ b
          else 0) := by
  induction n with
  | zero =>
    simp
    intro a b h1 h2 h3
    omega
  | succ n ih =>
    rw [List.range'_1_concat, List.foldl_append, List.foldl_cons, List.foldl_nil]
    obtain ⟨ih1, ih2⟩ := ih
    generalize List.foldl _ (zia0, psi0) (List.range' 1 n) = st at ih1 ih2 ⊢
    unfold m2l_a_body
    simp only
    refine ⟨?_, ?_⟩
    · rw [toC_cmul, ih1]
      ring
    · intro x
      by_cases hx : x = (c, 1 + n)
      · subst hx
        obtain ⟨_, hw⟩ := m2l_w0_loop_gen phi ci zi (1 + n) P (cini 1 0) (cini 0 0)
        have h1 : toC ((1 : ℝ), (0 : ℝ)) = 1 := by
          apply Complex.ext <;> simp [toC]
        rw [store_same, store_same]
        simp only [toC_cadd, toC_cmul, ih1]
        rw [hw]
        simp only [cini, toC_zero, zero_add, h1, one_mul]
        rw [ih2 (c, 1 + n), if_neg (by simp), if_pos (by simp; omega)]
        push_cast
        ring
      · rw [store_other _ _ _ _ hx, store_other _ _ _ _ hx, ih2 x]
        by_cases h1 : x.1 = c ∧ 1 ≤ x.2 ∧ x.2 ≤ n
        · rw [if_pos h1, if_pos ⟨h1.1, h1.2.1, by omega⟩]
        · rw [if_neg h1, if_neg]
          rintro ⟨h2, h3, h4⟩
          by_cases h5 : x.2 = 1 + n
          · exact hx (Prod.ext h2 h5)
          · exact h1 ⟨h2, h3, by omega⟩

/-- Effect of the multipole-to-local body for one interactive cell, for every
order and every logarithm: it adds the term `m2lSumC` to `psi[c][a]`, `a ≤ P`. -/
theorem m2l_body_with_apply (clg : ℝ × ℝ → ℝ × ℝ) (P : Nat) (l : Nat) (rc : ℝ)
    (lc : Int) (phi : Int × Nat → ℝ × ℝ) (c : Int) (vc : Int × Int)
    (psi : Int × Nat → ℝ × ℝ) (vci : Int × Int) (x : Int × Nat) :
    toC (m2l_body_with clg P l rc lc phi c vc psi vci x)
      = toC (psi x) + (if x.1 = c ∧ x.2 ≤ P
          then m2lSumC P (fun b => toC (phi (serial l lc vci, b)))
            (toC (clg (m2l_zdi rc vc vci)))
            (toC (cinv (m2l_zdi rc vc vci))) x.2
          else 0) := by
  unfold m2l_body_with
  rw [(m2l_a_loop_gen P phi c _ _ _ P _ _).2 x]
  have h1 : toC (cini (1 : ℝ) 0) = 1 := by
    apply Complex.ext <;> simp [toC, cini]
  have hs : serial l lc vci = c0 l + vci.1 * lc + vci.2 := rfl
  rw [hs]
  generalize c0 l + vci.1 * lc + vci.2 = ci
  generalize clg (m2l_zdi rc vc vci) = lz
  generalize cinv (m2l_zdi rc vc vci) = zi
  unfold m2lSumC
  by_cases hx : x = (c, 0)
  · subst hx
    rw [(m2l_b_loop phi c ci zi P _ _).2.2, store_same, toC_cadd, toC_cmul,
      if_neg (by simp), if_pos ⟨rfl, Nat.zero_le _⟩, if_pos rfl, h1]
    simp only [one_mul]
    push_cast
    ring
  · rw [(m2l_b_loop phi c ci zi P _ _).2.1 x hx, store_other _ _ _ _ hx]
    by_cases h2 : x.1 = c ∧ x.2 ≤ P
    · have h3 : x.2 ≠ 0 := fun h => hx (Prod.ext h2.1 h)
      rw [if_pos ⟨h2.1, by omega, h2.2⟩, if_pos h2, if_neg h3, toC_smul, h1]
      simp only [one_mul]
      push_cast
      ring
    · rw [if_neg (fun h => h2 ⟨h.1, h.2.2⟩), if_neg h2]

theorem m2l_cell_with_eq_foldl {R : Type} [Field R] (clg : R × R → R × R) (P l : Nat)
    (BOX : R) (phi psi : Int × Nat → R × R) (c : Int) :
    m2l_cell_with clg P l BOX phi psi c
      = (m2l_visits (2 ^ l) (cellVec l c)).foldl
          (m2l_body_with clg P l (BOX / (((2 : Int) ^ l : Int) : R)) (2 ^ l) phi c
            (cellVec l c)) psi := by
  unfold m2l_cell_with m2l_visits
  rw [foldl_filter_eq, List.flatMap, List.foldl_flatten, List.foldl_map]
  simp only [List.foldl_map]

theorem m2l_cell_with_apply (clg : ℝ × ℝ → ℝ × ℝ) (P : Nat) (l : Nat) (BOX : ℝ)
    (phi psi : Int × Nat → ℝ × ℝ) (c : Int) (x : Int × Nat) :
    toC (m2l_cell_with clg P l BOX phi psi c x)
      = toC (psi x) + (if x.1 = c ∧ x.2 ≤ P
          then m2lTotalC toC clg P l BOX phi c x.2 else 0) := by
  rw [m2l_cell_with_eq_foldl, foldl_add_delta _ _
    (fun psi u x => m2l_body_with_apply clg P l _ _ phi c _ psi u x)]
  congr 1
  by_cases h : x.1 = c ∧ x.2 ≤ P
  · simp only [if_pos h]
    unfold m2lTotalC
    rw [List.sum_toFinset _ (nodup_m2l_visits _ _)]
  · simp only [if_neg h]
    simp

theorem m2l_pass_with_apply (clg : ℝ × ℝ → ℝ × ℝ) (P : Nat) (l : Nat) (BOX : ℝ)
    (phi psi : Int × Nat → ℝ × ℝ) (cs : List Int) (hnd : cs.Nodup) (x : Int × Nat) :
    toC (cs.foldl (m2l_cell_with clg P l BOX phi) psi x)
      = toC (psi x) + (if x.1 ∈ cs ∧ x.2 ≤ P
          then m2lTotalC toC clg P l BOX phi x.1 x.2 else 0) := by
  rw [foldl_add_delta _ _ (fun psi c x => m2l_cell_with_apply clg P l BOX phi psi c x),
    sum_map_ite_mem cs hnd (fun u => m2lTotalC toC clg P l BOX phi u x.2)]

theorem l2l_cell_apply_gen (P : Nat) (l : Nat) (BOX : ℝ)
    (psi : Int × Nat → ℝ × ℝ) (c : Int) (hne : l2l_cm l c ≠ c) (x : Int × Nat) :
    toC (l2l_cell P l BOX psi c x)
      = if x.1 = c ∧ x.2 ≤ P
        then l2lSumC P (fun k => toC (psi (l2l_cm l c, k))) (toC (l2l_zdm l BOX c)) x.2
        else toC (psi x) := by
  unfold l2l_cell
  rw [l2l_a_loop_gen P c _ hne _ (P + 1) psi x]
  simp only [Nat.lt_succ_iff]

theorem l2l_pass_apply_gen (P : Nat) (l : Nat) (hl : 1 ≤ l) (BOX : ℝ)
    (cs : List Int) (hcs : ∀ c ∈ cs, c ∈ intRange (c0 l) (c0 l + 4 ^ l - 1))
    (psi : Int × Nat → ℝ × ℝ) (x : Int × Nat) :
    toC (cs.foldl (l2l_cell P l BOX) psi x)
      = if x.1 ∈ cs ∧ x.2 ≤ P
        then l2lSumC P (fun k => toC (psi (l2l_cm l x.1, k))) (toC (l2l_zdm l BOX x.1)) x.2
        else toC (psi x) := by
  induction cs generalizing psi with
  | nil => simp
  | cons c cs ih =>
    have hc := hcs c (List.mem_cons_self _ _)
    have hcs2 : ∀ c2 ∈ cs, c2 ∈ intRange (c0 l) (c0 l + 4 ^ l - 1) := fun c2 h =>
      hcs c2 (List.mem_cons_of_mem _ h)
    have hpar : ∀ c2, c2 ∈ intRange (c0 l) (c0 l + 4 ^ l - 1) → l2l_cm l c2 ≠ c := fun c2 h2 =>
      level_lt_of_lt l c _ hl hc (l2l_cm_mem_level l hl c2 h2)
    rw [List.foldl_cons, ih hcs2]
    by_cases h1 : x.1 ∈ cs ∧ x.2 ≤ P
    · rw [if_pos h1, if_pos ⟨List.mem_cons_of_mem _ h1.1, h1.2⟩]
      congr 1
      funext k
      rw [l2l_cell_apply_gen P l BOX psi c (hpar c hc),
        if_neg (fun h => hpar x.1 (hcs2 _ h1.1) h.1)]
    · rw [if_neg h1, l2l_cell_apply_gen P l BOX psi c (hpar c hc)]
      by_cases h2 : x.1 = c ∧ x.2 ≤ P
      · rw [if_pos h2, if_pos ⟨by rw [h2.1]; exact List.mem_cons_self _ _, h2.2⟩, h2.1]
      · rw [if_neg h2, if_neg]
        rintro ⟨h3, h4⟩
        rcases List.mem_cons.mp h3 with h5 | h5
        · exact h2 ⟨h5, h4⟩
        · exact h1 ⟨h5, h4⟩

theorem downward_level_with_apply (clg : ℝ × ℝ → ℝ × ℝ) (P : Nat) (l : Nat)
    (hl : 1 ≤ l) (BOX : ℝ) (phi psi : Int × Nat → ℝ × ℝ) (x : Int × Nat) :
    toC (downward_level_with clg P BOX phi psi l x)
      = if (c0 l ≤ x.1 ∧ x.1 < c0 (l + 1)) ∧ x.2 ≤ P
        then l2lSumC P (fun k => toC (psi (l2l_cm l x.1, k))) (toC (l2l_zdm l BOX x.1)) x.2
          + m2lTotalC toC clg P l BOX phi x.1 x.2
        else toC (psi x) := by
  unfold downward_level_with
  rw [m2l_pass_with_apply clg P l BOX phi _ _ (nodup_intRange _ _),
    l2l_pass_apply_gen P l hl BOX _ (fun c h => h)]
  simp only [mem_level_iff]
  by_cases h : (c0 l ≤ x.1 ∧ x.1 < c0 (l + 1)) ∧ x.2 ≤ P
  · rw [if_pos h, if_pos h, if_pos h]
  · rw [if_neg h, if_neg h, if_neg h, add_zero]

theorem downward_level_with_other (clg : ℝ × ℝ → ℝ × ℝ) (P : Nat) (l : Nat)
    (hl : 1 ≤ l) (BOX : ℝ) (phi psi : Int × Nat → ℝ × ℝ) (x : Int × Nat)
    (hx : x.1 < c0 l ∨ c0 (l + 1) ≤ x.1 ∨ P < x.2) :
    toC (downward_level_with clg P BOX phi psi l x) = toC (psi x) := by
  rw [downward_level_with_apply clg P l hl, if_neg]
  rintro ⟨⟨h1, h2⟩, h3⟩
  omega

/-- The level loop of `downward` over the levels `2, ..., n+1`, for every
order and every logarithm. -/
theorem downward_with_levels (clg : ℝ × ℝ → ℝ × ℝ) (P : Nat) (BOX : ℝ)
    (phi psi0 : Int × Nat → ℝ × ℝ) (n : Nat) :
    (∀ x : Int × Nat, (x.1 < c0 2 ∨ c0 (2 + n) ≤ x.1 ∨ P < x.2) →
        toC ((List.range' 2 n).foldl (downward_level_with clg P BOX phi) psi0 x)
          = toC (psi0 x))
    ∧ (∀ l : Nat, 2 ≤ l → l < 2 + n → ∀ x : Int × Nat, c0 l ≤ x.1 → x.1 < c0 (l + 1) →
        x.2 ≤ P →
        toC ((List.range' 2 n).foldl (downward_level_with clg P BOX phi) psi0 x)
          = l2lSumC P (fun k => toC ((List.range' 2 n).foldl
                (downward_level_with clg P BOX phi) psi0 (l2l_cm l x.1, k)))
              (toC (l2l_zdm l BOX x.1)) x.2
            + m2lTotalC toC clg P l BOX phi x.1 x.2) := by
  induction n with
  | zero =>
    constructor
    · intro x _
      rfl
    · intro l h1 h2
      omega
  | succ n ih =>
    rw [List.range'_concat, List.foldl_append, List.foldl_cons, List.foldl_nil]
    obtain ⟨ih1, ih2⟩ := ih
    generalize List.foldl (downward_level_with clg P BOX phi) psi0 (List.range' 2 n)
      = psiN at ih1 ih2 ⊢
    simp only [Nat.one_mul]
    constructor
    · intro x hx
      have hmono : c0 (2 + n) ≤ c0 (2 + n + 1) := c0_le _ _ (by omega)
      have h2 : (2 : Nat) ≤ 2 + n := by omega
      have hmono2 : c0 2 ≤ c0 (2 + n) := c0_le _ _ h2
      rw [downward_level_with_other clg P (2 + n) (by omega) BOX phi psiN x
        (by rw [show 2 + (n + 1) = 2 + n + 1 by omega] at hx; omega)]
      apply ih1
      rw [show 2 + (n + 1) = 2 + n + 1 by omega] at hx
      omega
    · intro l hl1 hl2 x hx1 hx2 hx3
      have hcm := l2l_cm_bounds l (by omega) x.1 hx1 hx2
      have hG : (fun k => toC (downward_level_with clg P BOX phi psiN (2 + n)
          (l2l_cm l x.1, k))) = (fun k => toC (psiN (l2l_cm l x.1, k))) := by
        funext k
        apply downward_level_with_other clg P (2 + n) (by omega)
        left
        have : c0 l ≤ c0 (2 + n) := c0_le _ _ (by omega)
        simp only
        omega
      rw [hG]
      by_cases hl3 : l = 2 + n
      · subst hl3
        rw [downward_level_with_apply clg P (2 + n) (by omega), if_pos ⟨⟨hx1, hx2⟩, hx3⟩]
      · have hlt : l + 1 ≤ 2 + n := by omega
        have : c0 (l + 1) ≤ c0 (2 + n) := c0_le _ _ hlt
        rw [downward_level_with_other clg P (2 + n) (by omega) BOX phi psiN x
          (by left; omega)]
        exact ih2 l hl1 (by omega) x hx1 hx2 hx3

/-- The local expansions after `downward`, for every order and every
logarithm: zero at the levels 0 and 1, and at a level `2 ≤ l ≤ L` the
local-to-local translation of the mother's expansion plus the
multipole-to-local terms of the interaction list, with the weights `comb`. -/
theorem downward_with_closed (clg : ℝ × ℝ → ℝ × ℝ) (P L : Nat) (BOX : ℝ)
    (phi psi0 : Int × Nat → ℝ × ℝ) :
    (∀ l : Nat, l ≤ 1 → ∀ c : Int, c0 l ≤ c → c < c0 l + 4 ^ l → ∀ a : Nat, a ≤ P →
        downward_with clg P L BOX phi psi0 (c, a) = (0, 0))
    ∧ (∀ l : Nat, 2 ≤ l → l ≤ L → ∀ v : Int × Int,
        (0 ≤ v.1 ∧ v.1 < 2 ^ l ∧ 0 ≤ v.2 ∧ v.2 < 2 ^ l) → ∀ a : Nat, a ≤ P →
        toC (downward_with clg P L BOX phi psi0 (serial l (2 ^ l) v, a))
          = l2lSumC P
              (fun k => toC (downward_with clg P L BOX phi psi0
                (serial (l - 1) (2 ^ (l - 1)) (v.1 / 2, v.2 / 2), k)))
              (toC (l2l_zdm l BOX (serial l (2 ^ l) v))) a
            + ∑ u in (m2l_visits (2 ^ l) v).toFinset,
                m2lSumC P (fun b => toC (phi (serial l (2 ^ l) u, b)))
                  (toC (clg (m2l_zdi (BOX / (((2 : Int) ^ l : Int) : ℝ)) v u)))
                  (toC (cinv (m2l_zdi (BOX / (((2 : Int) ^ l : Int) : ℝ)) v u))) a) := by
  have hc01 : c0 0 = 0 := by decide
  have hc1 : c0 1 = 1 := by decide
  have hc2 : c0 2 = 5 := by decide
  obtain ⟨hlev1, hlev2⟩ := downward_with_levels clg P BOX phi
    ((intRange 0 (c0 1 + 4 ^ 1 - 1)).foldl (clearCell P) psi0) (L - 1)
  constructor
  · intro l hl c h1 h2 a ha
    apply toC_injective
    unfold downward_with
    rw [hlev1 (c, a) (by
      left
      simp only
      have h4 : (4 : Int) ^ l ≤ 4 := by
        interval_cases l <;> norm_num
      have : c0 l ≤ 1 := by
        interval_cases l <;> omega
      omega), foldl_clearCell_apply, if_pos]
    refine ⟨?_, ha⟩
    rw [mem_intRange]
    simp only
    have h4 : (4 : Int) ^ l ≤ 4 := by
      interval_cases l <;> norm_num
    have h5 : 0 ≤ c0 l ∧ c0 l ≤ 1 := by
      interval_cases l <;> omega
    have h6 : c0 l + 4 ^ l ≤ 5 := by
      interval_cases l <;> norm_num [hc01, hc1]
    norm_num [hc1]
    omega
  · intro l hl1 hl2 v hv a ha
    have hmem := (mem_level_iff l _).mp (serial_mem_level l v hv)
    unfold downward_with
    rw [hlev2 l hl1 (by omega) (serial l (2 ^ l) v, a) hmem.1 hmem.2 ha]
    simp only
    rw [l2l_cm_serial l (by omega) v hv]
    unfold m2lTotalC
    rw [cellVec_serial l v ⟨hv.1, hv.2.2.1, hv.2.2.2⟩]

/-! ## The value of the local expansion under the local-to-local translation -/

/-- The translated coefficients `l2lSum` represent the same polynomial about
the shifted centre: `Σ_a l2lSum[a] w^a = Σ_k psi_m[k] (w+t)^k`. -/
theorem l2lSum_value (P : Nat) (m : Nat → ℂ) (t w : ℂ) :
    ∑ a in Finset.range (P + 1), l2lSum P m t a * w ^ a
      = ∑ k in Finset.range (P + 1), m k * (w + t) ^ k := by
  have h1 : ∀ a ∈ Finset.range (P + 1), l2lSum P m t a * w ^ a
      = ∑ k in Finset.Ico a (P + 1),
          ((Nat.choose k a : Nat) : ℂ) * m k * t ^ (k - a) * w ^ a := by
    intro a ha
    rw [Finset.mem_range] at ha
    unfold l2lSum
    rw [Finset.sum_Ico_eq_sum_range, Finset.sum_mul, show P + 1 - a = P - a + 1 by omega]
    apply Finset.sum_congr rfl
    intro g _
    rw [Nat.add_sub_cancel_left]
  have h2 : ∀ k ∈ Finset.range (P + 1), m k * (w + t) ^ k
      = ∑ a in Finset.range (k + 1),
          ((Nat.choose k a : Nat) : ℂ) * m k * t ^ (k - a) * w ^ a := by
    intro k _
    rw [add_pow, Finset.mul_sum]
    apply Finset.sum_congr rfl
    intro a _
    ring
  rw [Finset.sum_congr rfl h1, Finset.sum_congr rfl h2]
  apply Finset.sum_comm'
  intro a k
  simp only [Finset.mem_range, Finset.mem_Ico]
  omega

/-- For the coefficient vector with the single entry `psi_m[P] = 1` the code's
translated coefficients are `comb(P,a) * t^(P-a)`. -/
theorem l2lSumC_single (P : Nat) (t : ℂ) (a : Nat) (ha : a ≤ P) :
    l2lSumC P (fun k => if k = P then (1 : ℂ) else 0) t a
      = ((comb (P : Int) (a : Int) : Int) : ℂ) * t ^ (P - a) := by
  unfold l2lSumC
  rw [Finset.sum_eq_single (P - a)]
  · have e : a + (P - a) = P := by omega
    simp only [e, if_true, mul_one]
    congr 3
    omega
  · intro g hg1 hg
    rw [Finset.mem_range] at hg1
    have e : a + g ≠ P := by omega
    simp only [e, if_false]
    ring
  · intro h
    exfalso
    apply h
    rw [Finset.mem_range]
    omega

set_option maxRecDepth 100000 in
theorem comb_thirteen : ∀ k ∈ List.range 14, comb 13 (k : Int)
    = [1, 4, 24, 88, 221, 399, 532, 532, 399, 221, 88, 24, 4, 1].getD k 0 := by
  decide

theorem comb_thirteen_sum : ∑ a in Finset.range (13 + 1), comb 13 (a : Int) = 2538 := by
  have h := comb_thirteen
  simp only [List.mem_range] at h
  simp only [Finset.sum_range_succ, Finset.sum_range_zero]
  rw [h 0 (by norm_num), h 1 (by norm_num), h 2 (by norm_num), h 3 (by norm_num),
    h 4 (by norm_num), h 5 (by norm_num), h 6 (by norm_num), h 7 (by norm_num),
    h 8 (by norm_num), h 9 (by norm_num), h 10 (by norm_num), h 11 (by norm_num),
    h 12 (by norm_num), h 13 (by norm_num)]
  rfl

/-- C20 (orders `P ≤ 12`): the coefficients `psi_c` that the local-to-local
loop of `downward` writes for the cell `c` (vector index `v`, level `l ≥ 1`)
from the coefficients `psi_m` of its mother `m` represent the same polynomial:
`Σ_{a=0..P} psi_c[a] w^a = Σ_{a=0..P} psi_m[a] (w+t)^a` for every complex `w`,
with `t = centre(c) - centre(m)`, over exact complex arithmetic. -/
theorem l2l_preserves_value (P : Nat) (hP : P ≤ 12) (l : Nat) (hl : 1 ≤ l) (BOX : ℝ)
    (v : Int × Int) (hv : 0 ≤ v.1 ∧ v.1 < 2 ^ l ∧ 0 ≤ v.2 ∧ v.2 < 2 ^ l)
    (psi : Int × Nat → ℝ × ℝ) (w : ℂ) :
    ∑ a in Finset.range (P + 1),
        toC (l2l_cell P l BOX psi (serial l (2 ^ l) v) (serial l (2 ^ l) v, a)) * w ^ a
      = ∑ a in Finset.range (P + 1),
          toC (psi (serial (l - 1) (2 ^ (l - 1)) (v.1 / 2, v.2 / 2), a))
            * (w + (toC (cellCentre (BOX / (((2 : Int) ^ l : Int) : ℝ)) v)
                - toC (cellCentre (BOX / (((2 : Int) ^ (l - 1) : Int) : ℝ))
                    (v.1 / 2, v.2 / 2)))) ^ a := by
  have hmem := serial_mem_level l v hv
  have hne : l2l_cm l (serial l (2 ^ l) v) ≠ serial l (2 ^ l) v :=
    level_lt_of_lt l _ _ hl hmem (l2l_cm_mem_level l hl _ hmem)
  have h1 : ∀ a ∈ Finset.range (P + 1),
      toC (l2l_cell P l BOX psi (serial l (2 ^ l) v) (serial l (2 ^ l) v, a)) * w ^ a
        = l2lSum P (fun k => toC (psi (serial (l - 1) (2 ^ (l - 1)) (v.1 / 2, v.2 / 2), k)))
            (toC (cellCentre (BOX / (((2 : Int) ^ l : Int) : ℝ)) v)
              - toC (cellCentre (BOX / (((2 : Int) ^ (l - 1) : Int) : ℝ))
                  (v.1 / 2, v.2 / 2))) a * w ^ a := by
    intro a ha
    rw [Finset.mem_range] at ha
    rw [l2l_cell_apply P hP l BOX psi _ hne, if_pos ⟨rfl, by simp only; omega⟩,
      l2l_cm_serial l hl v hv, l2l_zdm_serial l hl BOX v hv]
  rw [Finset.sum_congr rfl h1, l2lSum_value]

/-- Witness of C20 (orders `P ≤ 12`): order 12, the level-2 cell `(1,1)` of the
unit box, mother coefficients all `1`, and `w = 1`. -/
theorem l2l_preserves_value_witness :
    ∑ a in Finset.range (12 + 1),
        toC (l2l_cell 12 2 (1 : ℝ) (fun _ => (1, 0)) (serial 2 (2 ^ 2) (1, 1))
          (serial 2 (2 ^ 2) (1, 1), a)) * (1 : ℂ) ^ a
      = ∑ a in Finset.range (12 + 1),
          toC ((fun _ => ((1 : ℝ), (0 : ℝ)))
              (serial (2 - 1) (2 ^ (2 - 1)) (((1, 1) : Int × Int).1 / 2,
                ((1, 1) : Int × Int).2 / 2), a))
            * ((1 : ℂ) + (toC (cellCentre ((1 : ℝ) / (((2 : Int) ^ 2 : Int) : ℝ)) (1, 1))
                - toC (cellCentre ((1 : ℝ) / (((2 : Int) ^ (2 - 1) : Int) : ℝ))
                    (((1, 1) : Int × Int).1 / 2, ((1, 1) : Int × Int).2 / 2)))) ^ a :=
  l2l_preserves_value 12 (by decide) 2 (by decide) 1 (1, 1) (by decide) (fun _ => (1, 0)) 1

/-- C20 (counterexample): at the order `P = 13` the local-to-local loop does
not preserve the value:
for `BOX = 8`, the level-2 cell 5 (vector index `(0,0)`, mother cell 1), the
mother coefficients `psi_m[13] = 1`, `psi_m[a] = 0` otherwise, and `w = t`, the
left-hand side is `2538 t^13` (the 32-bit `comb(13,a)` sum to 2538) and the
right-hand side is `2^13 t^13`. -/
theorem l2l_value_fails_at_order_13 :
    ∑ a in Finset.range (13 + 1),
        toC (l2l_cell 13 2 (8 : ℝ)
          (fun x => if x = ((1 : Int), 13) then ((1 : ℝ), (0 : ℝ)) else (0, 0)) 5 (5, a))
          * toC (l2l_zdm 2 (8 : ℝ) 5) ^ a
      ≠ ∑ a in Finset.range (13 + 1),
          toC ((fun x => if x = ((1 : Int), 13) then ((1 : ℝ), (0 : ℝ)) else (0, 0))
              (l2l_cm 2 5, a))
            * (toC (l2l_zdm 2 (8 : ℝ) 5) + toC (l2l_zdm 2 (8 : ℝ) 5)) ^ a := by
  have hcm : l2l_cm 2 5 = 1 := by decide
  have hne : l2l_cm 2 5 ≠ 5 := by decide
  have hvec : cellVec 2 5 = (0, 0) := by decide
  have ht : toC (l2l_zdm 2 (8 : ℝ) 5) ≠ 0 := by
    intro h
    have h2 := congrArg Complex.re h
    unfold l2l_zdm toC at h2
    simp only [hvec] at h2
    norm_num at h2
  have hm : (fun k => toC ((fun x : Int × Nat =>
      if x = ((1 : Int), 13) then ((1 : ℝ), (0 : ℝ)) else (0, 0)) (l2l_cm 2 5, k)))
      = (fun k => if k = 13 then (1 : ℂ) else 0) := by
    funext k
    rw [hcm]
    by_cases hk : k = 13
    · subst hk
      simp only [if_true]
      apply Complex.ext <;> simp [toC]
    · have e : ((1 : Int), k) ≠ (1, 13) := fun h => hk (Prod.mk.inj h).2
      simp only [e, hk, if_false]
      exact toC_zero
  have h1 : ∀ a ∈ Finset.range (13 + 1),
      toC (l2l_cell 13 2 (8 : ℝ)
          (fun x => if x = ((1 : Int), 13) then ((1 : ℝ), (0 : ℝ)) else (0, 0)) 5 (5, a))
          * toC (l2l_zdm 2 (8 : ℝ) 5) ^ a
        = ((comb 13 (a : Int) : Int) : ℂ) * toC (l2l_zdm 2 (8 : ℝ) 5) ^ 13 := by
    intro a ha
    rw [Finset.mem_range] at ha
    rw [l2l_cell_apply_gen 13 2 8 _ 5 hne, if_pos ⟨rfl, by simp only; omega⟩, hm,
      l2lSumC_single 13 _ a (by omega), mul_assoc, ← pow_add]
    have e : 13 - a + a = 13 := by omega
    rw [e]
    rfl
  have h2 : ∀ a ∈ Finset.range (13 + 1),
      toC ((fun x => if x = ((1 : Int), 13) then ((1 : ℝ), (0 : ℝ)) else (0, 0))
              (l2l_cm 2 5, a))
            * (toC (l2l_zdm 2 (8 : ℝ) 5) + toC (l2l_zdm 2 (8 : ℝ) 5)) ^ a
        = if a = 13 then (toC (l2l_zdm 2 (8 : ℝ) 5) + toC (l2l_zdm 2 (8 : ℝ) 5)) ^ 13
          else 0 := by
    intro a _
    rw [congrFun hm a]
    by_cases ha : a = 13
    · rw [if_pos ha, if_pos ha, one_mul, ha]
    · rw [if_neg ha, if_neg ha, zero_mul]
  rw [Finset.sum_congr rfl h1, Finset.sum_congr rfl h2, ← Finset.sum_mul,
    Finset.sum_ite_eq' (Finset.range (13 + 1)) 13, if_pos (by simp)]
  have hs : ∑ a in Finset.range (13 + 1), ((comb 13 (a : Int) : Int) : ℂ) = 2538 := by
    have := comb_thirteen_sum
    exact_mod_cast this
  rw [hs]
  intro h
  have h3 : (2538 : ℂ) * toC (l2l_zdm 2 (8 : ℝ) 5) ^ 13
      = 8192 * toC (l2l_zdm 2 (8 : ℝ) 5) ^ 13 := by
    rw [h]
    ring
  have h4 := mul_right_cancel₀ (pow_ne_zero 13 ht) h3
  norm_num at h4

/-! ## `upward` -/

theorem upward_daughter_eq {R : Type} [Field R] (P l : Nat) (rc : R) (lc : Int) (c : Int)
    (vc : Int × Int) (phi : Int × Nat → R × R) (vcd : Int × Int) :
    upward_daughter P l rc lc c vc phi vcd
      = ((List.range' 1 P).foldl
          (upward_a_body c (c0 (l + 1) + vcd.1 * (2 * lc) + vcd.2) (upward_zdm rc vc vcd))
          (smul (store phi (c, 0) (cadd 1 (phi (c, 0)) 1
              (phi (c0 (l + 1) + vcd.1 * (2 * lc) + vcd.2, 0)))
            (c0 (l + 1) + vcd.1 * (2 * lc) + vcd.2, 0)) 1,
            store phi (c, 0) (cadd 1 (phi (c, 0)) 1
              (phi (c0 (l + 1) + vcd.1 * (2 * lc) + vcd.2, 0))))).2 := rfl

/-- The `g` loop of the multipole-to-multipole transformation. -/
theorem upward_g_loop (c cd : Int) (hne : cd ≠ c) (zdm : ℝ × ℝ) (a n : Nat)
    (z0 : ℝ × ℝ) (phi0 : Int × Nat → ℝ × ℝ) :
    (1 ≤ n → toC ((List.range n).foldl (upward_g_body c cd zdm a) (z0, phi0)).1
        = toC zdm ^ (n - 1))
    ∧ (∀ x, x ≠ (c, a) →
        ((List.range n).foldl (upward_g_body c cd zdm a) (z0, phi0)).2 x = phi0 x)
    ∧ toC (((List.range n).foldl (upward_g_body c cd zdm a) (z0, phi0)).2 (c, a))
        = toC (phi0 (c, a)) + ∑ g in Finset.range n,
            ((comb ((a : Int) - 1) ((a : Int) - (g : Int) - 1) : Int) : ℂ)
              * toC (phi0 (cd, a - g)) * toC zdm ^ g := by
  induction n with
  | zero => simp
  | succ n ih =>
    rw [List.range_succ, List.foldl_append, List.foldl_cons, List.foldl_nil]
    obtain ⟨ih1, ih2, ih3⟩ := ih
    generalize List.foldl _ (z0, phi0) (List.range n) = st at ih1 ih2 ih3 ⊢
    have hz : toC (if n = 0 then cini 1 0 else cmul st.1 zdm) = toC zdm ^ n := by
      by_cases h0 : n = 0
      · subst h0
        rw [if_pos rfl, toC_cini_real]
        simp
      · rw [if_neg h0, toC_cmul, ih1 (by omega), ← pow_succ]
        congr 1
        omega
    refine ⟨fun _ => ?_, ?_, ?_⟩
    · exact hz
    · intro x hx
      unfold upward_g_body
      simp only
      rw [store_other _ _ _ _ hx, ih2 x hx]
    · unfold upward_g_body
      simp only
      have hcd : (cd, a - n) ≠ (c, a) := fun h => hne (Prod.mk.inj h).1
      rw [store_same, toC_cadd, toC_cmul, hz, ih3, ih2 _ hcd, Finset.sum_range_succ]
      push_cast
      ring

/-- The `a` loop of the multipole-to-multipole transformation. -/
theorem upward_a_loop (c cd : Int) (hne : cd ≠ c) (zdm : ℝ × ℝ) (n : Nat)
    (pz0 : ℝ × ℝ) (phi0 : Int × Nat → ℝ × ℝ) :
    toC ((List.range' 1 n).foldl (upward_a_body c cd zdm) (pz0, phi0)).1
        = toC pz0 * toC zdm ^ n
    ∧ ∀ x : Int × Nat,
      toC (((List.range' 1 n).foldl (upward_a_body c cd zdm) (pz0, phi0)).2 x)
        = toC (phi0 x) + (if x.1 = c ∧ 1 ≤ x.2 ∧ x.2 ≤ n
          then -(1 / (x.2 : ℂ)) * (toC pz0 * toC zdm ^ x.2)
            + ∑ g in Finset.range x.2,
                ((comb ((x.2 : Int) - 1) ((x.2 : Int) - (g : Int) - 1) : Int) : ℂ)
                  * toC (phi0 (cd, x.2 - g)) * toC zdm ^ g
          else 0) := by
  induction n with
  | zero =>
    simp
    intro a b h1 h2 h3
    omega
  | succ n ih =>
    rw [List.range'_1_concat, List.foldl_append, List.foldl_cons, List.foldl_nil]
    obtain ⟨ih1, ih2⟩ := ih
    generalize List.foldl _ (pz0, phi0) (List.range' 1 n) = st at ih1 ih2 ⊢
    unfold upward_a_body
    simp only
    refine ⟨?_, ?_⟩
    · rw [toC_cmul, ih1]
      ring
    · intro x
      obtain ⟨_, h2, h3⟩ := upward_g_loop c cd hne zdm (1 + n) (1 + n) (cini 0 0)
        (store st.2 (c, 1 + n) (cadd 1 (st.2 (c, 1 + n)) (-1 / ((1 + n : Nat) : ℝ))
          (cmul st.1 zdm)))
      by_cases hx : x = (c, 1 + n)
      · subst hx
        rw [h3, store_same, toC_cadd, toC_cmul, ih1, ih2 (c, 1 + n), if_neg (by simp),
          if_pos (by simp; omega)]
        have hsum : ∀ g ∈ Finset.range (1 + n),
            ((comb (((1 + n : Nat) : Int) - 1) (((1 + n : Nat) : Int) - (g : Int) - 1) : Int) : ℂ)
              * toC (store st.2 (c, 1 + n) (cadd 1 (st.2 (c, 1 + n)) (-1 / ((1 + n : Nat) : ℝ))
                  (cmul st.1 zdm)) (cd, 1 + n - g)) * toC zdm ^ g
            = ((comb (((1 + n : Nat) : Int) - 1) (((1 + n : Nat) : Int) - (g : Int) - 1) : Int) : ℂ)
              * toC (phi0 (cd, 1 + n - g)) * toC zdm ^ g := by
          intro g _
          have hcd : (cd, 1 + n - g) ≠ (c, 1 + n) := fun h => hne (Prod.mk.inj h).1
          rw [store_other _ _ _ _ hcd, ih2 (cd, 1 + n - g), if_neg (fun h => hne h.1), add_zero]
        rw [Finset.sum_congr rfl hsum]
        push_cast
        ring
      · rw [h2 x hx, store_other _ _ _ _ hx, ih2 x]
        by_cases h1 : x.1 = c ∧ 1 ≤ x.2 ∧ x.2 ≤ n
        · rw [if_pos h1, if_pos ⟨h1.1, h1.2.1, by omega⟩]
        · rw [if_neg h1, if_neg]
          rintro ⟨h4, h5, h6⟩
          by_cases h7 : x.2 = 1 + n
          · exact hx (Prod.ext h4 h7)
          · exact h1 ⟨h4, h5, by omega⟩

/-- Effect of the daughter body of `upward`: it adds the translated multipoles
`m2mSumC` of the daughter to `phi[c][a]`, `a ≤ P`. -/
theorem upward_daughter_apply (P l : Nat) (rc : ℝ) (lc : Int) (c : Int) (vc : Int × Int)
    (phi : Int × Nat → ℝ × ℝ) (vcd : Int × Int)
    (hne : c0 (l + 1) + vcd.1 * (2 * lc) + vcd.2 ≠ c) (x : Int × Nat) :
    toC (upward_daughter P l rc lc c vc phi vcd x)
      = toC (phi x) + (if x.1 = c ∧ x.2 ≤ P
          then m2mSumC (fun b => toC (phi (c0 (l + 1) + vcd.1 * (2 * lc) + vcd.2, b)))
            (toC (upward_zdm rc vc vcd)) x.2
          else 0) := by
  rw [upward_daughter_eq, (upward_a_loop c _ hne _ P _ _).2 x]
  generalize c0 (l + 1) + vcd.1 * (2 * lc) + vcd.2 = cd at hne ⊢
  generalize toC (upward_zdm rc vc vcd) = t
  have hcd0 : (cd, 0) ≠ (c, 0) := fun h => hne (Prod.mk.inj h).1
  have hsum : ∀ a : Nat, ∀ g ∈ Finset.range a,
      ((comb ((a : Int) - 1) ((a : Int) - (g : Int) - 1) : Int) : ℂ)
        * toC (store phi (c, 0) (cadd 1 (phi (c, 0)) 1 (phi (cd, 0))) (cd, a - g)) * t ^ g
      = ((comb ((a : Int) - 1) ((a : Int) - (g : Int) - 1) : Int) : ℂ)
        * toC (phi (cd, a - g)) * t ^ g := by
    intro a g _
    have hcd : (cd, a - g) ≠ (c, 0) := fun h => hne (Prod.mk.inj h).1
    rw [store_other _ _ _ _ hcd]
  unfold m2mSumC
  rw [store_other _ _ _ _ hcd0, toC_smul]
  by_cases hx : x = (c, 0)
  · subst hx
    rw [store_same, toC_cadd, if_neg (by simp), if_pos ⟨rfl, Nat.zero_le _⟩, if_pos rfl]
    push_cast
    ring
  · rw [store_other _ _ _ _ hx]
    by_cases h2 : x.1 = c ∧ x.2 ≤ P
    · have h3 : x.2 ≠ 0 := fun h => hx (Prod.ext h2.1 h)
      rw [if_pos ⟨h2.1, by omega, h2.2⟩, if_pos h2, if_neg h3, Finset.sum_congr rfl (hsum x.2)]
      push_cast
      ring
    · rw [if_neg (fun h => h2 ⟨h.1, h.2.2⟩), if_neg h2]

theorem intRange_two (a : Int) : intRange a (a + 1) = [a, a + 1] := by
  unfold intRange
  have h : (a + 1 + 1 - a).toNat = 2 := by omega
  rw [h]
  simp [List.range_succ]

theorem upward_daughters_apply (P l : Nat) (rc : ℝ) (c : Int) (vc : Int × Int)
    (ds : List (Int × Int)) (hds : ∀ d ∈ ds, serial (l + 1) (2 ^ (l + 1)) d ≠ c)
    (phi : Int × Nat → ℝ × ℝ) (x : Int × Nat) :
    toC (ds.foldl (upward_daughter P l rc (2 ^ l) c vc) phi x)
      = toC (phi x) + (if x.1 = c ∧ x.2 ≤ P
          then (ds.map (fun d =>
            m2mSumC (fun b => toC (phi (serial (l + 1) (2 ^ (l + 1)) d, b)))
              (toC (upward_zdm rc vc d)) x.2)).sum
          else 0) := by
  have hser : ∀ d : Int × Int,
      c0 (l + 1) + d.1 * (2 * 2 ^ l) + d.2 = serial (l + 1) (2 ^ (l + 1)) d := by
    intro d
    unfold serial
    rw [pow_succ]
    ring
  induction ds generalizing phi with
  | nil => simp
  | cons d ds ih =>
    have hd := hds d (List.mem_cons_self _ _)
    have hds2 : ∀ d2 ∈ ds, serial (l + 1) (2 ^ (l + 1)) d2 ≠ c := fun d2 h =>
      hds d2 (List.mem_cons_of_mem _ h)
    have hstep := fun y => upward_daughter_apply P l rc (2 ^ l) c vc phi d
      (by rw [hser]; exact hd) y
    rw [List.foldl_cons, ih hds2, hstep x, hser]
    have hkeep : ∀ d2 ∈ ds, (fun b => toC (upward_daughter P l rc (2 ^ l) c vc phi d
          (serial (l + 1) (2 ^ (l + 1)) d2, b)))
        = (fun b => toC (phi (serial (l + 1) (2 ^ (l + 1)) d2, b))) := by
      intro d2 h2
      funext b
      rw [hstep, if_neg (fun h => hds2 d2 h2 h.1), add_zero]
    have hmap : (ds.map (fun d2 =>
          m2mSumC (fun b => toC (upward_daughter P l rc (2 ^ l) c vc phi d
              (serial (l + 1) (2 ^ (l + 1)) d2, b)))
            (toC (upward_zdm rc vc d2)) x.2))
        = (ds.map (fun d2 =>
          m2mSumC (fun b => toC (phi (serial (l + 1) (2 ^ (l + 1)) d2, b)))
            (toC (upward_zdm rc vc d2)) x.2)) := by
      apply List.map_congr_left
      intro d2 h2
      rw [hkeep d2 h2]
    rw [hmap]
    by_cases h : x.1 = c ∧ x.2 ≤ P
    · simp only [if_pos h, List.map_cons, List.sum_cons]
      rw [add_assoc]
    · simp only [if_neg h, add_zero]

theorem daughter_serial_ne (l : Nat) (c : Int) (hc : c ∈ intRange (c0 l) (c0 l + 4 ^ l - 1))
    (d : Int × Int) (hd : 0 ≤ d.1 ∧ 0 ≤ d.2) : serial (l + 1) (2 ^ (l + 1)) d ≠ c := by
  rw [mem_level_iff] at hc
  unfold serial
  have h : (0 : Int) ≤ d.1 * 2 ^ (l + 1) := mul_nonneg hd.1 (by positivity)
  omega

theorem mem_daughters (v d : Int × Int) :
    d ∈ daughters v ↔ (d.1 = 2 * v.1 ∨ d.1 = 2 * v.1 + 1) ∧ (d.2 = 2 * v.2 ∨ d.2 = 2 * v.2 + 1) := by
  unfold daughters
  simp only [List.mem_cons, List.mem_singleton, List.not_mem_nil, or_false, Prod.ext_iff]
  constructor
  · rintro (h | h | h | h) <;> simp [h.1, h.2]
  · rintro ⟨h1 | h1, h2 | h2⟩ <;> simp [h1, h2]

theorem cellVec_nonneg (l : Nat) (c : Int) (hc : c ∈ intRange (c0 l) (c0 l + 4 ^ l - 1)) :
    0 ≤ (cellVec l c).1 ∧ (cellVec l c).1 < 2 ^ l
      ∧ 0 ≤ (cellVec l c).2 ∧ (cellVec l c).2 < 2 ^ l := by
  obtain ⟨v, hv, rfl⟩ := exists_vec_of_mem_level l c hc
  rw [cellVec_serial l v ⟨hv.1, hv.2.2.1, hv.2.2.2⟩]
  exact hv

/-- Effect of the mother body of `upward` for the cell `c` of level `l`: it
replaces `phi[c][a]`, `a ≤ P`, by the sum of the translated multipoles of the
four daughters. -/
theorem upward_cell_apply (P l : Nat) (BOX : ℝ) (phi : Int × Nat → ℝ × ℝ) (c : Int)
    (hc : c ∈ intRange (c0 l) (c0 l + 4 ^ l - 1)) (x : Int × Nat) :
    toC (upward_cell P l BOX phi c x)
      = if x.1 = c ∧ x.2 ≤ P then m2mTotalC toC l BOX phi c x.2 else toC (phi x) := by
  have hv := cellVec_nonneg l c hc
  have hds : ∀ d ∈ daughters (cellVec l c), serial (l + 1) (2 ^ (l + 1)) d ≠ c := by
    intro d hd
    rw [mem_daughters] at hd
    exact daughter_serial_ne l c hc d (by omega)
  have hfold : upward_cell P l BOX phi c
      = (daughters (cellVec l c)).foldl
          (upward_daughter P l (BOX / (((2 : Int) ^ l : Int) : ℝ)) (2 ^ l) c (cellVec l c))
          (clearCell P phi c) := by
    unfold upward_cell daughters
    simp only [intRange_two, List.foldl_cons, List.foldl_nil]
  rw [hfold, upward_daughters_apply P l _ c _ _ hds, clearCell_apply]
  unfold m2mTotalC
  have hmap : ((daughters (cellVec l c)).map (fun d =>
        m2mSumC (fun b => toC (clearCell P phi c (serial (l + 1) (2 ^ (l + 1)) d, b)))
          (toC (upward_zdm (BOX / (((2 : Int) ^ l : Int) : ℝ)) (cellVec l c) d)) x.2))
      = ((daughters (cellVec l c)).map (fun d =>
        m2mSumC (fun b => toC (phi (serial (l + 1) (2 ^ (l + 1)) d, b)))
          (toC (upward_zdm (BOX / (((2 : Int) ^ l : Int) : ℝ)) (cellVec l c) d)) x.2)) := by
    apply List.map_congr_left
    intro d hd
    congr 1
    funext b
    rw [clearCell_apply, if_neg (fun h => hds d hd h.1)]
  rw [hmap]
  by_cases h : x.1 = c ∧ x.2 ≤ P
  · rw [if_pos h, if_pos h, if_pos h, toC_zero, zero_add]
  · rw [if_neg h, if_neg h, if_neg h, add_zero]

theorem m2mTotalC_congr (l : Nat) (BOX : ℝ) (phi phi2 : Int × Nat → ℝ × ℝ) (c : Int) (a : Nat)
    (h : ∀ d ∈ daughters (cellVec l c), ∀ b : Nat,
      toC (phi (serial (l + 1) (2 ^ (l + 1)) d, b))
        = toC (phi2 (serial (l + 1) (2 ^ (l + 1)) d, b))) :
    m2mTotalC toC l BOX phi c a = m2mTotalC toC l BOX phi2 c a := by
  unfold m2mTotalC
  congr 1
  apply List.map_congr_left
  intro d hd
  congr 1
  funext b
  exact h d hd b

theorem daughter_mem_level (l : Nat) (c : Int) (hc : c ∈ intRange (c0 l) (c0 l + 4 ^ l - 1))
    (d : Int × Int) (hd : d ∈ daughters (cellVec l c)) :
    0 ≤ d.1 ∧ d.1 < 2 ^ (l + 1) ∧ 0 ≤ d.2 ∧ d.2 < 2 ^ (l + 1) := by
  have hv := cellVec_nonneg l c hc
  rw [mem_daughters] at hd
  rw [pow_succ]
  omega

/-- The mother loop of `upward` over cells of the level `l`. -/
theorem upward_pass_apply (P l : Nat) (BOX : ℝ) (cs : List Int)
    (hcs : ∀ c ∈ cs, c ∈ intRange (c0 l) (c0 l + 4 ^ l - 1))
    (phi : Int × Nat → ℝ × ℝ) (x : Int × Nat) :
    toC (cs.foldl (upward_cell P l BOX) phi x)
      = if x.1 ∈ cs ∧ x.2 ≤ P then m2mTotalC toC l BOX phi x.1 x.2 else toC (phi x) := by
  induction cs generalizing phi with
  | nil => simp
  | cons c cs ih =>
    have hc := hcs c (List.mem_cons_self _ _)
    have hcs2 : ∀ c2 ∈ cs, c2 ∈ intRange (c0 l) (c0 l + 4 ^ l - 1) := fun c2 h =>
      hcs c2 (List.mem_cons_of_mem _ h)
    have hkeep : ∀ c2, c2 ∈ intRange (c0 l) (c0 l + 4 ^ l - 1) → ∀ a,
        m2mTotalC toC l BOX (upward_cell P l BOX phi c) c2 a = m2mTotalC toC l BOX phi c2 a := by
      intro c2 hc2 a
      apply m2mTotalC_congr
      intro d hd b
      have hdm := daughter_mem_level l c2 hc2 d hd
      rw [upward_cell_apply P l BOX phi c hc,
        if_neg (fun h => daughter_serial_ne l c hc d ⟨hdm.1, hdm.2.2.1⟩ h.1)]
    rw [List.foldl_cons, ih hcs2]
    by_cases h1 : x.1 ∈ cs ∧ x.2 ≤ P
    · rw [if_pos h1, if_pos ⟨List.mem_cons_of_mem _ h1.1, h1.2⟩, hkeep _ (hcs2 _ h1.1)]
    · rw [if_neg h1, upward_cell_apply P l BOX phi c hc]
      by_cases h2 : x.1 = c ∧ x.2 ≤ P
      · rw [if_pos h2, if_pos ⟨by rw [h2.1]; exact List.mem_cons_self _ _, h2.2⟩, h2.1]
      · rw [if_neg h2, if_neg]
        rintro ⟨h3, h4⟩
        rcases List.mem_cons.mp h3 with h5 | h5
        · exact h2 ⟨h5, h4⟩
        · exact h1 ⟨h5, h4⟩

theorem upward_succ {R : Type} [Field R] (P n : Nat) (BOX : R) (phi : Int × Nat → R × R) :
    upward P (n + 1) BOX phi
      = upward P n BOX ((intRange (c0 n) (c0 n + 4 ^ n - 1)).foldl (upward_cell P n BOX) phi) := by
  unfold upward
  rw [List.range_succ, List.reverse_append, List.reverse_singleton, List.singleton_append,
    List.foldl_cons]

/-- The level loop of `upward` over the levels `n-1, ..., 0`: the cells of the
levels `n` and deeper keep their multipoles, and every cell of a level `l < n`
holds the sum of the translated multipoles of its four daughters. -/
theorem upward_levels (P : Nat) (BOX : ℝ) (n : Nat) (phi : Int × Nat → ℝ × ℝ) :
    (∀ x : Int × Nat, (c0 n ≤ x.1 ∨ x.1 < 0 ∨ P < x.2) →
        toC (upward P n BOX phi x) = toC (phi x))
    ∧ (∀ l : Nat, l < n → ∀ x : Int × Nat, c0 l ≤ x.1 → x.1 < c0 (l + 1) → x.2 ≤ P →
        toC (upward P n BOX phi x) = m2mTotalC toC l BOX (upward P n BOX phi) x.1 x.2) := by
  induction n generalizing phi with
  | zero =>
    constructor
    · intro x _
      rfl
    · intro l h
      omega
  | succ n ih =>
    rw [upward_succ]
    obtain ⟨ih1, ih2⟩ := ih ((intRange (c0 n) (c0 n + 4 ^ n - 1)).foldl (upward_cell P n BOX) phi)
    have hpass := upward_pass_apply P n BOX (intRange (c0 n) (c0 n + 4 ^ n - 1))
      (fun c h => h) phi
    have h00 : c0 0 = 0 := by decide
    have hmono : c0 0 ≤ c0 n := c0_le _ _ (Nat.zero_le _)
    have hmono2 : c0 n ≤ c0 (n + 1) := c0_le _ _ (Nat.le_succ _)
    constructor
    · intro x hx
      rw [ih1 x (by omega), hpass, if_neg]
      rintro ⟨h1, h2⟩
      rw [mem_level_iff] at h1
      omega
    · intro l hl x hx1 hx2 hx3
      by_cases hln : l = n
      · subst hln
        rw [ih1 x (Or.inl hx1), hpass, if_pos ⟨(mem_level_iff l x.1).mpr ⟨hx1, hx2⟩, hx3⟩]
        apply m2mTotalC_congr
        intro d hd b
        have hdm := daughter_mem_level l x.1 ((mem_level_iff l x.1).mpr ⟨hx1, hx2⟩) d hd
        have hlev := (mem_level_iff (l + 1) _).mp (serial_mem_level (l + 1) d hdm)
        rw [ih1 _ (Or.inl (by simp only; omega)), hpass, if_neg]
        rintro ⟨h1, _⟩
        rw [mem_level_iff] at h1
        simp only at h1
        omega
      · exact ih2 l (by omega) x hx1 hx2 hx3

/-! ## The multipoles of all the levels -/

theorem mp_leaf_closed (P L N : Nat) (BOX : ℝ) (hB : 0 < BOX) (z : Nat → ℝ × ℝ)
    (q : Nat → ℝ) (phi0 : Int × Nat → ℝ × ℝ)
    (hz : ∀ j < N, (0 ≤ (z j).1 ∧ (z j).1 < BOX) ∧ (0 ≤ (z j).2 ∧ (z j).2 < BOX))
    (v : Int × Int) (hv : 0 ≤ v.1 ∧ v.1 < 2 ^ L ∧ 0 ≤ v.2 ∧ v.2 < 2 ^ L)
    (a : Nat) (ha : a ≤ P) :
    toC (mp_leaf P L N BOX z q phi0 (serial L (2 ^ L) v, a))
      = ∑ j in Finset.range N,
          if mp_leaf_cj (BOX / (((2 : Int) ^ L : Int) : ℝ)) (z j) = v
          then p2mTerm (q j : ℂ)
            (toC (z j) - toC (cellCentre (BOX / (((2 : Int) ^ L : Int) : ℝ)) v)) a
          else 0 := by
  unfold mp_leaf
  rw [mp_leaf_particles_apply P L BOX z q _ N _ ha, foldl_clearCell_apply,
    if_pos ⟨serial_mem_level L v hv, ha⟩, toC_zero, zero_add]
  apply Finset.sum_congr rfl
  intro j hj
  have hj2 := hz j (Finset.mem_range.mp hj)
  have hcj := mp_leaf_cj_mem L BOX hB (z j) hj2
  by_cases hc : mp_leaf_cj (BOX / (((2 : Int) ^ L : Int) : ℝ)) (z j) = v
  · rw [if_pos hc, if_pos (by rw [hc]), hc, relPos_eq_sub]
    rfl
  · rw [if_neg hc, if_neg]
    intro h
    exact hc (serial_injective L (2 ^ L) _ v ⟨hcj.2.2.1, hcj.2.2.2⟩
      ⟨hv.2.2.1, hv.2.2.2⟩ h.symm)

theorem floor_half (y : ℝ) : ⌊y / 2⌋ = ⌊y⌋ / 2 := by
  rw [Int.floor_eq_iff]
  have h1 : (⌊y⌋ : ℝ) ≤ y := Int.floor_le y
  have h2 : y < (⌊y⌋ : ℝ) + 1 := Int.lt_floor_add_one y
  have h3 : 2 * (⌊y⌋ / 2) ≤ ⌊y⌋ := by omega
  have h4 : ⌊y⌋ ≤ 2 * (⌊y⌋ / 2) + 1 := by omega
  have h5 : (2 : ℝ) * ((⌊y⌋ / 2 : Int) : ℝ) ≤ (⌊y⌋ : ℝ) := by exact_mod_cast h3
  have h6 : (⌊y⌋ : ℝ) ≤ 2 * ((⌊y⌋ / 2 : Int) : ℝ) + 1 := by exact_mod_cast h4
  constructor <;> linarith

/-- The cell of the level `l` that contains a position is the mother of the
cell of the level `l + 1` that contains it. -/
theorem mp_leaf_cj_half (l : Nat) (BOX : ℝ) (hB : 0 < BOX) (zj : ℝ × ℝ)
    (hz : 0 ≤ zj.1 ∧ 0 ≤ zj.2) :
    mp_leaf_cj (BOX / (((2 : Int) ^ l : Int) : ℝ)) zj
      = ((mp_leaf_cj (BOX / (((2 : Int) ^ (l + 1) : Int) : ℝ)) zj).1 / 2,
          (mp_leaf_cj (BOX / (((2 : Int) ^ (l + 1) : Int) : ℝ)) zj).2 / 2) := by
  have hlc : (0 : ℝ) < (((2 : Int) ^ (l + 1) : Int) : ℝ) := by
    exact_mod_cast (pow_pos (by norm_num : (0 : Int) < 2) (l + 1))
  have hrc : 0 < BOX / (((2 : Int) ^ (l + 1) : Int) : ℝ) := div_pos hB hlc
  have e : BOX / (((2 : Int) ^ l : Int) : ℝ)
      = 2 * (BOX / (((2 : Int) ^ (l + 1) : Int) : ℝ)) := by
    push_cast
    rw [pow_succ]
    field_simp
    ring
  rw [e]
  generalize BOX / (((2 : Int) ^ (l + 1) : Int) : ℝ) = rc at hrc
  have key : ∀ x : ℝ, 0 ≤ x → trunc (x / (2 * rc)) = trunc (x / rc) / 2 := by
    intro x hx
    rw [trunc_of_nonneg _ (div_nonneg hx (by linarith)),
      trunc_of_nonneg _ (div_nonneg hx (le_of_lt hrc)), ← floor_half]
    congr 1
    field_simp
    left
    ring
  unfold mp_leaf_cj
  rw [key _ hz.1, key _ hz.2]

theorem choose_div (a g : Nat) (hg : g < a) :
    ((Nat.choose (a - 1) (a - g - 1) : Nat) : ℂ) * (1 / ((a - g : Nat) : ℂ))
      = ((Nat.choose a g : Nat) : ℂ) * (1 / (a : ℂ)) := by
  obtain ⟨n, rfl⟩ : ∃ n, a = n + 1 := ⟨a - 1, by omega⟩
  obtain ⟨k, hk⟩ : ∃ k, n = g + k := ⟨n - g, by omega⟩
  subst hk
  have e1 : g + k + 1 - 1 = g + k := by omega
  have e2 : g + k + 1 - g - 1 = k := by omega
  have e3 : g + k + 1 - g = k + 1 := by omega
  rw [e1, e2, e3]
  have hnat : (g + k + 1) * Nat.choose (g + k) k = Nat.choose (g + k + 1) g * (k + 1) := by
    have h := Nat.succ_mul_choose_eq (g + k) k
    have hs : Nat.choose (g + k + 1) g = Nat.choose (g + k + 1) (k + 1) := by
      rw [← Nat.choose_symm (by omega : k + 1 ≤ g + k + 1)]
      congr 1
      omega
    rw [hs]
    exact h
  have hc : (((g + k + 1 : Nat) : ℂ)) * ((Nat.choose (g + k) k : Nat) : ℂ)
      = ((Nat.choose (g + k + 1) g : Nat) : ℂ) * (((k + 1 : Nat) : ℂ)) := by
    exact_mod_cast hnat
  have h1 : ((k + 1 : Nat) : ℂ) ≠ 0 := by exact_mod_cast Nat.succ_ne_zero k
  have h2 : ((g + k + 1 : Nat) : ℂ) ≠ 0 := by exact_mod_cast Nat.succ_ne_zero (g + k)
  push_cast at hc h1 h2 ⊢
  rw [one_div, one_div, ← div_eq_mul_inv, ← div_eq_mul_inv, div_eq_div_iff h1 h2]
  rw [← hc]
  ring

theorem m2mSumC_congr (ph ph2 : Nat → ℂ) (t : ℂ) (a : Nat) (h : ∀ b, b ≤ a → ph b = ph2 b) :
    m2mSumC ph t a = m2mSumC ph2 t a := by
  unfold m2mSumC
  rw [h 0 (Nat.zero_le _)]
  congr 2
  apply Finset.sum_congr rfl
  intro g _
  rw [h (a - g) (Nat.sub_le _ _)]

theorem m2mSumC_sum (N : Nat) (f : Nat → Nat → ℂ) (t : ℂ) (a : Nat) :
    m2mSumC (fun b => ∑ j in Finset.range N, f j b) t a
      = ∑ j in Finset.range N, m2mSumC (f j) t a := by
  unfold m2mSumC
  by_cases ha : a = 0
  · simp only [if_pos ha]
  · simp only [if_neg ha]
    rw [Finset.sum_add_distrib, ← Finset.mul_sum, ← Finset.sum_mul, Finset.sum_comm]
    congr 1
    apply Finset.sum_congr rfl
    intro j _
    rw [Finset.mul_sum, Finset.sum_mul]

theorem m2mSumC_ite (p : Prop) [Decidable p] (ph : Nat → ℂ) (t : ℂ) (a : Nat) :
    m2mSumC (fun b => if p then ph b else 0) t a = if p then m2mSumC ph t a else 0 := by
  by_cases hp : p
  · simp only [if_pos hp]
  · simp only [if_neg hp]
    unfold m2mSumC
    simp

/-- Translating the multipole terms of one charge by `t` gives its multipole
terms about the shifted centre, while the weights `comb` are exact. -/
theorem m2mSumC_p2mTerm (q s t : ℂ) (a : Nat) (ha : a ≤ 13) :
    m2mSumC (p2mTerm q s) t a = p2mTerm q (s + t) a := by
  unfold m2mSumC
  by_cases h0 : a = 0
  · rw [if_pos h0]
    unfold p2mTerm
    rw [if_pos rfl, if_pos h0]
  · rw [if_neg h0]
    have hterm : ∀ g ∈ Finset.range a,
        ((comb ((a : Int) - 1) ((a : Int) - (g : Int) - 1) : Int) : ℂ) * p2mTerm q s (a - g)
          * t ^ g
        = -(1 / (a : ℂ)) * (q * (t ^ g * s ^ (a - g) * ((Nat.choose a g : Nat) : ℂ))) := by
      intro g hg
      rw [Finset.mem_range] at hg
      have e1 : (a : Int) - 1 = ((a - 1 : Nat) : Int) := by omega
      have e2 : (a : Int) - (g : Int) - 1 = ((a - g - 1 : Nat) : Int) := by omega
      rw [e1, e2, comb_table (a - 1) (List.mem_range.mpr (by omega)) (a - g - 1)
        (List.mem_range.mpr (by omega))]
      unfold p2mTerm
      rw [if_neg (by omega)]
      have hcd := choose_div a g hg
      rw [Int.cast_natCast]
      calc ((Nat.choose (a - 1) (a - g - 1) : Nat) : ℂ)
            * (-(1 / ((a - g : Nat) : ℂ)) * (q * s ^ (a - g))) * t ^ g
          = -(((Nat.choose (a - 1) (a - g - 1) : Nat) : ℂ) * (1 / ((a - g : Nat) : ℂ)))
              * (q * s ^ (a - g) * t ^ g) := by ring
        _ = -(((Nat.choose a g : Nat) : ℂ) * (1 / (a : ℂ))) * (q * s ^ (a - g) * t ^ g) := by
            rw [hcd]
        _ = _ := by ring
    rw [Finset.sum_congr rfl hterm, ← Finset.mul_sum, ← Finset.mul_sum]
    unfold p2mTerm
    rw [if_pos rfl, if_neg h0, add_comm s t, add_pow, Finset.sum_range_succ]
    simp only [Nat.sub_self, pow_zero, Nat.choose_self, Nat.cast_one, mul_one]
    ring

theorem upward_zdm_eq_centres (rc : ℝ) (v d : Int × Int) :
    toC (upward_zdm rc v d) = toC (cellCentre (rc / 2) d) - toC (cellCentre rc v) := by
  unfold upward_zdm cellCentre
  apply Complex.ext <;> simp [toC]

theorem daughters_ite_sum (u v : Int × Int) (T : ℂ) :
    (if u = (2 * v.1, 2 * v.2) then T else 0)
      + ((if u = (2 * v.1, 2 * v.2 + 1) then T else 0)
        + ((if u = (2 * v.1 + 1, 2 * v.2) then T else 0)
          + (if u = (2 * v.1 + 1, 2 * v.2 + 1) then T else 0)))
      = if (u.1 / 2, u.2 / 2) = v then T else 0 := by
  obtain ⟨u1, u2⟩ := u
  obtain ⟨v1, v2⟩ := v
  simp only [Prod.mk.injEq]
  by_cases h : u1 / 2 = v1 ∧ u2 / 2 = v2
  · rw [if_pos h]
    have h1 : u1 = 2 * v1 ∨ u1 = 2 * v1 + 1 := by omega
    have h2 : u2 = 2 * v2 ∨ u2 = 2 * v2 + 1 := by omega
    rcases h1 with h1 | h1 <;> rcases h2 with h2 | h2 <;> subst h1 <;> subst h2 <;> simp
  · rw [if_neg h, if_neg (by omega), if_neg (by omega), if_neg (by omega), if_neg (by omega)]
    simp

/-- The multipoles of every cell of every level after `mp_leaf` and `upward`,
as a sum over the particles that the cell contains. -/
theorem upward_closed (P L N : Nat) (hP : P ≤ 13) (BOX : ℝ) (hB : 0 < BOX) (z : Nat → ℝ × ℝ)
    (q : Nat → ℝ) (phi0 : Int × Nat → ℝ × ℝ)
    (hz : ∀ j < N, (0 ≤ (z j).1 ∧ (z j).1 < BOX) ∧ (0 ≤ (z j).2 ∧ (z j).2 < BOX)) :
    ∀ k l : Nat, l + k = L → ∀ v : Int × Int,
      (0 ≤ v.1 ∧ v.1 < 2 ^ l ∧ 0 ≤ v.2 ∧ v.2 < 2 ^ l) → ∀ a : Nat, a ≤ P →
      toC (upward P L BOX (mp_leaf P L N BOX z q phi0) (serial l (2 ^ l) v, a))
        = ∑ j in Finset.range N,
            if mp_leaf_cj (BOX / (((2 : Int) ^ l : Int) : ℝ)) (z j) = v
            then p2mTerm (q j : ℂ)
              (toC (z j) - toC (cellCentre (BOX / (((2 : Int) ^ l : Int) : ℝ)) v)) a
            else 0 := by
  intro k
  induction k with
  | zero =>
    intro l hl v hv a ha
    have e : l = L := by omega
    subst e
    have hmem := (mem_level_iff l _).mp (serial_mem_level l v hv)
    rw [(upward_levels P BOX l _).1 _ (Or.inl hmem.1), mp_leaf_closed P l N BOX hB z q phi0 hz v hv
      a ha]
  | succ k ih =>
    intro l hl v hv a ha
    have hmem := (mem_level_iff l _).mp (serial_mem_level l v hv)
    rw [(upward_levels P BOX L _).2 l (by omega) (serial l (2 ^ l) v, a) hmem.1 hmem.2 ha]
    unfold m2mTotalC
    simp only
    rw [cellVec_serial l v ⟨hv.1, hv.2.2.1, hv.2.2.2⟩]
    have hrc : BOX / (((2 : Int) ^ (l + 1) : Int) : ℝ)
        = BOX / (((2 : Int) ^ l : Int) : ℝ) / 2 := by
      push_cast
      rw [pow_succ]
      field_simp
    have hd : ∀ d ∈ daughters v,
        m2mSumC (fun b => toC (upward P L BOX (mp_leaf P L N BOX z q phi0)
            (serial (l + 1) (2 ^ (l + 1)) d, b)))
          (toC (upward_zdm (BOX / (((2 : Int) ^ l : Int) : ℝ)) v d)) a
        = ∑ j in Finset.range N,
            if mp_leaf_cj (BOX / (((2 : Int) ^ (l + 1) : Int) : ℝ)) (z j) = d
            then p2mTerm (q j : ℂ)
              (toC (z j) - toC (cellCentre (BOX / (((2 : Int) ^ l : Int) : ℝ)) v)) a
            else 0 := by
      intro d hdm
      have hdg : 0 ≤ d.1 ∧ d.1 < 2 ^ (l + 1) ∧ 0 ≤ d.2 ∧ d.2 < 2 ^ (l + 1) := by
        rw [mem_daughters] at hdm
        rw [pow_succ]
        omega
      rw [m2mSumC_congr _ (fun b => ∑ j in Finset.range N,
          if mp_leaf_cj (BOX / (((2 : Int) ^ (l + 1) : Int) : ℝ)) (z j) = d
          then p2mTerm (q j : ℂ)
            (toC (z j) - toC (cellCentre (BOX / (((2 : Int) ^ (l + 1) : Int) : ℝ)) d)) b
          else 0) _ _ (fun b hb => ih (l + 1) (by omega) d hdg b (by omega)),
        m2mSumC_sum N (fun j b =>
          if mp_leaf_cj (BOX / (((2 : Int) ^ (l + 1) : Int) : ℝ)) (z j) = d
          then p2mTerm (q j : ℂ)
            (toC (z j) - toC (cellCentre (BOX / (((2 : Int) ^ (l + 1) : Int) : ℝ)) d)) b
          else 0)]
      apply Finset.sum_congr rfl
      intro j _
      rw [m2mSumC_ite, m2mSumC_p2mTerm _ _ _ a (by omega), upward_zdm_eq_centres, hrc]
      congr 2
      ring
    rw [List.map_congr_left hd]
    unfold daughters
    simp only [List.map_cons, List.map_nil, List.sum_cons, List.sum_nil, add_zero]
    rw [← Finset.sum_add_distrib, ← Finset.sum_add_distrib, ← Finset.sum_add_distrib]
    apply Finset.sum_congr rfl
    intro j hj
    have hzj := hz j (Finset.mem_range.mp hj)
    rw [mp_leaf_cj_half l BOX hB (z j) ⟨hzj.1.1, hzj.2.1⟩]
    exact daughters_ite_sum _ v _

theorem mp_leaf_cj_eq_iff (rc : ℝ) (hrc : 0 < rc) (zj : ℝ × ℝ) (hz : 0 ≤ zj.1 ∧ 0 ≤ zj.2)
    (v : Int × Int) :
    mp_leaf_cj rc zj = v ↔
      ((v.1 : ℝ) * rc ≤ zj.1 ∧ zj.1 < ((v.1 : ℝ) + 1) * rc)
        ∧ ((v.2 : ℝ) * rc ≤ zj.2 ∧ zj.2 < ((v.2 : ℝ) + 1) * rc) := by
  unfold mp_leaf_cj
  rw [trunc_of_nonneg _ (div_nonneg hz.1 (le_of_lt hrc)),
    trunc_of_nonneg _ (div_nonneg hz.2 (le_of_lt hrc)), Prod.ext_iff]
  simp only
  rw [Int.floor_eq_iff, Int.floor_eq_iff, le_div_iff₀ hrc, div_lt_iff₀ hrc, le_div_iff₀ hrc,
    div_lt_iff₀ hrc]

/-- C17: the upward pass is exact while the weights `comb` are (`P ≤ 13`, which
covers the configured `P = 6`). After `mp_leaf` and `upward`, over exact real
arithmetic and for positions in `[0,BOX)^2`, for every level `l` in `0..L` and
every cell `c` of level `l` (vector index `v`, centre `c_c`, side
`rc = BOX/2^l`): `phi[c][0]` is the sum of `q[j]` over the particles `j` that
`c` contains, with zero imaginary part, and for `1 ≤ a ≤ P`,
`phi[c][a] = -Σ (q[j]/a) * (z_j - c_c)^a` over the same particles, which is
the multipole that `mp_leaf` forms directly about a leaf centre; a particle is
contained in `c` when `v*rc ≤ z_j < (v+1)*rc` in both coordinates; and
`phi[0][0]` of the root is the total charge. -/
theorem upward_multipoles (P L N : Nat) (hP : P ≤ 13) (BOX : ℝ) (hB : 0 < BOX)
    (z : Nat → ℝ × ℝ) (q : Nat → ℝ) (phi0 : Int × Nat → ℝ × ℝ)
    (hz : ∀ j < N, (0 ≤ (z j).1 ∧ (z j).1 < BOX) ∧ (0 ≤ (z j).2 ∧ (z j).2 < BOX)) :
    (∀ l : Nat, l ≤ L → ∀ v : Int × Int, (0 ≤ v.1 ∧ v.1 < 2 ^ l ∧ 0 ≤ v.2 ∧ v.2 < 2 ^ l) →
      upward P L BOX (mp_leaf P L N BOX z q phi0) (serial l (2 ^ l) v, 0)
          = (∑ j in (Finset.range N).filter (fun j =>
              mp_leaf_cj (BOX / (((2 : Int) ^ l : Int) : ℝ)) (z j) = v), q j, 0)
      ∧ (∀ a : Nat, 1 ≤ a → a ≤ P →
          toC (upward P L BOX (mp_leaf P L N BOX z q phi0) (serial l (2 ^ l) v, a))
            = -(∑ j in (Finset.range N).filter (fun j =>
                mp_leaf_cj (BOX / (((2 : Int) ^ l : Int) : ℝ)) (z j) = v),
                ((q j : ℂ) / (a : ℂ))
                  * (toC (z j) - toC (cellCentre (BOX / (((2 : Int) ^ l : Int) : ℝ)) v)) ^ a))
      ∧ (∀ j : Nat, j < N →
          (mp_leaf_cj (BOX / (((2 : Int) ^ l : Int) : ℝ)) (z j) = v ↔
            ((v.1 : ℝ) * (BOX / (((2 : Int) ^ l : Int) : ℝ)) ≤ (z j).1
              ∧ (z j).1 < ((v.1 : ℝ) + 1) * (BOX / (((2 : Int) ^ l : Int) : ℝ)))
            ∧ ((v.2 : ℝ) * (BOX / (((2 : Int) ^ l : Int) : ℝ)) ≤ (z j).2
              ∧ (z j).2 < ((v.2 : ℝ) + 1) * (BOX / (((2 : Int) ^ l : Int) : ℝ))))))
    ∧ upward P L BOX (mp_leaf P L N BOX z q phi0) (0, 0)
        = (∑ j in Finset.range N, q j, 0) := by
  have hzero : ∀ l : Nat, l ≤ L → ∀ v : Int × Int,
      (0 ≤ v.1 ∧ v.1 < 2 ^ l ∧ 0 ≤ v.2 ∧ v.2 < 2 ^ l) →
      upward P L BOX (mp_leaf P L N BOX z q phi0) (serial l (2 ^ l) v, 0)
          = (∑ j in (Finset.range N).filter (fun j =>
              mp_leaf_cj (BOX / (((2 : Int) ^ l : Int) : ℝ)) (z j) = v), q j, 0) := by
    intro l hl v hv
    apply toC_injective
    rw [upward_closed P L N hP BOX hB z q phi0 hz (L - l) l (by omega) v hv 0 (Nat.zero_le _),
      ← Finset.sum_filter]
    unfold p2mTerm
    simp only [if_true]
    apply Complex.ext
    · simp [toC]
    · simp [toC]
  constructor
  · intro l hl v hv
    refine ⟨hzero l hl v hv, ?_, ?_⟩
    · intro a ha1 ha2
      rw [upward_closed P L N hP BOX hB z q phi0 hz (L - l) l (by omega) v hv a ha2,
        ← Finset.sum_filter, ← Finset.sum_neg_distrib]
      apply Finset.sum_congr rfl
      intro j _
      unfold p2mTerm
      rw [if_neg (by omega)]
      ring
    · intro j hj
      have hlc : (0 : ℝ) < (((2 : Int) ^ l : Int) : ℝ) := by
        exact_mod_cast (pow_pos (by norm_num : (0 : Int) < 2) l)
      exact mp_leaf_cj_eq_iff _ (div_pos hB hlc) (z j) ⟨(hz j hj).1.1, (hz j hj).2.1⟩ v
  · have h := hzero 0 (Nat.zero_le _) (0, 0) (by norm_num)
    have hs : serial 0 (2 ^ 0) (0, 0) = 0 := by decide
    rw [hs] at h
    rw [h]
    congr 1
    apply Finset.sum_congr _ (fun _ _ => rfl)
    apply Finset.filter_true_of_mem
    intro j hj
    have hm := mp_leaf_cj_mem 0 BOX hB (z j) (hz j (Finset.mem_range.mp hj))
    apply Prod.ext
    · simp only
      omega
    · simp only
      omega

/-- Witness of C17: one unit charge at `(1/4,1/4)`, depth 1, order 1: the root
holds the total charge. -/
theorem upward_multipoles_witness :
    (1 ≤ 13) ∧ ((0 : ℝ) < 1)
    ∧ (∀ j < 1, (0 ≤ ((fun _ : Nat => ((1 / 4 : ℝ), (1 / 4 : ℝ))) j).1
          ∧ ((fun _ : Nat => ((1 / 4 : ℝ), (1 / 4 : ℝ))) j).1 < 1)
        ∧ (0 ≤ ((fun _ : Nat => ((1 / 4 : ℝ), (1 / 4 : ℝ))) j).2
          ∧ ((fun _ : Nat => ((1 / 4 : ℝ), (1 / 4 : ℝ))) j).2 < 1))
    ∧ upward 1 1 (1 : ℝ) (mp_leaf 1 1 1 (1 : ℝ) (fun _ => ((1 / 4 : ℝ), (1 / 4 : ℝ)))
          (fun _ => 1) (fun _ => (0, 0))) (0, 0)
        = (∑ j in Finset.range 1, (fun _ : Nat => (1 : ℝ)) j, 0) :=
  have hz : ∀ j < 1, (0 ≤ ((fun _ : Nat => ((1 / 4 : ℝ), (1 / 4 : ℝ))) j).1
          ∧ ((fun _ : Nat => ((1 / 4 : ℝ), (1 / 4 : ℝ))) j).1 < 1)
        ∧ (0 ≤ ((fun _ : Nat => ((1 / 4 : ℝ), (1 / 4 : ℝ))) j).2
          ∧ ((fun _ : Nat => ((1 / 4 : ℝ), (1 / 4 : ℝ))) j).2 < 1) := by
    intro j _
    norm_num
  ⟨by decide, by norm_num, hz,
    (upward_multipoles 1 1 1 (by decide) (1 : ℝ) (by norm_num)
      (fun _ => ((1 / 4 : ℝ), (1 / 4 : ℝ))) (fun _ => 1) (fun _ => (0, 0)) hz).2⟩

/-! ## The whole pipeline -/

/-- The run of `nn_direct` for positions in the box: it returns, and the
potential of a particle is the real part of the local expansion of its leaf
plus the pair terms of the visited pairs. -/
theorem nn_direct_run (log sqrt : ℝ → ℝ) (P L N : Nat) (BOX : ℝ) (hB : 0 < BOX)
    (z : Nat → ℝ × ℝ) (q : Nat → ℝ) (psi : Int × Nat → ℝ × ℝ) (st0 : NNState ℝ)
    (hz : ∀ j < N, (0 ≤ (z j).1 ∧ (z j).1 < BOX) ∧ (0 ≤ (z j).2 ∧ (z j).2 < BOX)) :
    ∃ pot : Nat → ℝ,
      nn_direct log sqrt P L N BOX z q psi st0 = some (pot, energy N q pot)
      ∧ ∀ j < N, pot j
          = (∑ a in Finset.range (P + 1),
              toC (psi (serial L (2 ^ L)
                  (nn_direct_vc (BOX / (((2 : Int) ^ L : Int) : ℝ)) (z j)), a))
                * (toC (z j) - toC (cellCentre (BOX / (((2 : Int) ^ L : Int) : ℝ))
                    (nn_direct_vc (BOX / (((2 : Int) ^ L : Int) : ℝ)) (z j)))) ^ a).re
            + ∑ k in Finset.range N,
                if ((j, k) ∈ nnPairs (nnCell L BOX z) L N ∨ (k, j) ∈ nnPairs (nnCell L BOX z) L N)
                then q k * pairLog log sqrt z j k else 0 := by
  obtain ⟨st, hst⟩ : ∃ st : NNState ℝ, st = (List.range N).foldl (nn_scan P L BOX z psi)
      { head := (intRange (c0 L) (c0 L + 4 ^ L - 1)).foldl
          (fun h c => store h c EMPTY) st0.head,
        lscl := st0.lscl, pot := st0.pot } := ⟨_, rfl⟩
  have hchain : ∀ c, c ∈ intRange (c0 L) (c0 L + 4 ^ L - 1) →
      IsChain st.lscl (st.head c) (members (nnCell L BOX z) N c) := by
    intro c hc
    rw [hst]
    apply nn_scan_chain
    simp only
    rw [foldl_reset, if_pos hc]
  have hrun := nn_cells_eq log sqrt z q L N (nnCell L BOX z) st.head st.lscl hchain st.pot
  have hmem := mem_nnPairs_iff L N BOX hB z hz
  refine ⟨(nnPairs (nnCell L BOX z) L N).foldl (pairUpd q (pairLog log sqrt z)) st.pot,
    ?_, ?_⟩
  · unfold nn_direct
    simp only
    rw [← hst, hrun]
  · intro j hj
    rw [foldl_pairUpd N q _ (pairLog_symm log sqrt z) _
      (fun p hp => ⟨((hmem p).mp hp).1, ((hmem p).mp hp).2.1⟩) (nodup_nnPairs _ _ _),
      hst, nn_scan_pot_fold, if_pos hj]
    congr 1
    have h := (nn_eval_loop psi (nnCell L BOX z j)
      (relPos (BOX / (((2 : Int) ^ L : Int) : ℝ)) (z j)
        (nn_direct_vc (BOX / (((2 : Int) ^ L : Int) : ℝ)) (z j))) (P + 1) (cini 0 0)).2
    rw [relPos_eq_sub] at h
    unfold nnCell at h ⊢
    rw [← h]
    rfl

theorem m2mSumC_zero (ph : Nat → ℂ) (t : ℂ) (a : Nat) (h : ∀ b, b ≤ a → ph b = 0) :
    m2mSumC ph t a = 0 := by
  rw [m2mSumC_congr ph (fun _ => 0) t a h]
  unfold m2mSumC
  simp

theorem l2lSumC_zero (P : Nat) (m : Nat → ℂ) (t : ℂ) (a : Nat) (ha : a ≤ P)
    (h : ∀ b, b ≤ P → m b = 0) : l2lSumC P m t a = 0 := by
  unfold l2lSumC
  apply Finset.sum_eq_zero
  intro g hg
  rw [Finset.mem_range] at hg
  rw [h (a + g) (by omega)]
  ring

theorem m2lSumC_zero (P : Nat) (ph : Nat → ℂ) (L0 I1 : ℂ) (a : Nat)
    (h : ∀ b, b ≤ P → ph b = 0) : m2lSumC P ph L0 I1 a = 0 := by
  unfold m2lSumC
  have hs : ∀ f : Nat → ℂ, ∑ b in Finset.Icc 1 P, f b * ph b = 0 := by
    intro f
    apply Finset.sum_eq_zero
    intro b hb
    rw [Finset.mem_Icc] at hb
    rw [h b hb.2]
    ring
  have h1 : ∑ b in Finset.Icc 1 P, ph b * I1 ^ b = 0 := by
    rw [← hs (fun b => I1 ^ b)]
    apply Finset.sum_congr rfl
    intro b _
    ring
  have h2 : ∑ b in Finset.Icc 1 P,
      ((comb ((a : Int) + (b : Int) - 1) ((b : Int) - 1) : Int) : ℂ) * ph b * I1 ^ b = 0 := by
    rw [← hs (fun b => ((comb ((a : Int) + (b : Int) - 1) ((b : Int) - 1) : Int) : ℂ) * I1 ^ b)]
    apply Finset.sum_congr rfl
    intro b _
    ring
  rw [h1, h2, h 0 (Nat.zero_le _)]
  split_ifs <;> simp

/-- Zero multipoles propagate up the tree: when the property `good` passes
from a cell to its four daughters and the good leaves hold zero multipoles,
every good cell holds zero multipoles after `upward`. -/
theorem upward_zero_of (P L : Nat) (BOX : ℝ) (phi : Int × Nat → ℝ × ℝ)
    (good : Nat → Int × Int → Prop)
    (hgood : ∀ l : Nat, l < L → ∀ v : Int × Int,
      (0 ≤ v.1 ∧ v.1 < 2 ^ l ∧ 0 ≤ v.2 ∧ v.2 < 2 ^ l) → good l v →
      ∀ d ∈ daughters v, good (l + 1) d)
    (hleaf : ∀ v : Int × Int, (0 ≤ v.1 ∧ v.1 < 2 ^ L ∧ 0 ≤ v.2 ∧ v.2 < 2 ^ L) → good L v →
      ∀ a : Nat, a ≤ P → phi (serial L (2 ^ L) v, a) = (0, 0)) :
    ∀ k l : Nat, l + k = L → ∀ v : Int × Int,
      (0 ≤ v.1 ∧ v.1 < 2 ^ l ∧ 0 ≤ v.2 ∧ v.2 < 2 ^ l) → good l v →
      ∀ a : Nat, a ≤ P → upward P L BOX phi (serial l (2 ^ l) v, a) = (0, 0) := by
  intro k
  induction k with
  | zero =>
    intro l hl v hv hg a ha
    have e : l = L := by omega
    subst e
    have hmem := (mem_level_iff l _).mp (serial_mem_level l v hv)
    apply toC_injective
    rw [(upward_levels P BOX l _).1 _ (Or.inl hmem.1), hleaf v hv hg a ha]
  | succ k ih =>
    intro l hl v hv hg a ha
    have hmem := (mem_level_iff l _).mp (serial_mem_level l v hv)
    apply toC_injective
    rw [(upward_levels P BOX L _).2 l (by omega) (serial l (2 ^ l) v, a) hmem.1 hmem.2 ha,
      toC_zero]
    unfold m2mTotalC
    simp only
    rw [cellVec_serial l v ⟨hv.1, hv.2.2.1, hv.2.2.2⟩]
    apply List.sum_eq_zero
    intro x hx
    rw [List.mem_map] at hx
    obtain ⟨d, hd, rfl⟩ := hx
    have hdg : 0 ≤ d.1 ∧ d.1 < 2 ^ (l + 1) ∧ 0 ≤ d.2 ∧ d.2 < 2 ^ (l + 1) := by
      rw [mem_daughters] at hd
      rw [pow_succ]
      omega
    apply m2mSumC_zero
    intro b hb
    rw [ih (l + 1) (by omega) d hdg (hgood l (by omega) v hv hg d hd) b (by omega), toC_zero]

/-- Zero local expansions propagate down the tree: when the property `tgt`
passes from a cell of a level `l ≥ 3` to its mother and the interactive cells
of the cells with `tgt` hold zero multipoles, every cell with `tgt` holds a zero
local expansion after `downward`, whatever the logarithm. -/
theorem downward_zero_of (clg : ℝ × ℝ → ℝ × ℝ) (P L : Nat) (BOX : ℝ)
    (phi psi0 : Int × Nat → ℝ × ℝ) (tgt : Nat → Int × Int → Prop)
    (hphi : ∀ l : Nat, 2 ≤ l → l ≤ L → ∀ v : Int × Int,
      (0 ≤ v.1 ∧ v.1 < 2 ^ l ∧ 0 ≤ v.2 ∧ v.2 < 2 ^ l) → tgt l v →
      ∀ w ∈ m2l_visits (2 ^ l) v, ∀ b : Nat, b ≤ P → phi (serial l (2 ^ l) w, b) = (0, 0))
    (hup : ∀ l : Nat, 3 ≤ l → l ≤ L → ∀ v : Int × Int,
      (0 ≤ v.1 ∧ v.1 < 2 ^ l ∧ 0 ≤ v.2 ∧ v.2 < 2 ^ l) → tgt l v →
      tgt (l - 1) (v.1 / 2, v.2 / 2)) :
    ∀ l : Nat, l ≤ L → ∀ v : Int × Int,
      (0 ≤ v.1 ∧ v.1 < 2 ^ l ∧ 0 ≤ v.2 ∧ v.2 < 2 ^ l) → tgt l v →
      ∀ a : Nat, a ≤ P → downward_with clg P L BOX phi psi0 (serial l (2 ^ l) v, a) = (0, 0) := by
  obtain ⟨h01, h2⟩ := downward_with_closed clg P L BOX phi psi0
  have hlow : ∀ l : Nat, l ≤ 1 → ∀ v : Int × Int,
      (0 ≤ v.1 ∧ v.1 < 2 ^ l ∧ 0 ≤ v.2 ∧ v.2 < 2 ^ l) → ∀ a : Nat, a ≤ P →
      downward_with clg P L BOX phi psi0 (serial l (2 ^ l) v, a) = (0, 0) := by
    intro l hl v hv a ha
    have hmem := serial_mem_level l v hv
    rw [mem_intRange] at hmem
    exact h01 l hl _ hmem.1 (by omega) a ha
  intro l
  induction l with
  | zero =>
    intro _ v hv _ a ha
    exact hlow 0 (by omega) v hv a ha
  | succ n ih =>
    intro hl v hv ht a ha
    by_cases hn : n + 1 ≤ 1
    · exact hlow (n + 1) hn v hv a ha
    · apply toC_injective
      rw [h2 (n + 1) (by omega) hl v hv a ha, toC_zero]
      have hvm := half_vec_mem (n + 1) (by omega) v hv
      simp only [Nat.add_sub_cancel] at hvm ⊢
      have hmother : ∀ b : Nat, b ≤ P →
          toC (downward_with clg P L BOX phi psi0
            (serial n (2 ^ n) (v.1 / 2, v.2 / 2), b)) = 0 := by
        intro b hb
        by_cases hn1 : n ≤ 1
        · rw [hlow n hn1 _ hvm b hb, toC_zero]
        · have := hup (n + 1) (by omega) hl v hv ht
          simp only [Nat.add_sub_cancel] at this
          rw [ih (by omega) _ hvm this b hb, toC_zero]
      rw [l2lSumC_zero P _ _ a ha hmother, zero_add]
      apply Finset.sum_eq_zero
      intro w hw
      rw [List.mem_toFinset] at hw
      apply m2lSumC_zero
      intro b hb
      rw [hphi (n + 1) (by omega) hl v hv ht w hw b hb, toC_zero]

/-! ## Zero charges -/

theorem p2mTerm_zero (s : ℂ) (a : Nat) : p2mTerm (0 : ℂ) s a = 0 := by
  unfold p2mTerm
  split_ifs <;> simp

/-- C12: with all charges zero and positions in `[0,BOX)^2`, over exact real
arithmetic (with any real functions for `log`, `sqrt` and `atan`, so whatever
finite value the logarithm takes), after `mp_leaf; upward; downward` every
coefficient `phi[c][a]` and `psi[c][a]`, `a ≤ P`, of every cell of every level
`0..L` is zero; `nn_direct` returns `pot[j] = 0` for every particle and
`eng = 0`; and `all_direct` gives `pot_direct[j] = 0` and `eng_direct = 0`. -/
theorem zero_charges_give_zero (log sqrt : ℝ → ℝ) (atan : DoubleQuot ℝ → ℝ)
    (P L N : Nat) (BOX : ℝ) (hB : 0 < BOX)
    (z : Nat → ℝ × ℝ) (q : Nat → ℝ) (phi0 psi0 : Int × Nat → ℝ × ℝ) (st0 : NNState ℝ)
    (pot0 : Nat → ℝ)
    (hz : ∀ j < N, (0 ≤ (z j).1 ∧ (z j).1 < BOX) ∧ (0 ≤ (z j).2 ∧ (z j).2 < BOX))
    (hq : ∀ j < N, q j = 0) :
    (∀ l : Nat, l ≤ L → ∀ v : Int × Int, (0 ≤ v.1 ∧ v.1 < 2 ^ l ∧ 0 ≤ v.2 ∧ v.2 < 2 ^ l) →
      ∀ a : Nat, a ≤ P →
        upward P L BOX (mp_leaf P L N BOX z q phi0) (serial l (2 ^ l) v, a) = (0, 0)
        ∧ downward log sqrt atan P L BOX (upward P L BOX (mp_leaf P L N BOX z q phi0)) psi0
            (serial l (2 ^ l) v, a) = (0, 0))
    ∧ (∃ pot : Nat → ℝ,
        nn_direct log sqrt P L N BOX z q
          (downward log sqrt atan P L BOX (upward P L BOX (mp_leaf P L N BOX z q phi0)) psi0)
          st0 = some (pot, 0)
        ∧ ∀ j < N, pot j = 0)
    ∧ (∀ j < N, (all_direct log sqrt N z q pot0).1 j = 0)
    ∧ (all_direct log sqrt N z q pot0).2 = 0 := by
  have hleaf : ∀ v : Int × Int, (0 ≤ v.1 ∧ v.1 < 2 ^ L ∧ 0 ≤ v.2 ∧ v.2 < 2 ^ L) → True →
      ∀ a : Nat, a ≤ P → mp_leaf P L N BOX z q phi0 (serial L (2 ^ L) v, a) = (0, 0) := by
    intro v hv _ a ha
    apply toC_injective
    rw [mp_leaf_closed P L N BOX hB z q phi0 hz v hv a ha, toC_zero]
    apply Finset.sum_eq_zero
    intro j hj
    rw [hq j (Finset.mem_range.mp hj)]
    push_cast
    rw [p2mTerm_zero]
    simp
  have hphi : ∀ l : Nat, l ≤ L → ∀ v : Int × Int,
      (0 ≤ v.1 ∧ v.1 < 2 ^ l ∧ 0 ≤ v.2 ∧ v.2 < 2 ^ l) → ∀ a : Nat, a ≤ P →
      upward P L BOX (mp_leaf P L N BOX z q phi0) (serial l (2 ^ l) v, a) = (0, 0) :=
    fun l hl v hv a ha =>
      upward_zero_of P L BOX _ (fun _ _ => True) (fun _ _ _ _ _ _ _ => trivial) hleaf
        (L - l) l (by omega) v hv trivial a ha
  have hpsi : ∀ l : Nat, l ≤ L → ∀ v : Int × Int,
      (0 ≤ v.1 ∧ v.1 < 2 ^ l ∧ 0 ≤ v.2 ∧ v.2 < 2 ^ l) → ∀ a : Nat, a ≤ P →
      downward log sqrt atan P L BOX (upward P L BOX (mp_leaf P L N BOX z q phi0)) psi0
        (serial l (2 ^ l) v, a) = (0, 0) := by
    intro l hl v hv a ha
    rw [downward_eq_with]
    apply downward_zero_of (clgn log sqrt atan) P L BOX _ psi0 (fun _ _ => True) _
      (fun _ _ _ _ _ _ => trivial) l hl v hv trivial a ha
    intro l2 h1 h2 v2 hv2 _ w hw b hb
    have hwg := ((mem_m2l_visits _ v2 w ⟨hv2.1, hv2.2.2.1⟩).mp hw).1
    exact hphi l2 h2 w hwg b hb
  have hpd : ∀ j < N, all_direct_pot log sqrt N z q pot0 j = 0 := by
    intro j hj
    rw [all_direct_pot_apply log sqrt N z q pot0 j hj]
    apply Finset.sum_eq_zero
    intro k hk
    rw [hq k (Finset.mem_range.mp (Finset.mem_of_mem_erase hk)), zero_mul]
  have heng : ∀ pot : Nat → ℝ, energy N q pot = 0 := by
    intro pot
    rw [energy_eq_sum]
    have : ∑ j in Finset.range (N - 1), q j * pot j = 0 := by
      apply Finset.sum_eq_zero
      intro j hj
      rw [hq j (by have := Finset.mem_range.mp hj; omega), zero_mul]
    rw [this, zero_mul]
  refine ⟨fun l hl v hv a ha => ⟨hphi l hl v hv a ha, hpsi l hl v hv a ha⟩, ?_, hpd, heng _⟩
  obtain ⟨pot, hrun, hpot⟩ := nn_direct_run log sqrt P L N BOX hB z q
    (downward log sqrt atan P L BOX (upward P L BOX (mp_leaf P L N BOX z q phi0)) psi0) st0 hz
  refine ⟨pot, ?_, ?_⟩
  · rw [hrun, heng]
  · intro j hj
    rw [hpot j hj]
    have hcell := nn_direct_vc_mem L BOX hB (z j) (hz j hj)
    have h1 : ∑ a in Finset.range (P + 1),
        toC (downward log sqrt atan P L BOX (upward P L BOX (mp_leaf P L N BOX z q phi0)) psi0
            (serial L (2 ^ L) (nn_direct_vc (BOX / (((2 : Int) ^ L : Int) : ℝ)) (z j)), a))
          * (toC (z j) - toC (cellCentre (BOX / (((2 : Int) ^ L : Int) : ℝ))
              (nn_direct_vc (BOX / (((2 : Int) ^ L : Int) : ℝ)) (z j)))) ^ a = 0 := by
      apply Finset.sum_eq_zero
      intro a ha
      rw [hpsi L le_rfl _ hcell a (by have := Finset.mem_range.mp ha; omega), toC_zero, zero_mul]
    have h2 : ∑ k in Finset.range N,
        (if ((j, k) ∈ nnPairs (nnCell L BOX z) L N ∨ (k, j) ∈ nnPairs (nnCell L BOX z) L N)
          then q k * pairLog log sqrt z j k else 0) = 0 := by
      apply Finset.sum_eq_zero
      intro k hk
      rw [hq k (Finset.mem_range.mp hk), zero_mul]
      simp
    rw [h1, h2]
    simp

/-- Witness of C12: one particle of charge zero at `(1/4,1/4)` in the unit box. -/
theorem zero_charges_give_zero_witness :
    ((0 : ℝ) < 1)
    ∧ (∀ j < 1, (0 ≤ ((fun _ : Nat => ((1 / 4 : ℝ), (1 / 4 : ℝ))) j).1
          ∧ ((fun _ : Nat => ((1 / 4 : ℝ), (1 / 4 : ℝ))) j).1 < 1)
        ∧ (0 ≤ ((fun _ : Nat => ((1 / 4 : ℝ), (1 / 4 : ℝ))) j).2
          ∧ ((fun _ : Nat => ((1 / 4 : ℝ), (1 / 4 : ℝ))) j).2 < 1))
    ∧ (∀ j < 1, (fun _ : Nat => (0 : ℝ)) j = 0)
    ∧ (all_direct Real.log Real.sqrt 1 (fun _ => ((1 / 4 : ℝ), (1 / 4 : ℝ))) (fun _ => 0)
        (fun _ => 0)).2 = 0 :=
  have hz : ∀ j < 1, (0 ≤ ((fun _ : Nat => ((1 / 4 : ℝ), (1 / 4 : ℝ))) j).1
          ∧ ((fun _ : Nat => ((1 / 4 : ℝ), (1 / 4 : ℝ))) j).1 < 1)
        ∧ (0 ≤ ((fun _ : Nat => ((1 / 4 : ℝ), (1 / 4 : ℝ))) j).2
          ∧ ((fun _ : Nat => ((1 / 4 : ℝ), (1 / 4 : ℝ))) j).2 < 1) := by
    intro j _
    norm_num
  ⟨by norm_num, hz, fun _ _ => rfl,
    (zero_charges_give_zero Real.log Real.sqrt (atan_ieee Real.arctan (Real.pi / 2) 0) 6 2 1 (1 : ℝ) (by norm_num)
      (fun _ => ((1 / 4 : ℝ), (1 / 4 : ℝ))) (fun _ => 0) (fun _ => (0, 0)) (fun _ => (0, 0))
      { head := fun _ => 0, lscl := fun _ => 0, pot := fun _ => 0 } (fun _ => 0) hz
      (fun _ _ => rfl)).2.2.2⟩

/-! ## A single particle -/

set_option maxRecDepth 100000 in
/-- The 32-bit `fact(k)` is non-zero for `0 ≤ k ≤ 33`, so `comb` never divides
by zero for arguments up to 33; `fact(34)` wraps to zero. -/
theorem fact_ne_zero : (∀ k ∈ List.range 34, fact (k : Int) ≠ 0) ∧ fact 34 = 0 := by
  decide

/-- C11: with a single particle (`N = 1`) at any position in `[0,BOX)^2`, any
charge, every depth `L` (in particular `L ≥ 2`) and every order `P ≥ 0`, over
exact real arithmetic and whatever the initial contents of the arrays, the
pipeline `mp_leaf; upward; downward; nn_direct` returns with `pot[0] = 0`, and
`all_direct` gives `pot_direct[0] = 0`. (The divisors `fact(k)` of `comb` are
taken at `k ≤ P` and are non-zero for `k ≤ 33`, lemma `fact_ne_zero`, which
covers every order that the arrays of `Max_term = 20` terms can hold; for a
zero divisor the model takes the quotient 0.) -/
theorem single_particle_zero (log sqrt : ℝ → ℝ) (atan : DoubleQuot ℝ → ℝ)
    (P L : Nat) (BOX : ℝ) (hB : 0 < BOX)
    (z : Nat → ℝ × ℝ) (q : Nat → ℝ) (phi0 psi0 : Int × Nat → ℝ × ℝ) (st0 : NNState ℝ)
    (pot0 : Nat → ℝ)
    (hz : (0 ≤ (z 0).1 ∧ (z 0).1 < BOX) ∧ (0 ≤ (z 0).2 ∧ (z 0).2 < BOX)) :
    (∃ (pot : Nat → ℝ) (eng : ℝ),
        nn_direct log sqrt P L 1 BOX z q
          (downward log sqrt atan P L BOX (upward P L BOX (mp_leaf P L 1 BOX z q phi0)) psi0)
          st0 = some (pot, eng)
        ∧ pot 0 = 0)
    ∧ (all_direct log sqrt 1 z q pot0).1 0 = 0 := by
  have hz1 : ∀ j < 1, (0 ≤ (z j).1 ∧ (z j).1 < BOX) ∧ (0 ≤ (z j).2 ∧ (z j).2 < BOX) := by
    intro j hj
    have e : j = 0 := by omega
    rw [e]
    exact hz
  obtain ⟨u, hu⟩ : ∃ u, u = mp_leaf_cj (BOX / (((2 : Int) ^ L : Int) : ℝ)) (z 0) := ⟨_, rfl⟩
  have hug : 0 ≤ u.1 ∧ u.1 < 2 ^ L ∧ 0 ≤ u.2 ∧ u.2 < 2 ^ L := by
    rw [hu]
    exact mp_leaf_cj_mem L BOX hB (z 0) hz
  have hleaf : ∀ v : Int × Int, (0 ≤ v.1 ∧ v.1 < 2 ^ L ∧ 0 ≤ v.2 ∧ v.2 < 2 ^ L) →
      v ≠ ancestor L L u →
      ∀ a : Nat, a ≤ P → mp_leaf P L 1 BOX z q phi0 (serial L (2 ^ L) v, a) = (0, 0) := by
    intro v hv hne a ha
    rw [ancestor_self] at hne
    apply toC_injective
    rw [mp_leaf_closed P L 1 BOX hB z q phi0 hz1 v hv a ha, toC_zero, Finset.sum_range_one,
      if_neg]
    rw [← hu]
    exact fun h => hne h.symm
  have hgood : ∀ l : Nat, l < L → ∀ v : Int × Int,
      (0 ≤ v.1 ∧ v.1 < 2 ^ l ∧ 0 ≤ v.2 ∧ v.2 < 2 ^ l) → v ≠ ancestor L l u →
      ∀ d ∈ daughters v, d ≠ ancestor L (l + 1) u := by
    intro l hl v _ hne d hd hd2
    apply hne
    rw [← ancestor_half L l (by omega) u, ← hd2]
    rw [mem_daughters] at hd
    apply Prod.ext
    · simp only
      omega
    · simp only
      omega
  have hphi : ∀ l : Nat, l ≤ L → ∀ v : Int × Int,
      (0 ≤ v.1 ∧ v.1 < 2 ^ l ∧ 0 ≤ v.2 ∧ v.2 < 2 ^ l) → v ≠ ancestor L l u →
      ∀ a : Nat, a ≤ P →
      upward P L BOX (mp_leaf P L 1 BOX z q phi0) (serial l (2 ^ l) v, a) = (0, 0) :=
    fun l hl v hv hne a ha =>
      upward_zero_of P L BOX _ (fun l v => v ≠ ancestor L l u) hgood hleaf
        (L - l) l (by omega) v hv hne a ha
  have hpsi : ∀ a : Nat, a ≤ P →
      downward log sqrt atan P L BOX (upward P L BOX (mp_leaf P L 1 BOX z q phi0)) psi0
        (serial L (2 ^ L) u, a) = (0, 0) := by
    intro a ha
    rw [downward_eq_with]
    apply downward_zero_of (clgn log sqrt atan) P L BOX _ psi0 (fun l v => v = ancestor L l u)
      _ _ L le_rfl u hug (ancestor_self L u).symm a ha
    · intro l h1 h2 v hv hv2 w hw b hb
      have hwm := (mem_m2l_visits _ v w ⟨hv.1, hv.2.2.1⟩).mp hw
      apply hphi l h2 w hwm.1 _ b hb
      intro h
      simp only at hv2
      rw [← hv2] at h
      rw [h] at hwm
      omega
    · intro l h1 h2 v _ hv2
      simp only at hv2 ⊢
      rw [hv2]
      have := ancestor_half L (l - 1) (by omega) u
      rw [Nat.sub_add_cancel (by omega)] at this
      exact this
  constructor
  · obtain ⟨pot, hrun, hpot⟩ := nn_direct_run log sqrt P L 1 BOX hB z q
      (downward log sqrt atan P L BOX (upward P L BOX (mp_leaf P L 1 BOX z q phi0)) psi0) st0
      hz1
    refine ⟨pot, _, hrun, ?_⟩
    rw [hpot 0 (by norm_num)]
    have hvc : nn_direct_vc (BOX / (((2 : Int) ^ L : Int) : ℝ)) (z 0) = u := by
      rw [hu]
      rfl
    rw [hvc]
    have h1 : ∑ a in Finset.range (P + 1),
        toC (downward log sqrt atan P L BOX (upward P L BOX (mp_leaf P L 1 BOX z q phi0)) psi0
            (serial L (2 ^ L) u, a))
          * (toC (z 0) - toC (cellCentre (BOX / (((2 : Int) ^ L : Int) : ℝ)) u)) ^ a = 0 := by
      apply Finset.sum_eq_zero
      intro a ha
      rw [hpsi a (by have := Finset.mem_range.mp ha; omega), toC_zero, zero_mul]
    have h2 : ¬ ((0, 0) ∈ nnPairs (nnCell L BOX z) L 1 ∨ (0, 0) ∈ nnPairs (nnCell L BOX z) L 1) := by
      rintro (h | h) <;>
      · have := ((mem_nnPairs_iff L 1 BOX hB z hz1 (0, 0)).mp h).1
        simp at this
    rw [h1, Finset.sum_range_one, if_neg h2]
    simp
  · show all_direct_pot log sqrt 1 z q pot0 0 = 0
    rw [all_direct_pot_apply log sqrt 1 z q pot0 0 (by norm_num)]
    apply Finset.sum_eq_zero
    intro k hk
    exfalso
    have h1 := Finset.ne_of_mem_erase hk
    have h2 := Finset.mem_range.mp (Finset.mem_of_mem_erase hk)
    omega

/-- Witness of C11: a unit charge at `(1/4,1/4)` in the unit box, depth 2 and
order 6. -/
theorem single_particle_zero_witness :
    ((0 : ℝ) < 1)
    ∧ ((0 ≤ ((fun _ : Nat => ((1 / 4 : ℝ), (1 / 4 : ℝ))) 0).1
          ∧ ((fun _ : Nat => ((1 / 4 : ℝ), (1 / 4 : ℝ))) 0).1 < 1)
        ∧ (0 ≤ ((fun _ : Nat => ((1 / 4 : ℝ), (1 / 4 : ℝ))) 0).2
          ∧ ((fun _ : Nat => ((1 / 4 : ℝ), (1 / 4 : ℝ))) 0).2 < 1))
    ∧ (all_direct Real.log Real.sqrt 1 (fun _ => ((1 / 4 : ℝ), (1 / 4 : ℝ))) (fun _ => 1)
        (fun _ => 0)).1 0 = 0 :=
  have hz : (0 ≤ ((fun _ : Nat => ((1 / 4 : ℝ), (1 / 4 : ℝ))) 0).1
          ∧ ((fun _ : Nat => ((1 / 4 : ℝ), (1 / 4 : ℝ))) 0).1 < 1)
        ∧ (0 ≤ ((fun _ : Nat => ((1 / 4 : ℝ), (1 / 4 : ℝ))) 0).2
          ∧ ((fun _ : Nat => ((1 / 4 : ℝ), (1 / 4 : ℝ))) 0).2 < 1) := by
    norm_num
  ⟨by norm_num, hz,
    (single_particle_zero Real.log Real.sqrt (atan_ieee Real.arctan (Real.pi / 2) 0) 6 2 (1 : ℝ) (by norm_num)
      (fun _ => ((1 / 4 : ℝ), (1 / 4 : ℝ))) (fun _ => 1) (fun _ => (0, 0)) (fun _ => (0, 0))
      { head := fun _ => 0, lscl := fun _ => 0, pot := fun _ => 0 } (fun _ => 0) hz).2⟩

/-! ## The argument returned by `clgn` -/

/-- The term 0 of the multipoles of every cell after `mp_leaf` and `upward`,
for every order: the sum of the charges of the particles in the cell. -/
theorem upward_term0 (P L N : Nat) (BOX : ℝ) (hB : 0 < BOX) (z : Nat → ℝ × ℝ)
    (q : Nat → ℝ) (phi0 : Int × Nat → ℝ × ℝ)
    (hz : ∀ j < N, (0 ≤ (z j).1 ∧ (z j).1 < BOX) ∧ (0 ≤ (z j).2 ∧ (z j).2 < BOX)) :
    ∀ k l : Nat, l + k = L → ∀ v : Int × Int,
      (0 ≤ v.1 ∧ v.1 < 2 ^ l ∧ 0 ≤ v.2 ∧ v.2 < 2 ^ l) →
      toC (upward P L BOX (mp_leaf P L N BOX z q phi0) (serial l (2 ^ l) v, 0))
        = ∑ j in Finset.range N,
            if mp_leaf_cj (BOX / (((2 : Int) ^ l : Int) : ℝ)) (z j) = v
            then (q j : ℂ) else 0 := by
  intro k
  induction k with
  | zero =>
    intro l hl v hv
    have e : l = L := by omega
    subst e
    have hmem := (mem_level_iff l _).mp (serial_mem_level l v hv)
    rw [(upward_levels P BOX l _).1 _ (Or.inl hmem.1),
      mp_leaf_closed P l N BOX hB z q phi0 hz v hv 0 (Nat.zero_le _)]
    rfl
  | succ k ih =>
    intro l hl v hv
    have hmem := (mem_level_iff l _).mp (serial_mem_level l v hv)
    rw [(upward_levels P BOX L _).2 l (by omega) (serial l (2 ^ l) v, 0) hmem.1 hmem.2
      (Nat.zero_le _)]
    unfold m2mTotalC
    simp only
    rw [cellVec_serial l v ⟨hv.1, hv.2.2.1, hv.2.2.2⟩]
    have hd : ∀ d ∈ daughters v,
        m2mSumC (fun b => toC (upward P L BOX (mp_leaf P L N BOX z q phi0)
            (serial (l + 1) (2 ^ (l + 1)) d, b)))
          (toC (upward_zdm (BOX / (((2 : Int) ^ l : Int) : ℝ)) v d)) 0
        = ∑ j in Finset.range N,
            if mp_leaf_cj (BOX / (((2 : Int) ^ (l + 1) : Int) : ℝ)) (z j) = d
            then (q j : ℂ) else 0 := by
      intro d hdm
      have hdg : 0 ≤ d.1 ∧ d.1 < 2 ^ (l + 1) ∧ 0 ≤ d.2 ∧ d.2 < 2 ^ (l + 1) := by
        rw [mem_daughters] at hdm
        rw [pow_succ]
        omega
      unfold m2mSumC
      rw [if_pos rfl]
      exact ih (l + 1) (by omega) d hdg
    rw [List.map_congr_left hd]
    unfold daughters
    simp only [List.map_cons, List.map_nil, List.sum_cons, List.sum_nil, add_zero]
    rw [← Finset.sum_add_distrib, ← Finset.sum_add_distrib, ← Finset.sum_add_distrib]
    apply Finset.sum_congr rfl
    intro j hj
    have hzj := hz j (Finset.mem_range.mp hj)
    rw [mp_leaf_cj_half l BOX hB (z j) ⟨hzj.1.1, hzj.2.1⟩]
    exact daughters_ite_sum _ v _

theorem toC_re (a : ℝ × ℝ) : (toC a).re = a.1 := rfl

theorem toC_im (a : ℝ × ℝ) : (toC a).im = a.2 := rfl

theorem l2lSumC_congr_pos (P : Nat) (m m2 : Nat → ℂ) (t : ℂ) (a : Nat) (ha : 1 ≤ a)
    (haP : a ≤ P) (h : ∀ b, 1 ≤ b → b ≤ P → m2 b = m b) :
    l2lSumC P m2 t a = l2lSumC P m t a := by
  unfold l2lSumC
  apply Finset.sum_congr rfl
  intro g hg
  rw [Finset.mem_range] at hg
  rw [h (a + g) (by omega) (by omega)]

theorem l2lSumC_zero_re (P : Nat) (m m2 : Nat → ℂ) (t : ℂ)
    (h : ∀ b, 1 ≤ b → b ≤ P → m2 b = m b) (h0 : (m2 0).re = (m 0).re) :
    (l2lSumC P m2 t 0).re = (l2lSumC P m t 0).re := by
  unfold l2lSumC
  rw [Nat.sub_zero, Finset.sum_range_succ', Finset.sum_range_succ', Complex.add_re,
    Complex.add_re]
  have h1 : ∑ g in Finset.range P,
      ((comb (((0 : Nat) : Int) + ((g + 1 : Nat) : Int)) ((0 : Nat) : Int) : Int) : ℂ)
        * m2 (0 + (g + 1)) * t ^ (g + 1)
      = ∑ g in Finset.range P,
      ((comb (((0 : Nat) : Int) + ((g + 1 : Nat) : Int)) ((0 : Nat) : Int) : Int) : ℂ)
        * m (0 + (g + 1)) * t ^ (g + 1) := by
    apply Finset.sum_congr rfl
    intro g hg
    rw [Finset.mem_range] at hg
    rw [h (0 + (g + 1)) (by omega) (by omega)]
  rw [h1]
  congr 1
  simp only [pow_zero, mul_one, Nat.add_zero]
  rw [Complex.mul_re, Complex.mul_re, h0]
  simp

theorem m2lSumC_congr_pos (P : Nat) (ph : Nat → ℂ) (L0 L02 I1 : ℂ) (a : Nat) (ha : 1 ≤ a) :
    m2lSumC P ph L02 I1 a = m2lSumC P ph L0 I1 a := by
  unfold m2lSumC
  rw [if_neg (by omega), if_neg (by omega)]

theorem m2lSumC_zero_re (P : Nat) (ph : Nat → ℂ) (L0 L02 I1 : ℂ) (hph : (ph 0).im = 0)
    (hL : L02.re = L0.re) :
    (m2lSumC P ph L02 I1 0).re = (m2lSumC P ph L0 I1 0).re := by
  unfold m2lSumC
  rw [if_pos rfl, if_pos rfl, Complex.add_re, Complex.add_re, Complex.mul_re, Complex.mul_re,
    hph, hL, zero_mul, zero_mul]

/-- Two logarithms with the same real part give, for multipoles whose term 0
is real, local expansions that agree but for the imaginary part of the term 0. -/
theorem downward_with_re (clg clg2 : ℝ × ℝ → ℝ × ℝ) (hclg : ∀ a, (clg2 a).1 = (clg a).1)
    (P L : Nat) (BOX : ℝ) (phi psi0 : Int × Nat → ℝ × ℝ)
    (hphi : ∀ l : Nat, l ≤ L → ∀ v : Int × Int,
      (0 ≤ v.1 ∧ v.1 < 2 ^ l ∧ 0 ≤ v.2 ∧ v.2 < 2 ^ l) → (phi (serial l (2 ^ l) v, 0)).2 = 0) :
    ∀ l : Nat, l ≤ L → ∀ v : Int × Int, (0 ≤ v.1 ∧ v.1 < 2 ^ l ∧ 0 ≤ v.2 ∧ v.2 < 2 ^ l) →
      (∀ a : Nat, 1 ≤ a → a ≤ P →
        downward_with clg2 P L BOX phi psi0 (serial l (2 ^ l) v, a)
          = downward_with clg P L BOX phi psi0 (serial l (2 ^ l) v, a))
      ∧ (downward_with clg2 P L BOX phi psi0 (serial l (2 ^ l) v, 0)).1
          = (downward_with clg P L BOX phi psi0 (serial l (2 ^ l) v, 0)).1 := by
  obtain ⟨h01, h2⟩ := downward_with_closed clg P L BOX phi psi0
  obtain ⟨k01, k2⟩ := downward_with_closed clg2 P L BOX phi psi0
  have hlow : ∀ l : Nat, l ≤ 1 → ∀ v : Int × Int,
      (0 ≤ v.1 ∧ v.1 < 2 ^ l ∧ 0 ≤ v.2 ∧ v.2 < 2 ^ l) → ∀ a : Nat, a ≤ P →
      downward_with clg2 P L BOX phi psi0 (serial l (2 ^ l) v, a)
        = downward_with clg P L BOX phi psi0 (serial l (2 ^ l) v, a) := by
    intro l hl v hv a ha
    have hmem := serial_mem_level l v hv
    rw [mem_intRange] at hmem
    rw [h01 l hl _ hmem.1 (by omega) a ha, k01 l hl _ hmem.1 (by omega) a ha]
  intro l
  induction l with
  | zero =>
    intro _ v hv
    exact ⟨fun a _ ha => hlow 0 (by omega) v hv a ha,
      by rw [hlow 0 (by omega) v hv 0 (Nat.zero_le _)]⟩
  | succ n ih =>
    intro hl v hv
    by_cases hn : n + 1 ≤ 1
    · exact ⟨fun a _ ha => hlow (n + 1) hn v hv a ha,
        by rw [hlow (n + 1) hn v hv 0 (Nat.zero_le _)]⟩
    · have hvm := half_vec_mem (n + 1) (by omega) v hv
      simp only [Nat.add_sub_cancel] at hvm
      obtain ⟨ihpos, ih0⟩ := ih (by omega) (v.1 / 2, v.2 / 2) hvm
      have hm : ∀ b, 1 ≤ b → b ≤ P →
          toC (downward_with clg2 P L BOX phi psi0 (serial n (2 ^ n) (v.1 / 2, v.2 / 2), b))
            = toC (downward_with clg P L BOX phi psi0
                (serial n (2 ^ n) (v.1 / 2, v.2 / 2), b)) := by
        intro b hb1 hb2
        rw [ihpos b hb1 hb2]
      constructor
      · intro a ha1 ha2
        apply toC_injective
        rw [h2 (n + 1) (by omega) hl v hv a ha2, k2 (n + 1) (by omega) hl v hv a ha2]
        simp only [Nat.add_sub_cancel]
        rw [l2lSumC_congr_pos P _ _ _ a ha1 ha2 hm]
        congr 1
        apply Finset.sum_congr rfl
        intro w _
        exact m2lSumC_congr_pos P _ _ _ _ a ha1
      · rw [← toC_re, ← toC_re, h2 (n + 1) (by omega) hl v hv 0 (Nat.zero_le _),
          k2 (n + 1) (by omega) hl v hv 0 (Nat.zero_le _)]
        simp only [Nat.add_sub_cancel]
        rw [Complex.add_re, Complex.add_re, Complex.re_sum, Complex.re_sum,
          l2lSumC_zero_re P _ _ _ hm (by rw [toC_re, toC_re, ih0])]
        congr 1
        apply Finset.sum_congr rfl
        intro w hw
        rw [List.mem_toFinset] at hw
        have hwg := ((mem_m2l_visits _ v w ⟨hv.1, hv.2.2.1⟩).mp hw).1
        apply m2lSumC_zero_re
        · rw [toC_im]
          exact hphi (n + 1) hl w hwg
        · rw [toC_re, toC_re, hclg]

/-- C19: the potentials do not depend on the argument that `clgn` returns.
Over exact real arithmetic, for real charges, positions in `[0,BOX)^2`, every
order and depth, and any real function `F` of the input of `clgn` taken for
its second component (for instance `atan2(im, re)` instead of `atan(im/re)`),
the runs `mp_leaf; upward; downward; nn_direct` with `clgn` and with the
replaced logarithm both return, with the same `pot[j]` for every particle and
the same `eng`; `phi[c][0]` has a zero imaginary part for every cell of every
level, and the two `psi` agree in every term `1 ≤ a ≤ P` and in the real part
of the term 0. -/
theorem potentials_independent_of_clgn_argument (log sqrt : ℝ → ℝ) (atan : DoubleQuot ℝ → ℝ)
    (F : ℝ × ℝ → ℝ)
    (P L N : Nat) (BOX : ℝ) (hB : 0 < BOX) (z : Nat → ℝ × ℝ) (q : Nat → ℝ)
    (phi0 psi0 : Int × Nat → ℝ × ℝ) (st0 : NNState ℝ)
    (hz : ∀ j < N, (0 ≤ (z j).1 ∧ (z j).1 < BOX) ∧ (0 ≤ (z j).2 ∧ (z j).2 < BOX)) :
    (∃ (pot pot2 : Nat → ℝ) (eng eng2 : ℝ),
      nn_direct log sqrt P L N BOX z q
          (downward log sqrt atan P L BOX (upward P L BOX (mp_leaf P L N BOX z q phi0)) psi0)
          st0 = some (pot, eng)
      ∧ nn_direct log sqrt P L N BOX z q
          (downward_with (fun a => ((clgn log sqrt atan a).1, F a)) P L BOX
            (upward P L BOX (mp_leaf P L N BOX z q phi0)) psi0)
          st0 = some (pot2, eng2)
      ∧ (∀ j < N, pot2 j = pot j) ∧ eng2 = eng)
    ∧ (∀ l : Nat, l ≤ L → ∀ v : Int × Int, (0 ≤ v.1 ∧ v.1 < 2 ^ l ∧ 0 ≤ v.2 ∧ v.2 < 2 ^ l) →
        (upward P L BOX (mp_leaf P L N BOX z q phi0) (serial l (2 ^ l) v, 0)).2 = 0
        ∧ (∀ a : Nat, 1 ≤ a → a ≤ P →
            downward_with (fun a => ((clgn log sqrt atan a).1, F a)) P L BOX
                (upward P L BOX (mp_leaf P L N BOX z q phi0)) psi0 (serial l (2 ^ l) v, a)
              = downward log sqrt atan P L BOX (upward P L BOX (mp_leaf P L N BOX z q phi0))
                  psi0 (serial l (2 ^ l) v, a))
        ∧ (downward_with (fun a => ((clgn log sqrt atan a).1, F a)) P L BOX
                (upward P L BOX (mp_leaf P L N BOX z q phi0)) psi0 (serial l (2 ^ l) v, 0)).1
            = (downward log sqrt atan P L BOX (upward P L BOX (mp_leaf P L N BOX z q phi0))
                  psi0 (serial l (2 ^ l) v, 0)).1) := by
  have hreal : ∀ l : Nat, l ≤ L → ∀ v : Int × Int,
      (0 ≤ v.1 ∧ v.1 < 2 ^ l ∧ 0 ≤ v.2 ∧ v.2 < 2 ^ l) →
      (upward P L BOX (mp_leaf P L N BOX z q phi0) (serial l (2 ^ l) v, 0)).2 = 0 := by
    intro l hl v hv
    rw [← toC_im, upward_term0 P L N BOX hB z q phi0 hz (L - l) l (by omega) v hv,
      Complex.im_sum]
    apply Finset.sum_eq_zero
    intro j _
    split_ifs <;> simp
  have hrel := downward_with_re (clgn log sqrt atan) (fun a => ((clgn log sqrt atan a).1, F a))
    (fun _ => rfl) P L BOX (upward P L BOX (mp_leaf P L N BOX z q phi0)) psi0 hreal
  refine ⟨?_, fun l hl v hv => ⟨hreal l hl v hv, ?_, ?_⟩⟩
  · obtain ⟨pot, hrun, hpot⟩ := nn_direct_run log sqrt P L N BOX hB z q
      (downward log sqrt atan P L BOX (upward P L BOX (mp_leaf P L N BOX z q phi0)) psi0) st0 hz
    obtain ⟨pot2, hrun2, hpot2⟩ := nn_direct_run log sqrt P L N BOX hB z q
      (downward_with (fun a => ((clgn log sqrt atan a).1, F a)) P L BOX
        (upward P L BOX (mp_leaf P L N BOX z q phi0)) psi0) st0 hz
    have heq : ∀ j < N, pot2 j = pot j := by
      intro j hj
      rw [hpot j hj, hpot2 j hj]
      congr 1
      have hcell := nn_direct_vc_mem L BOX hB (z j) (hz j hj)
      obtain ⟨hpos, h0⟩ := hrel L le_rfl _ hcell
      rw [downward_eq_with]
      rw [Finset.sum_range_succ', Finset.sum_range_succ', Complex.add_re, Complex.add_re]
      congr 1
      · congr 1
        apply Finset.sum_congr rfl
        intro a ha
        rw [Finset.mem_range] at ha
        rw [hpos (a + 1) (by omega) (by omega)]
      · simp only [pow_zero, mul_one]
        rw [toC_re, toC_re, h0]
    refine ⟨pot, pot2, _, _, hrun, hrun2, heq, ?_⟩
    rw [energy_eq_sum, energy_eq_sum]
    congr 1
    apply Finset.sum_congr rfl
    intro j hj
    rw [Finset.mem_range] at hj
    rw [heq j (by omega)]
  · intro a ha1 ha2
    rw [downward_eq_with]
    exact (hrel l hl v hv).1 a ha1 ha2
  · rw [downward_eq_with]
    exact (hrel l hl v hv).2

/-- Witness of C19: one unit charge at `(1/4,1/4)` in the unit box, with the
argument replaced by the constant 1: the term 0 of the root multipole is real. -/
theorem potentials_independent_of_clgn_argument_witness :
    ((0 : ℝ) < 1)
    ∧ (∀ j < 1, (0 ≤ ((fun _ : Nat => ((1 / 4 : ℝ), (1 / 4 : ℝ))) j).1
          ∧ ((fun _ : Nat => ((1 / 4 : ℝ), (1 / 4 : ℝ))) j).1 < 1)
        ∧ (0 ≤ ((fun _ : Nat => ((1 / 4 : ℝ), (1 / 4 : ℝ))) j).2
          ∧ ((fun _ : Nat => ((1 / 4 : ℝ), (1 / 4 : ℝ))) j).2 < 1))
    ∧ (upward 6 2 (1 : ℝ) (mp_leaf 6 2 1 (1 : ℝ) (fun _ => ((1 / 4 : ℝ), (1 / 4 : ℝ)))
          (fun _ => 1) (fun _ => (0, 0))) (serial 0 (2 ^ 0) (0, 0), 0)).2 = 0 :=
  have hz : ∀ j < 1, (0 ≤ ((fun _ : Nat => ((1 / 4 : ℝ), (1 / 4 : ℝ))) j).1
          ∧ ((fun _ : Nat => ((1 / 4 : ℝ), (1 / 4 : ℝ))) j).1 < 1)
        ∧ (0 ≤ ((fun _ : Nat => ((1 / 4 : ℝ), (1 / 4 : ℝ))) j).2
          ∧ ((fun _ : Nat => ((1 / 4 : ℝ), (1 / 4 : ℝ))) j).2 < 1) := by
    intro j _
    norm_num
  ⟨by norm_num, hz,
    ((potentials_independent_of_clgn_argument Real.log Real.sqrt (atan_ieee Real.arctan (Real.pi / 2) 0) (fun _ => 1)
      6 2 1 (1 : ℝ) (by norm_num) (fun _ => ((1 / 4 : ℝ), (1 / 4 : ℝ))) (fun _ => 1)
      (fun _ => (0, 0)) (fun _ => (0, 0))
      { head := fun _ => 0, lscl := fun _ => 0, pot := fun _ => 0 } hz).2
        0 (by decide) (0, 0) (by decide)).1⟩

/-! ## The difference of the two potentials -/

end FMM
